import Mathlib

/-!
# Minesweeper board engine

A shallow embedding of `Board` (src/include/Board.hpp, src/src/board.cpp) and
proofs of properties of its operations.

Conventions of the embedding.

* `int` coordinates are `Int`; the grid dimensions `rows_`, `cols_` are `Nat`
  (a grid has non-negative dimensions), no arithmetic here can overflow for a
  grid that fits in memory.
* `std::vector<Tile> tiles` is a `List Tile`; the class invariant
  `tiles.size() == rows_ * cols_` is the predicate `Board.WF`.
* `std::shuffle` is a parameter `shuf : List Nat → List Nat`; the theorems
  assume only that it returns a permutation of its argument.
* Reads and writes of `tiles[i]` are the total list operations `getTile` and
  `List.set`; on a board satisfying `Board.WF` every position the code forms
  from in-bounds coordinates, from `safeTiles` or from `pool` is in range.
* The two vector reads that can run past the end on such a board,
  `minePositions[i]` in `reset` and `pool[i]` in the first-click branch of
  `reveal` (undefined behaviour in the source), make the operation return
  `none`.
* The recursion of `Board::reveal` is driven by a fuel argument; `reveal`
  supplies `tiles.size() + 1`, which is proved to be enough.
-/

namespace Minesweeper

/-- One cell of the grid (`struct Tile`, without its drawing shape). -/
structure Tile where
  revealed : Bool := false
  flagged : Bool := false
  mine : Bool := false
  adjacentMines : Int := 0
deriving DecidableEq, Repr

/-- The state of `class Board` that the game logic reads and writes. -/
structure Board where
  rows_ : Nat
  cols_ : Nat
  tiles : List Tile
  firstClick_ : Bool
  highlightX_ : Int
  highlightY_ : Int
deriving DecidableEq, Repr

/-- Class invariant: the tile vector has one entry per grid position. -/
def Board.WF (b : Board) : Prop := b.tiles.length = b.rows_ * b.cols_

instance (b : Board) : Decidable b.WF := by unfold Board.WF; infer_instance

/-- Source `Board::index`: row-major position of `(x, y)`. -/
def index (b : Board) (x y : Int) : Int := y * b.cols_ + x

/-- Source `Board::inBounds`. -/
def inBounds (b : Board) (x y : Int) : Bool :=
  decide (x ≥ 0) && decide (x < b.cols_) && decide (y ≥ 0) && decide (y < b.rows_)

/-- Read of `tiles[i]`. -/
def getTile (ts : List Tile) (i : Nat) : Tile := ts.getD i {}

/-- Read of `tiles[index(x,y)]`. -/
def tileAt (b : Board) (x y : Int) : Tile := getTile b.tiles (index b x y).toNat

/-- Write of `tiles[index(x,y)]`. -/
def setTile (b : Board) (x y : Int) (t : Tile) : Board :=
  { b with tiles := b.tiles.set (index b x y).toNat t }

/-- The values taken by `dx` (and by `dy`) in `for (int d = -1; d <= 1; ++d)`. -/
def deltas : List Int := [-1, 0, 1]

/-- The pairs `(dx, dy)` in the order visited by the nested loops
`for dy in -1..1, for dx in -1..1`, centre included. -/
def offsets9 : List (Int × Int) :=
  [(-1, -1), (0, -1), (1, -1), (-1, 0), (0, 0), (1, 0), (-1, 1), (0, 1), (1, 1)]

/-- The pairs `(dx, dy)` visited by the nested loops once
`if (dx==0 && dy==0) continue;` has skipped the centre. -/
def offsets8 : List (Int × Int) :=
  [(-1, -1), (0, -1), (1, -1), (-1, 0), (1, 0), (-1, 1), (0, 1), (1, 1)]

/-- The positions `(x, y)` in the order of `for y < rows_, for x < cols_`. -/
def coords (rows cols : Nat) : List (Int × Int) :=
  (List.range rows).flatMap
    (fun (y : Nat) => (List.range cols).map (fun (x : Nat) => ((x : Int), (y : Int))))

/-- The body of the `x` loop of `Board::computeAdjacentMines` for one cell. -/
def computeCell (b : Board) (x y : Int) : Board :=
  let t := tileAt b x y
  let b0 := setTile b x y { t with adjacentMines := 0 }
  if t.mine then b0
  else
    offsets8.foldl (fun bb d =>
      if inBounds bb (x + d.1) (y + d.2) && (tileAt bb (x + d.1) (y + d.2)).mine then
        setTile bb x y { tileAt bb x y with adjacentMines := (tileAt bb x y).adjacentMines + 1 }
      else bb) b0

/-- Source `Board::computeAdjacentMines`. -/
def computeAdjacentMines (b : Board) : Board :=
  (coords b.rows_ b.cols_).foldl (fun bb p => computeCell bb p.1 p.2) b

/-- One pass of the `dx` loop inside `Board::reset`, for a fixed `dy`,
accumulating into `adjacentCount`. -/
def resetRow (b : Board) (x y dy : Int) (count : Int) : Int :=
  deltas.foldl (fun c dx =>
    if dx == 0 && dy == 0 then c
    else if inBounds b (x + dx) (y + dy) && (tileAt b (x + dx) (y + dy)).mine then c + 1
    else c) count

/-- The body of the `x` loop in the adjacency pass of `Board::reset`: the write
`t.adjacentMines = adjacentCount` sits inside the `dy` loop, after the `dx`
loop. -/
def resetCell (b : Board) (x y : Int) : Board :=
  if (tileAt b x y).mine then b
  else
    (deltas.foldl (fun (s : Int × Board) dy =>
      let c := resetRow s.2 x y dy s.1
      (c, setTile s.2 x y { tileAt s.2 x y with adjacentMines := c })) (0, b)).2

/-- A cleared tile, as left by the first loop of `Board::reset`. -/
def clearTile : Tile := { revealed := false, flagged := false, mine := false, adjacentMines := 0 }

/-- The loop `for (i = 0; i < k; ++i) tiles[v[i]].mine = true;` over the first
`k` entries `ps` of a vector `v` of positions (in `Board::reset` and in the
first-click branch of `Board::reveal`). -/
def placeMines (ps : List Nat) (ts : List Tile) : List Tile :=
  ps.foldl (fun ts p => ts.set p { getTile ts p with mine := true }) ts

/-- Source `Board::reset`. `shuf` is the outcome of `std::shuffle` on `minePositions`.
The result is `none` when the mine-placing loop would read `minePositions`
past its end (`numMines > rows * cols`). Every field of the board is assigned
by the source, so the previous state is no argument; the highlight, assigned
last, holds a placeholder until then. -/
def reset (shuf : List Nat → List Nat) (rows cols numMines : Nat) : Option Board :=
  let minePositions := shuf (List.range (rows * cols))
  if numMines ≤ minePositions.length then
    let ts := placeMines (minePositions.take numMines) (List.replicate (rows * cols) clearTile)
    let b : Board :=
      { rows_ := rows, cols_ := cols, tiles := ts, firstClick_ := true,
        highlightX_ := 0, highlightY_ := 0 }
    let b' := (coords rows cols).foldl (fun bb p => resetCell bb p.1 p.2) b
    some { b' with highlightX_ := -1, highlightY_ := -1 }
  else none

/-- The set `safeTiles` built by the first-click branch of `Board::reveal`:
the indices of the in-bounds cells of the 3x3 block around `(x, y)`, each
held once. -/
def safeTiles (b : Board) (x y : Int) : List Nat :=
  offsets9.foldl (fun s d =>
    if inBounds b (x + d.1) (y + d.2) then
      (if s.contains (index b (x + d.1) (y + d.2)).toNat then s
       else s ++ [(index b (x + d.1) (y + d.2)).toNat])
    else s) []

/-- The loop `for (int safeTile : safeTiles)`: collects into `toMove` the safe
tiles holding a mine and clears their mine. The set is visited in insertion
order; the source leaves the order open, and only the size of `toMove` and the
cleared tiles, which do not depend on it, are used afterwards. -/
def gatherMines (safe : List Nat) (ts : List Tile) : List Nat × List Tile :=
  safe.foldl (fun (s : List Nat × List Tile) i =>
    if (getTile s.2 i).mine then (s.1 ++ [i], s.2.set i { getTile s.2 i with mine := false })
    else s) ([], ts)

/-- The vector `pool` before it is shuffled: the indices of the tiles that
hold no mine and are not safe tiles. -/
def buildPool (n : Nat) (safe : List Nat) (ts : List Tile) : List Nat :=
  (List.range n).filter (fun i => !(getTile ts i).mine && !safe.contains i)

/-- The first-click branch of `Board::reveal`. The result is `none` when the
loop `tiles[pool[i]].mine = true` for `i < toMove.size()` would read `pool`
past its end. -/
def relocate (shuf : List Nat → List Nat) (b : Board) (x y : Int) : Option Board :=
  let safe := safeTiles b x y
  let g := gatherMines safe b.tiles
  let pool := shuf (buildPool (b.rows_ * b.cols_) safe g.2)
  if g.1.length ≤ pool.length then
    let ts := placeMines (pool.take g.1.length) g.2
    some (computeAdjacentMines { b with firstClick_ := false, tiles := ts })
  else none

/-- Source `Board::reveal`, with a bound `fuel` on the depth of the recursion; the
first component of the result is the returned `bool`. `none` is either fuel
exhausted or a `none` of `relocate`. -/
def revealFuel (shuf : List Nat → List Nat) : Nat → Board → Int → Int → Option (Bool × Board)
  | 0, _, _, _ => none
  | fuel + 1, b, x, y =>
    if !inBounds b x y then some (false, b)
    else
      match (if b.firstClick_ then relocate shuf b x y else some b) with
      | none => none
      | some b0 =>
        let t := tileAt b0 x y
        if t.revealed || t.flagged then some (false, b0)
        else
          let b1 := setTile b0 x y { t with revealed := true }
          if t.mine then some (true, b1)
          else if t.adjacentMines == 0 then
            (offsets8.foldlM (fun bb d =>
              (revealFuel shuf fuel bb (x + d.1) (y + d.2)).map Prod.snd) b1).map
              (fun bb => (false, bb))
          else some (false, b1)

/-- Source `Board::reveal`. -/
def reveal (shuf : List Nat → List Nat) (b : Board) (x y : Int) : Option (Bool × Board) :=
  revealFuel shuf (b.tiles.length + 1) b x y

/-- Source `Board::flag`. -/
def flag (b : Board) (x y : Int) : Board :=
  if !inBounds b x y then b
  else
    let t := tileAt b x y
    if !t.revealed then setTile b x y { t with flagged := !t.flagged } else b

/-- Source `Board::isCleared`. -/
def isCleared (b : Board) : Bool :=
  b.tiles.all (fun t => !(!t.revealed && !t.mine))

/-- The first loop nest of `Board::chord`: the number of flagged in-bounds
neighbours. -/
def countFlags (b : Board) (x y : Int) : Int :=
  offsets8.foldl (fun c d =>
    if inBounds b (x + d.1) (y + d.2) && (tileAt b (x + d.1) (y + d.2)).flagged then c + 1 else c) 0

/-- The body of the second loop nest of `Board::chord` for one neighbour;
the state is `(hit, board)`. -/
def chordStep (shuf : List Nat → List Nat) (x y : Int) (s : Bool × Board) (d : Int × Int) :
    Option (Bool × Board) :=
  if !inBounds s.2 (x + d.1) (y + d.2) then some s
  else
    let n := tileAt s.2 (x + d.1) (y + d.2)
    if n.flagged then some s
    else if n.mine then some (true, setTile s.2 (x + d.1) (y + d.2) { n with revealed := true })
    else (reveal shuf s.2 (x + d.1) (y + d.2)).map (fun r => (s.1, r.2))

/-- Source `Board::chord`. -/
def chord (shuf : List Nat → List Nat) (b : Board) (x y : Int) : Option (Bool × Board) :=
  if !inBounds b x y then some (false, b)
  else
    let t := tileAt b x y
    if !t.revealed || t.flagged then some (false, b)
    else if countFlags b x y != t.adjacentMines then some (false, b)
    else offsets8.foldlM (chordStep shuf x y) (false, b)

/-- The counting loop nest of `Board::AISolver`: `(flagCount, unrevealedCount)`
over the in-bounds neighbours of `(x, y)`. -/
def solverCounts (b : Board) (x y : Int) : Int × Int :=
  offsets8.foldl (fun (c : Int × Int) d =>
    if !inBounds b (x + d.1) (y + d.2) then c
    else
      let n := tileAt b (x + d.1) (y + d.2)
      if n.flagged then (c.1 + 1, c.2)
      else if !n.revealed then (c.1, c.2 + 1)
      else c) (0, 0)

/-- Rule 1 of `Board::AISolver` at `(x, y)`: reveal every unrevealed, unflagged
in-bounds neighbour. -/
def rule1Action (shuf : List Nat → List Nat) (b : Board) (x y : Int) : Option Board :=
  offsets8.foldlM (fun bb d =>
    if !inBounds bb (x + d.1) (y + d.2) then some bb
    else
      let n := tileAt bb (x + d.1) (y + d.2)
      if !n.revealed && !n.flagged then (reveal shuf bb (x + d.1) (y + d.2)).map Prod.snd
      else some bb) b

/-- Rule 2 of `Board::AISolver` at `(x, y)`: flag every unrevealed, unflagged
in-bounds neighbour. -/
def rule2Action (b : Board) (x y : Int) : Board :=
  offsets8.foldl (fun bb d =>
    if !inBounds bb (x + d.1) (y + d.2) then bb
    else
      let n := tileAt bb (x + d.1) (y + d.2)
      if !n.revealed && !n.flagged then setTile bb (x + d.1) (y + d.2) { n with flagged := true }
      else bb) b

/-- The scan of `Board::AISolver` over the positions still to visit. -/
def solverScan (shuf : List Nat → List Nat) (b : Board) : List (Int × Int) → Option (Bool × Board)
  | [] => some (false, { b with highlightX_ := -1, highlightY_ := -1 })
  | p :: rest =>
    let t := tileAt b p.1 p.2
    if !t.revealed || t.mine then solverScan shuf b rest
    else
      let b1 := { b with highlightX_ := p.1, highlightY_ := p.2 }
      let c := solverCounts b1 p.1 p.2
      if c.1 == t.adjacentMines && c.2 > 0 then
        (rule1Action shuf b1 p.1 p.2).map (fun bb => (true, bb))
      else
        let minesLeft := t.adjacentMines - c.1
        if minesLeft > 0 && c.2 == minesLeft then some (true, rule2Action b1 p.1 p.2)
        else solverScan shuf b1 rest

/-- Source `Board::AISolver`. -/
def AISolver (shuf : List Nat → List Nat) (b : Board) : Option (Bool × Board) :=
  solverScan shuf b (coords b.rows_ b.cols_)

/-- Source `Board::isRevealed`. -/
def isRevealed (b : Board) (x y : Int) : Bool := inBounds b x y && (tileAt b x y).revealed

/-- Source `Board::getAdjacentMines`. -/
def getAdjacentMines (b : Board) (x y : Int) : Int :=
  if inBounds b x y then (tileAt b x y).adjacentMines else 0

/-- Number of tiles holding a mine. -/
def mineCount (b : Board) : Nat := b.tiles.countP (fun t => t.mine)


/-! ## Specification vocabulary -/

/-- Number of in-bounds 8-neighbours of `(x, y)` that hold a mine. -/
def neighbourMines (b : Board) (x y : Int) : Nat :=
  offsets8.countP (fun d => inBounds b (x + d.1) (y + d.2) && (tileAt b (x + d.1) (y + d.2)).mine)

/-- Adjacency invariant: every cell of the grid without a mine stores the
number of its in-bounds neighbours that hold one. -/
def AdjOK (b : Board) : Prop :=
  ∀ p ∈ coords b.rows_ b.cols_,
    (tileAt b p.1 p.2).mine = false → (tileAt b p.1 p.2).adjacentMines = neighbourMines b p.1 p.2

instance (b : Board) : Decidable (AdjOK b) := by unfold AdjOK; infer_instance

/-- State invariant of a game: the tile vector matches the dimensions, and
while the first click is pending no tile is revealed. -/
def Board.Inv (b : Board) : Prop :=
  b.WF ∧ (b.firstClick_ = true → ∀ t ∈ b.tiles, t.revealed = false)

instance (b : Board) : Decidable b.Inv := by unfold Board.Inv; infer_instance

/-- Number of mines in the 3x3 block around `(x, y)`. -/
def minesInside (b : Board) (x y : Int) : Nat :=
  (safeTiles b x y).countP (fun i => (getTile b.tiles i).mine)

/-- Number of cells outside the 3x3 block around `(x, y)` that hold no mine. -/
def freeOutside (b : Board) (x y : Int) : Nat :=
  (List.range (b.rows_ * b.cols_)).countP
    (fun i => !(getTile b.tiles i).mine && !(safeTiles b x y).contains i)

/-- Capacity condition of the first-click relocation at `(x, y)`: the mines of
the 3x3 block fit into the mine-free cells outside it. -/
def Capacity (b : Board) (x y : Int) : Prop := minesInside b x y ≤ freeOutside b x y

instance (b : Board) (x y : Int) : Decidable (Capacity b x y) := by
  unfold Capacity; infer_instance

/-- The write `t.adjacentMines = v` at `(x, y)`. -/
def setAdj (b : Board) (x y : Int) (v : Int) : Board :=
  setTile b x y { tileAt b x y with adjacentMines := v }

/-- Two boards of the same dimensions whose tiles are related position by
position by `R`. -/
def TilesRel (R : Tile → Tile → Prop) (b b' : Board) : Prop :=
  b'.rows_ = b.rows_ ∧ b'.cols_ = b.cols_ ∧ b'.tiles.length = b.tiles.length ∧
    ∀ i, R (getTile b.tiles i) (getTile b'.tiles i)

/-- The tile keeps its mine. -/
def Tile.sameMine (t t' : Tile) : Prop := t'.mine = t.mine

/-- Only `adjacentMines` may differ. -/
def Tile.adjStep (t t' : Tile) : Prop :=
  t'.revealed = t.revealed ∧ t'.flagged = t.flagged ∧ t'.mine = t.mine

/-- Only `revealed` may differ, and only from false to true. -/
def Tile.revealStep (t t' : Tile) : Prop :=
  t'.mine = t.mine ∧ t'.flagged = t.flagged ∧ t'.adjacentMines = t.adjacentMines ∧
    (t.revealed = true → t'.revealed = true)

/-- Only `flagged` may differ. -/
def Tile.flagStep (t t' : Tile) : Prop :=
  t'.mine = t.mine ∧ t'.revealed = t.revealed ∧ t'.adjacentMines = t.adjacentMines

/-- Neither `mine` nor `adjacentMines` differs. -/
def Tile.softStep (t t' : Tile) : Prop :=
  t'.mine = t.mine ∧ t'.adjacentMines = t.adjacentMines

/-- Only `mine` may differ. -/
def Tile.mineStep (t t' : Tile) : Prop :=
  t'.revealed = t.revealed ∧ t'.flagged = t.flagged ∧ t'.adjacentMines = t.adjacentMines

/-- Neither `revealed` nor `flagged` differs. -/
def Tile.sameMarks (t t' : Tile) : Prop :=
  t'.revealed = t.revealed ∧ t'.flagged = t.flagged

/-- Number of tiles not yet revealed. -/
def unrevealedCount (b : Board) : Nat := b.tiles.countP (fun t => !t.revealed)

/-- Number of in-bounds 8-neighbours of `(x, y)` that are flagged. -/
def flaggedNeighbours (b : Board) (x y : Int) : Nat :=
  offsets8.countP (fun d => inBounds b (x + d.1) (y + d.2) && (tileAt b (x + d.1) (y + d.2)).flagged)

/-- Number of in-bounds 8-neighbours of `(x, y)` that are neither flagged nor
revealed. -/
def unknownNeighbours (b : Board) (x y : Int) : Nat :=
  offsets8.countP (fun d => inBounds b (x + d.1) (y + d.2) &&
    (!(tileAt b (x + d.1) (y + d.2)).flagged && !(tileAt b (x + d.1) (y + d.2)).revealed))

/-- Condition of Rule 1 at `(x, y)`: `flaggedNeighbors == adjacentMines` and
`unrevealedNeighbors > 0`. -/
def rule1Cond (b : Board) (x y : Int) : Bool :=
  decide ((flaggedNeighbours b x y : Int) = (tileAt b x y).adjacentMines) &&
    decide (0 < unknownNeighbours b x y)

/-- Condition of Rule 2 at `(x, y)`: `adjacentMines - flaggedNeighbors > 0` and
`unrevealedNeighbors == adjacentMines - flaggedNeighbors`. -/
def rule2Cond (b : Board) (x y : Int) : Bool :=
  decide ((tileAt b x y).adjacentMines - (flaggedNeighbours b x y : Int) > 0) &&
    decide ((unknownNeighbours b x y : Int)
      = (tileAt b x y).adjacentMines - (flaggedNeighbours b x y : Int))

/-- The tile at `(x, y)` is revealed, holds no mine, and one of the two rules
fires at it. -/
def solverFires (b : Board) (x y : Int) : Bool :=
  (tileAt b x y).revealed && !(tileAt b x y).mine && (rule1Cond b x y || rule2Cond b x y)

/-- Row-major order on positions: `p` is visited before `q`. -/
def rowMajorLt (p q : Int × Int) : Prop := p.2 < q.2 ∨ (p.2 = q.2 ∧ p.1 < q.1)

/-- The outcome of the scan over `L`, by the first position of `L` at which a
rule fires. -/
def scanOutcome (shuf : List Nat → List Nat) (b : Board) (L : List (Int × Int)) :
    Option (Bool × Board) :=
  match L.find? (fun p => solverFires b p.1 p.2) with
  | none => some (false, { b with highlightX_ := -1, highlightY_ := -1 })
  | some p =>
    if rule1Cond b p.1 p.2 then
      (rule1Action shuf { b with highlightX_ := p.1, highlightY_ := p.2 } p.1 p.2).map
        (fun bb => (true, bb))
    else some (true, rule2Action { b with highlightX_ := p.1, highlightY_ := p.2 } p.1 p.2)

/-- The tile at `(x, y)` is in bounds, holds no mine and has `adjacentMines == 0`. -/
def zeroCell (b : Board) (x y : Int) : Bool :=
  inBounds b x y && !(tileAt b x y).mine && decide ((tileAt b x y).adjacentMines = 0)

/-- The zero-region `Z` of `(x, y)`: the positions reachable from `(x, y)` by
8-adjacent steps through cells that hold no mine and have `adjacentMines == 0`. -/
inductive ZeroReach (b : Board) (x y : Int) : Int → Int → Prop
  | start : ZeroReach b x y x y
  | step (cx cy : Int) (d : Int × Int) :
      ZeroReach b x y cx cy → d ∈ offsets8 → zeroCell b (cx + d.1) (cy + d.2) = true →
      ZeroReach b x y (cx + d.1) (cy + d.2)

/-- The zero-region of `(x, y)` together with every 8-neighbour of one of its
cells. -/
def InRegion (b : Board) (x y cx cy : Int) : Prop :=
  ZeroReach b x y cx cy ∨
    ∃ zx zy : Int, ZeroReach b x y zx zy ∧ ∃ d ∈ offsets8, cx = zx + d.1 ∧ cy = zy + d.2

/-- A set `T` of positions that contains every 8-neighbour of each of its
zero cells. -/
def ClosedUnder (b : Board) (T : Int → Int → Prop) : Prop :=
  ∀ cx cy : Int, T cx cy → zeroCell b cx cy = true → ∀ d ∈ offsets8, T (cx + d.1) (cy + d.2)

/-- A revealed zero cell at `(cx, cy)` with an in-bounds neighbour that is
neither revealed nor flagged. -/
def OpenAt (b : Board) (cx cy : Int) : Prop :=
  zeroCell b cx cy = true ∧ (tileAt b cx cy).revealed = true ∧
    ∃ d ∈ offsets8, inBounds b (cx + d.1) (cy + d.2) = true ∧
      (tileAt b (cx + d.1) (cy + d.2)).revealed = false ∧
      (tileAt b (cx + d.1) (cy + d.2)).flagged = false

/-- A revealed tile stays revealed, and a tile that is not both flagged and
revealed does not become so. -/
def Tile.markStep (t t' : Tile) : Prop :=
  (t.revealed = true → t'.revealed = true) ∧
    ((t.flagged && t.revealed) = false → (t'.flagged && t'.revealed) = false)

/-- No tile is both flagged and revealed. -/
def NoFlaggedRevealed (b : Board) : Prop := ∀ t ∈ b.tiles, (t.flagged && t.revealed) = false

instance (b : Board) : Decidable (NoFlaggedRevealed b) := by
  unfold NoFlaggedRevealed; infer_instance

/-- The position `(cx, cy)` is an 8-neighbour of `(x, y)`. -/
def isNeighbour (x y cx cy : Int) : Prop := ∃ d ∈ offsets8, cx = x + d.1 ∧ cy = y + d.2

/-- The position `(cx, cy)` is an in-bounds 8-neighbour of `(x, y)` whose tile
is neither revealed nor flagged. -/
def unknownNeighbour (b : Board) (x y cx cy : Int) : Prop :=
  isNeighbour x y cx cy ∧ inBounds b cx cy = true ∧ (tileAt b cx cy).revealed = false ∧
    (tileAt b cx cy).flagged = false

/-- The fresh 3x3 board of the scenario: one mine at `(2, 2)`, adjacency counts
computed, first click pending, nothing revealed or flagged. -/
def scenario3x3 : Board :=
  ⟨3, 3, [{}, {}, {}, {}, { adjacentMines := 1 }, { adjacentMines := 1 },
    {}, { adjacentMines := 1 }, { mine := true }], true, -1, -1⟩

/-- The board of the scenario after `reveal(0, 0)`: every tile but the mine is
revealed, the first click is consumed. -/
def scenario3x3Revealed : Board :=
  ⟨3, 3, [{ revealed := true }, { revealed := true }, { revealed := true },
    { revealed := true }, { revealed := true, adjacentMines := 1 },
    { revealed := true, adjacentMines := 1 }, { revealed := true },
    { revealed := true, adjacentMines := 1 }, { mine := true }], false, -1, -1⟩

/-- The vector `toMove` of the first-click branch of `Board::reveal`: the safe
tiles that held a mine. -/
def toMove (b : Board) (x y : Int) : List Nat := (gatherMines (safeTiles b x y) b.tiles).1

/-- The tile vector when the relocation loop of `Board::reveal` starts: the
mines of the safe tiles are cleared. -/
def clearedTiles (b : Board) (x y : Int) : List Tile := (gatherMines (safeTiles b x y) b.tiles).2

/-- The vector `pool` of the first-click branch of `Board::reveal`, after
`std::shuffle`. -/
def pool (shuf : List Nat → List Nat) (b : Board) (x y : Int) : List Nat :=
  shuf (buildPool (b.rows_ * b.cols_) (safeTiles b x y) (clearedTiles b x y))

/-- Only `revealed` may differ, only from false to true, and a tile that
becomes revealed holds no mine. -/
def Tile.safeStep (t t' : Tile) : Prop :=
  Tile.revealStep t t' ∧ (t.revealed = false → t'.revealed = true → t.mine = false)

/-- The solver's soundness predicate: first click consumed, adjacency counts
correct, every flagged tile holds a mine, and no mine is revealed. -/
def SolverSound (b : Board) : Prop :=
  b.firstClick_ = false ∧ AdjOK b ∧ (∀ t ∈ b.tiles, t.flagged = true → t.mine = true) ∧
    (∀ t ∈ b.tiles, t.mine = true → t.revealed = false)

instance (b : Board) : Decidable (SolverSound b) := by
  unfold SolverSound; infer_instance

/-- Neither `mine` nor `adjacentMines` differs, `revealed` and `flagged` change
only from false to true, a tile that becomes revealed holds no mine and a tile
that becomes flagged holds one. -/
def Tile.soundStep (t t' : Tile) : Prop :=
  t'.mine = t.mine ∧ t'.adjacentMines = t.adjacentMines ∧
    (t.revealed = true → t'.revealed = true) ∧ (t.flagged = true → t'.flagged = true) ∧
    (t.revealed = false → t'.revealed = true → t.mine = false) ∧
    (t.flagged = false → t'.flagged = true → t.mine = true)

/-! ## Indexing -/

theorem inBounds_iff (b : Board) (x y : Int) :
    inBounds b x y = true ↔ 0 ≤ x ∧ x < b.cols_ ∧ 0 ≤ y ∧ y < b.rows_ := by
  simp [inBounds, and_assoc]

theorem inBounds_congr {b b' : Board} (hr : b'.rows_ = b.rows_) (hc : b'.cols_ = b.cols_)
    (x y : Int) : inBounds b' x y = inBounds b x y := by
  simp [inBounds, hr, hc]

theorem index_congr {b b' : Board} (hc : b'.cols_ = b.cols_) (x y : Int) :
    index b' x y = index b x y := by
  simp [index, hc]

theorem index_nonneg (b : Board) {x y : Int} (h : inBounds b x y = true) : 0 ≤ index b x y := by
  rw [inBounds_iff] at h
  obtain ⟨hx0, _, hy0, _⟩ := h
  have h2 : 0 ≤ y * (b.cols_ : Int) := Int.mul_nonneg hy0 (by omega)
  unfold index
  omega

theorem index_lt_mul (b : Board) {x y : Int} (h : inBounds b x y = true) :
    (index b x y).toNat < b.rows_ * b.cols_ := by
  have hnn := index_nonneg b h
  rw [inBounds_iff] at h
  obtain ⟨hx0, hx1, hy0, hy1⟩ := h
  have h1 : (y + 1) * (b.cols_ : Int) ≤ (b.rows_ : Int) * b.cols_ :=
    Int.mul_le_mul_of_nonneg_right (by omega) (by omega)
  have h3 : ((b.rows_ * b.cols_ : Nat) : Int) = (b.rows_ : Int) * b.cols_ := by push_cast; rfl
  have h4 : (y + 1) * (b.cols_ : Int) = y * b.cols_ + b.cols_ := by ring
  unfold index at hnn ⊢
  omega

theorem index_lt (b : Board) (hwf : b.WF) {x y : Int} (h : inBounds b x y = true) :
    (index b x y).toNat < b.tiles.length := by
  rw [hwf]; exact index_lt_mul b h

theorem index_inj (b : Board) {x y x' y' : Int} (h : inBounds b x y = true)
    (h' : inBounds b x' y' = true) (he : (index b x y).toNat = (index b x' y').toNat) :
    x = x' ∧ y = y' := by
  have hn := index_nonneg b h
  have hn' := index_nonneg b h'
  rw [inBounds_iff] at h h'
  obtain ⟨hx0, hx1, hy0, hy1⟩ := h
  obtain ⟨hx0', hx1', hy0', hy1'⟩ := h'
  unfold index at hn hn' he
  have hy : y = y' := by
    by_contra hne
    rcases lt_or_gt_of_ne hne with hlt | hgt
    · have h1 : (y + 1) * (b.cols_ : Int) ≤ y' * b.cols_ :=
        Int.mul_le_mul_of_nonneg_right (by omega) (by omega)
      have h4 : (y + 1) * (b.cols_ : Int) = y * b.cols_ + b.cols_ := by ring
      omega
    · have h1 : (y' + 1) * (b.cols_ : Int) ≤ y * b.cols_ :=
        Int.mul_le_mul_of_nonneg_right (by omega) (by omega)
      have h4 : (y' + 1) * (b.cols_ : Int) = y' * b.cols_ + b.cols_ := by ring
      omega
  subst hy
  exact ⟨by omega, rfl⟩

theorem mem_coords (rows cols : Nat) (x y : Int) :
    (x, y) ∈ coords rows cols ↔ 0 ≤ x ∧ x < cols ∧ 0 ≤ y ∧ y < rows := by
  unfold coords
  rw [List.mem_flatMap]
  constructor
  · rintro ⟨j, hj, hm⟩
    rw [List.mem_map] at hm
    obtain ⟨i, hi, he⟩ := hm
    rw [List.mem_range] at hj hi
    rw [Prod.mk.injEq] at he
    omega
  · rintro ⟨hx0, hx1, hy0, hy1⟩
    refine ⟨y.toNat, List.mem_range.2 (by omega), ?_⟩
    rw [List.mem_map]
    refine ⟨x.toNat, List.mem_range.2 (by omega), ?_⟩
    rw [Prod.mk.injEq]
    omega

theorem mem_coords_iff (b : Board) (p : Int × Int) :
    p ∈ coords b.rows_ b.cols_ ↔ inBounds b p.1 p.2 = true := by
  obtain ⟨x, y⟩ := p
  rw [mem_coords, inBounds_iff]

/-! ## Reading and writing tiles -/

theorem getTile_set (ts : List Tile) (i j : Nat) (t : Tile) :
    getTile (ts.set i t) j = if i = j ∧ i < ts.length then t else getTile ts j := by
  unfold getTile
  rw [List.getD_eq_getElem?_getD, List.getD_eq_getElem?_getD, List.getElem?_set]
  by_cases hij : i = j
  · subst hij
    by_cases hlt : i < ts.length
    · simp [hlt]
    · simp [hlt]
      have : ts[i]? = none := List.getElem?_eq_none (by omega)
      simp [this]
  · simp [hij]

theorem getTile_set_self (ts : List Tile) (i : Nat) (t : Tile) (h : i < ts.length) :
    getTile (ts.set i t) i = t := by
  rw [getTile_set]; simp [h]

theorem getTile_set_ne (ts : List Tile) (i j : Nat) (t : Tile) (h : i ≠ j) :
    getTile (ts.set i t) j = getTile ts j := by
  rw [getTile_set]; simp [h]

theorem getTile_of_le (ts : List Tile) (i : Nat) (h : ts.length ≤ i) : getTile ts i = {} := by
  unfold getTile
  rw [List.getD_eq_getElem?_getD, List.getElem?_eq_none h]
  rfl

theorem getTile_mem (ts : List Tile) (i : Nat) (h : i < ts.length) : getTile ts i ∈ ts := by
  unfold getTile
  rw [List.getD_eq_getElem?_getD, List.getElem?_eq_getElem h]
  exact List.getElem_mem h

theorem set_getTile_self (ts : List Tile) (i : Nat) : ts.set i (getTile ts i) = ts := by
  apply List.ext_getElem?
  intro j
  rw [List.getElem?_set]
  by_cases hij : i = j
  · subst hij
    by_cases hlt : i < ts.length
    · simp [hlt, getTile, List.getD_eq_getElem?_getD, List.getElem?_eq_getElem hlt]
    · simp [hlt]
      exact Nat.le_of_not_lt hlt
  · simp [hij]

@[simp] theorem setTile_rows (b : Board) (x y : Int) (t : Tile) :
    (setTile b x y t).rows_ = b.rows_ := rfl

@[simp] theorem setTile_cols (b : Board) (x y : Int) (t : Tile) :
    (setTile b x y t).cols_ = b.cols_ := rfl

@[simp] theorem setTile_firstClick (b : Board) (x y : Int) (t : Tile) :
    (setTile b x y t).firstClick_ = b.firstClick_ := rfl

@[simp] theorem setTile_highlightX (b : Board) (x y : Int) (t : Tile) :
    (setTile b x y t).highlightX_ = b.highlightX_ := rfl

@[simp] theorem setTile_highlightY (b : Board) (x y : Int) (t : Tile) :
    (setTile b x y t).highlightY_ = b.highlightY_ := rfl

@[simp] theorem setTile_length (b : Board) (x y : Int) (t : Tile) :
    (setTile b x y t).tiles.length = b.tiles.length := by
  simp [setTile]

@[simp] theorem inBounds_setTile (b : Board) (x y : Int) (t : Tile) (x' y' : Int) :
    inBounds (setTile b x y t) x' y' = inBounds b x' y' := rfl

@[simp] theorem index_setTile (b : Board) (x y : Int) (t : Tile) (x' y' : Int) :
    index (setTile b x y t) x' y' = index b x' y' := rfl

theorem setTile_WF (b : Board) (hwf : b.WF) (x y : Int) (t : Tile) : (setTile b x y t).WF := by
  unfold Board.WF at *
  simpa using hwf

theorem tileAt_setTile_self (b : Board) (hwf : b.WF) {x y : Int} (h : inBounds b x y = true)
    (t : Tile) : tileAt (setTile b x y t) x y = t := by
  unfold tileAt
  simp only [index_setTile]
  exact getTile_set_self _ _ _ (index_lt b hwf h)

theorem tileAt_setTile_ne (b : Board) {x y x' y' : Int} (h : inBounds b x y = true)
    (h' : inBounds b x' y' = true) (hne : ¬ (x = x' ∧ y = y')) (t : Tile) :
    tileAt (setTile b x y t) x' y' = tileAt b x' y' := by
  unfold tileAt
  simp only [index_setTile]
  apply getTile_set_ne
  intro he
  exact hne (index_inj b h h' he)

theorem tileAt_setTile (b : Board) (hwf : b.WF) {x y x' y' : Int} (h : inBounds b x y = true)
    (h' : inBounds b x' y' = true) (t : Tile) :
    tileAt (setTile b x y t) x' y' = if x = x' ∧ y = y' then t else tileAt b x' y' := by
  by_cases hc : x = x' ∧ y = y'
  · obtain ⟨rfl, rfl⟩ := hc
    simp [tileAt_setTile_self b hwf h]
  · simp [hc, tileAt_setTile_ne b h h' hc]

theorem setTile_setTile (b : Board) (x y : Int) (t t' : Tile) :
    setTile (setTile b x y t) x y t' = setTile b x y t' := by
  simp [setTile, index, List.set_set]

theorem setTile_tileAt_self (b : Board) (x y : Int) : setTile b x y (tileAt b x y) = b := by
  unfold setTile tileAt
  rw [set_getTile_self]

/-! ## Counting loops -/

theorem foldl_count (α : Type) (p : α → Bool) (L : List α) (k : Int) :
    L.foldl (fun c d => if p d = true then c + 1 else c) k = k + (L.countP p : Nat) := by
  induction L generalizing k with
  | nil => simp
  | cons d L ih =>
    rw [List.foldl_cons, ih, List.countP_cons]
    by_cases hp : p d = true
    · simp [hp]; ring
    · simp [hp]

theorem neighbourMines_le (b : Board) (x y : Int) : neighbourMines b x y ≤ 8 := by
  unfold neighbourMines
  exact List.countP_le_length _

theorem mine_setTile_keep (b : Board) (hwf : b.WF) {x y : Int} (h : inBounds b x y = true)
    (t : Tile) (ht : t.mine = (tileAt b x y).mine) {x' y' : Int} (h' : inBounds b x' y' = true) :
    (tileAt (setTile b x y t) x' y').mine = (tileAt b x' y').mine := by
  rw [tileAt_setTile b hwf h h']
  by_cases hc : x = x' ∧ y = y'
  · obtain ⟨rfl, rfl⟩ := hc
    simp [ht]
  · simp [hc]

theorem mine_setAdj (b : Board) (hwf : b.WF) {x y : Int} (h : inBounds b x y = true)
    (w : Int) {x' y' : Int} (h' : inBounds b x' y' = true) :
    (tileAt (setAdj b x y w) x' y').mine = (tileAt b x' y').mine :=
  mine_setTile_keep b hwf h { tileAt b x y with adjacentMines := w } rfl h'

theorem cond_setAdj (b : Board) (hwf : b.WF) {x y : Int} (h : inBounds b x y = true)
    (w : Int) (x' y' : Int) :
    (inBounds (setAdj b x y w) x' y' && (tileAt (setAdj b x y w) x' y').mine)
      = (inBounds b x' y' && (tileAt b x' y').mine) := by
  have hib : inBounds (setAdj b x y w) x' y' = inBounds b x' y' := rfl
  rw [hib]
  by_cases hb : inBounds b x' y' = true
  · rw [mine_setAdj b hwf h w hb]
  · simp [hb]

theorem computeCell_loop (b : Board) (hwf : b.WF) {x y : Int} (h : inBounds b x y = true)
    (L : List (Int × Int)) (k : Int) :
    L.foldl (fun bb d =>
      if inBounds bb (x + d.1) (y + d.2) && (tileAt bb (x + d.1) (y + d.2)).mine then
        setTile bb x y { tileAt bb x y with adjacentMines := (tileAt bb x y).adjacentMines + 1 }
      else bb) (setAdj b x y k)
    = setAdj b x y (k + (L.countP (fun d =>
        inBounds b (x + d.1) (y + d.2) && (tileAt b (x + d.1) (y + d.2)).mine) : Nat)) := by
  induction L generalizing k with
  | nil => simp
  | cons d L ih =>
    rw [List.foldl_cons, List.countP_cons]
    rw [cond_setAdj b hwf h]
    by_cases hc : (inBounds b (x + d.1) (y + d.2) && (tileAt b (x + d.1) (y + d.2)).mine) = true
    · rw [if_pos hc]
      have hstep : setTile (setAdj b x y k) x y
          { tileAt (setAdj b x y k) x y with
            adjacentMines := (tileAt (setAdj b x y k) x y).adjacentMines + 1 }
          = setAdj b x y (k + 1) := by
        unfold setAdj
        rw [tileAt_setTile_self b hwf h, setTile_setTile]
      rw [hstep, ih]
      simp [hc]
      congr 1
      ring
    · rw [if_neg hc, ih]
      simp [hc]

theorem computeCell_eq (b : Board) (hwf : b.WF) {x y : Int} (h : inBounds b x y = true) :
    computeCell b x y =
      setAdj b x y (if (tileAt b x y).mine then 0 else (neighbourMines b x y : Int)) := by
  dsimp only [computeCell]
  by_cases hm : (tileAt b x y).mine = true
  · rw [if_pos hm, if_pos hm]
    rfl
  · rw [if_neg hm, if_neg hm]
    have h0 := computeCell_loop b hwf h offsets8 0
    rw [Int.zero_add] at h0
    exact h0

theorem resetRow_eq (b : Board) (x y dy : Int) (k : Int) :
    resetRow b x y dy k = k + ((deltas.countP (fun dx =>
      !(dx == 0 && dy == 0) &&
        (inBounds b (x + dx) (y + dy) && (tileAt b (x + dx) (y + dy)).mine)) : Nat) : Int) := by
  unfold resetRow
  rw [← foldl_count]
  congr 1
  funext c dx
  by_cases h0 : (dx == 0 && dy == 0) = true
  · simp [h0]
  · simp [h0]

theorem resetRows_total (b : Board) (x y : Int) :
    resetRow b x y 1 (resetRow b x y 0 (resetRow b x y (-1) 0)) = (neighbourMines b x y : Int) := by
  rw [resetRow_eq, resetRow_eq, resetRow_eq]
  unfold neighbourMines
  simp only [deltas, offsets8, List.countP_cons, List.countP_nil]
  simp
  ring

theorem resetRow_setAdj (b : Board) (hwf : b.WF) {x y : Int} (h : inBounds b x y = true)
    (w dy k : Int) : resetRow (setAdj b x y w) x y dy k = resetRow b x y dy k := by
  unfold resetRow
  congr 1
  funext c dx
  rw [cond_setAdj b hwf h]

theorem setAdj_setAdj (b : Board) (hwf : b.WF) {x y : Int} (h : inBounds b x y = true)
    (v w : Int) : setAdj (setAdj b x y v) x y w = setAdj b x y w := by
  unfold setAdj
  rw [tileAt_setTile_self b hwf h, setTile_setTile]

theorem resetCell_eq (b : Board) (hwf : b.WF) {x y : Int} (h : inBounds b x y = true) :
    resetCell b x y =
      if (tileAt b x y).mine then b else setAdj b x y (neighbourMines b x y : Int) := by
  dsimp only [resetCell]
  by_cases hm : (tileAt b x y).mine = true
  · rw [if_pos hm, if_pos hm]
  · rw [if_neg hm, if_neg hm]
    have e : ∀ (bb : Board) (c : Int),
        setTile bb x y { tileAt bb x y with adjacentMines := c } = setAdj bb x y c :=
      fun _ _ => rfl
    simp only [deltas, List.foldl_cons, List.foldl_nil, e]
    rw [setAdj_setAdj b hwf h, setAdj_setAdj b hwf h, resetRow_setAdj b hwf h,
      resetRow_setAdj b hwf h, resetRows_total]

/-! ## Position-wise relations between boards -/

theorem TilesRel.refl {R : Tile → Tile → Prop} (hR : ∀ t, R t t) (b : Board) : TilesRel R b b :=
  ⟨rfl, rfl, rfl, fun _ => hR _⟩

theorem TilesRel.trans {R : Tile → Tile → Prop} (hR : ∀ t t' t'', R t t' → R t' t'' → R t t'')
    {b b' b'' : Board} (h : TilesRel R b b') (h' : TilesRel R b' b'') : TilesRel R b b'' :=
  ⟨h'.1.trans h.1, h'.2.1.trans h.2.1, h'.2.2.1.trans h.2.2.1,
    fun i => hR _ _ _ (h.2.2.2 i) (h'.2.2.2 i)⟩

theorem TilesRel.mono {R R' : Tile → Tile → Prop} (hR : ∀ t t', R t t' → R' t t')
    {b b' : Board} (h : TilesRel R b b') : TilesRel R' b b' :=
  ⟨h.1, h.2.1, h.2.2.1, fun i => hR _ _ (h.2.2.2 i)⟩

theorem TilesRel.inBounds {R : Tile → Tile → Prop} {b b' : Board} (h : TilesRel R b b')
    (x y : Int) : inBounds b' x y = inBounds b x y :=
  inBounds_congr h.1 h.2.1 x y

theorem TilesRel.index {R : Tile → Tile → Prop} {b b' : Board} (h : TilesRel R b b')
    (x y : Int) : index b' x y = index b x y :=
  index_congr h.2.1 x y

theorem TilesRel.tileAt {R : Tile → Tile → Prop} {b b' : Board} (h : TilesRel R b b')
    (x y : Int) : R (tileAt b x y) (tileAt b' x y) := by
  unfold Minesweeper.tileAt
  rw [h.index]
  exact h.2.2.2 _

theorem TilesRel.WF {R : Tile → Tile → Prop} {b b' : Board} (h : TilesRel R b b')
    (hwf : b.WF) : b'.WF := by
  unfold Board.WF at *
  rw [h.1, h.2.1, h.2.2.1, hwf]

theorem TilesRel.coords {R : Tile → Tile → Prop} {b b' : Board} (h : TilesRel R b b') :
    coords b'.rows_ b'.cols_ = coords b.rows_ b.cols_ := by
  rw [h.1, h.2.1]

theorem setTile_rel {R : Tile → Tile → Prop} (hR : ∀ t, R t t) (b : Board) (x y : Int)
    (t : Tile) (ht : R (tileAt b x y) t) : TilesRel R b (setTile b x y t) := by
  refine ⟨rfl, rfl, by simp, fun i => ?_⟩
  unfold setTile
  simp only
  rw [getTile_set]
  by_cases hc : (index b x y).toNat = i ∧ (index b x y).toNat < b.tiles.length
  · rw [if_pos hc]
    obtain ⟨rfl, _⟩ := hc
    exact ht
  · rw [if_neg hc]
    exact hR _

theorem sameMine_refl (t : Tile) : Tile.sameMine t t := rfl

theorem sameMine_trans (t t' t'' : Tile) (h : Tile.sameMine t t') (h' : Tile.sameMine t' t'') :
    Tile.sameMine t t'' := h'.trans h

theorem adjStep_refl (t : Tile) : Tile.adjStep t t := ⟨rfl, rfl, rfl⟩

theorem adjStep_trans (t t' t'' : Tile) (h : Tile.adjStep t t') (h' : Tile.adjStep t' t'') :
    Tile.adjStep t t'' :=
  ⟨h'.1.trans h.1, h'.2.1.trans h.2.1, h'.2.2.trans h.2.2⟩

theorem revealStep_refl (t : Tile) : Tile.revealStep t t := ⟨rfl, rfl, rfl, id⟩

theorem revealStep_trans (t t' t'' : Tile) (h : Tile.revealStep t t')
    (h' : Tile.revealStep t' t'') : Tile.revealStep t t'' :=
  ⟨h'.1.trans h.1, h'.2.1.trans h.2.1, h'.2.2.1.trans h.2.2.1, fun hr => h'.2.2.2 (h.2.2.2 hr)⟩

theorem flagStep_refl (t : Tile) : Tile.flagStep t t := ⟨rfl, rfl, rfl⟩

theorem flagStep_trans (t t' t'' : Tile) (h : Tile.flagStep t t') (h' : Tile.flagStep t' t'') :
    Tile.flagStep t t'' :=
  ⟨h'.1.trans h.1, h'.2.1.trans h.2.1, h'.2.2.trans h.2.2⟩

theorem softStep_refl (t : Tile) : Tile.softStep t t := ⟨rfl, rfl⟩

theorem softStep_trans (t t' t'' : Tile) (h : Tile.softStep t t') (h' : Tile.softStep t' t'') :
    Tile.softStep t t'' :=
  ⟨h'.1.trans h.1, h'.2.trans h.2⟩

theorem adjStep_sameMine (t t' : Tile) (h : Tile.adjStep t t') : Tile.sameMine t t' := h.2.2

theorem revealStep_sameMine (t t' : Tile) (h : Tile.revealStep t t') : Tile.sameMine t t' := h.1

theorem revealStep_softStep (t t' : Tile) (h : Tile.revealStep t t') : Tile.softStep t t' :=
  ⟨h.1, h.2.2.1⟩

theorem flagStep_softStep (t t' : Tile) (h : Tile.flagStep t t') : Tile.softStep t t' :=
  ⟨h.1, h.2.2⟩

theorem softStep_sameMine (t t' : Tile) (h : Tile.softStep t t') : Tile.sameMine t t' := h.1

/-! ### What depends on the mines only -/

theorem countP_congr_getTile (p : Tile → Bool) :
    ∀ (l l' : List Tile), l.length = l'.length →
      (∀ i, p (getTile l' i) = p (getTile l i)) → l'.countP p = l.countP p
  | [], [], _, _ => rfl
  | [], _ :: _, h, _ => by simp at h
  | _ :: _, [], h, _ => by simp at h
  | a :: l, a' :: l', h, hp => by
    have h0 : p a' = p a := by simpa [getTile] using hp 0
    have ih := countP_congr_getTile p l l' (by simpa using h)
      (fun i => by simpa [getTile] using hp (i + 1))
    rw [List.countP_cons, List.countP_cons, ih, h0]

theorem mineCount_congr {b b' : Board} (h : TilesRel Tile.sameMine b b') :
    mineCount b' = mineCount b :=
  countP_congr_getTile _ _ _ h.2.2.1.symm (fun i => h.2.2.2 i)

theorem neighbourMines_congr {b b' : Board} (h : TilesRel Tile.sameMine b b') (x y : Int) :
    neighbourMines b' x y = neighbourMines b x y := by
  unfold neighbourMines
  congr 1
  funext d
  rw [h.inBounds, h.tileAt]

theorem safeTiles_congr {b b' : Board} (hr : b'.rows_ = b.rows_) (hc : b'.cols_ = b.cols_)
    (x y : Int) : safeTiles b' x y = safeTiles b x y := by
  unfold safeTiles
  congr 1
  funext s d
  rw [inBounds_congr hr hc, index_congr hc]

theorem Capacity_congr {b b' : Board} (h : TilesRel Tile.sameMine b b') (x y : Int) :
    Capacity b' x y ↔ Capacity b x y := by
  unfold Capacity minesInside freeOutside
  rw [safeTiles_congr h.1 h.2.1, h.1, h.2.1]
  have e : ∀ i, (getTile b'.tiles i).mine = (getTile b.tiles i).mine := h.2.2.2
  simp only [e]

theorem AdjOK_iff (b : Board) :
    AdjOK b ↔ ∀ x y : Int, inBounds b x y = true → (tileAt b x y).mine = false →
      (tileAt b x y).adjacentMines = neighbourMines b x y := by
  unfold AdjOK
  constructor
  · intro h x y hb hm
    exact h (x, y) ((mem_coords_iff b (x, y)).2 hb) hm
  · intro h p hp hm
    exact h p.1 p.2 ((mem_coords_iff b p).1 hp) hm

theorem AdjOK_congr {b b' : Board} (h : TilesRel Tile.softStep b b') (hadj : AdjOK b) :
    AdjOK b' := by
  rw [AdjOK_iff] at *
  intro x y hb hm
  have ht := h.tileAt x y
  rw [h.inBounds] at hb
  rw [ht.1] at hm
  rw [ht.2, neighbourMines_congr (h.mono softStep_sameMine)]
  exact hadj x y hb hm

/-! ## The adjacency passes -/

theorem setAdj_rel (b : Board) (x y v : Int) : TilesRel Tile.adjStep b (setAdj b x y v) :=
  setTile_rel adjStep_refl b x y _ ⟨rfl, rfl, rfl⟩

theorem adjFold_spec (f : Board → Int × Int → Board) (g : Board → Int × Int → Int)
    (hf : ∀ bb p, bb.WF → inBounds bb p.1 p.2 = true → f bb p = setAdj bb p.1 p.2 (g bb p))
    (hg : ∀ bb p, (tileAt bb p.1 p.2).mine = false → g bb p = neighbourMines bb p.1 p.2)
    (b : Board) (hwf : b.WF) (L : List (Int × Int)) :
    (∀ p ∈ L, inBounds b p.1 p.2 = true) →
      TilesRel Tile.adjStep b (L.foldl f b) ∧
      (L.foldl f b).firstClick_ = b.firstClick_ ∧
      (L.foldl f b).highlightX_ = b.highlightX_ ∧
      (L.foldl f b).highlightY_ = b.highlightY_ ∧
      ∀ p ∈ L, (tileAt b p.1 p.2).mine = false →
        (tileAt (L.foldl f b) p.1 p.2).adjacentMines = neighbourMines b p.1 p.2 := by
  induction L using List.reverseRecOn with
  | nil =>
    intro _
    exact ⟨TilesRel.refl adjStep_refl b, rfl, rfl, rfl, fun p hp => by simp at hp⟩
  | append_singleton L p ih =>
    intro hL
    obtain ⟨hrel, hfc, hhx, hhy, hadj⟩ := ih (fun q hq => hL q (List.mem_append_left _ hq))
    have hp : inBounds b p.1 p.2 = true := hL p (by simp)
    have hwf1 : (L.foldl f b).WF := hrel.WF hwf
    have hp1 : inBounds (L.foldl f b) p.1 p.2 = true := by rw [hrel.inBounds]; exact hp
    rw [List.foldl_append, List.foldl_cons, List.foldl_nil, hf _ p hwf1 hp1]
    refine ⟨TilesRel.trans adjStep_trans hrel (setAdj_rel _ _ _ _), hfc, hhx, hhy, ?_⟩
    intro q hq hm
    have hq' : inBounds b q.1 q.2 = true := hL q hq
    have hq1 : inBounds (L.foldl f b) q.1 q.2 = true := by rw [hrel.inBounds]; exact hq'
    by_cases hqp : p.1 = q.1 ∧ p.2 = q.2
    · have e : q = p := by
        obtain ⟨h1, h2⟩ := hqp
        exact (Prod.ext h1 h2).symm
      subst e
      unfold setAdj
      rw [tileAt_setTile_self _ hwf1 hp1]
      have hm1 : (tileAt (L.foldl f b) q.1 q.2).mine = false := by
        rw [(hrel.tileAt q.1 q.2).2.2]; exact hm
      show g (L.foldl f b) q = _
      rw [hg _ q hm1, neighbourMines_congr (hrel.mono adjStep_sameMine)]
    · unfold setAdj
      rw [tileAt_setTile_ne _ hp1 hq1 hqp]
      apply hadj q _ hm
      rcases List.mem_append.1 hq with h | h
      · exact h
      · exfalso
        apply hqp
        simp only [List.mem_singleton] at h
        subst h
        exact ⟨rfl, rfl⟩

theorem computeAdjacentMines_spec (b : Board) (hwf : b.WF) :
    TilesRel Tile.adjStep b (computeAdjacentMines b) ∧
    (computeAdjacentMines b).firstClick_ = b.firstClick_ ∧
    (computeAdjacentMines b).highlightX_ = b.highlightX_ ∧
    (computeAdjacentMines b).highlightY_ = b.highlightY_ ∧
    AdjOK (computeAdjacentMines b) := by
  have h := adjFold_spec (fun bb p => computeCell bb p.1 p.2)
    (fun bb p => if (tileAt bb p.1 p.2).mine then 0 else (neighbourMines bb p.1 p.2 : Int))
    (fun bb p hw hp => computeCell_eq bb hw hp)
    (fun bb p hm => by simp [hm]) b hwf (coords b.rows_ b.cols_)
    (fun p hp => (mem_coords_iff b p).1 hp)
  obtain ⟨hrel, hfc, hhx, hhy, hadj⟩ := h
  refine ⟨hrel, hfc, hhx, hhy, ?_⟩
  unfold AdjOK
  intro p hp hm
  have hrel' : TilesRel Tile.adjStep b (computeAdjacentMines b) := hrel
  rw [hrel'.coords] at hp
  rw [(hrel'.tileAt p.1 p.2).2.2] at hm
  rw [neighbourMines_congr (hrel'.mono adjStep_sameMine)]
  exact hadj p hp hm

theorem resetPass_spec (b : Board) (hwf : b.WF) :
    TilesRel Tile.adjStep b ((coords b.rows_ b.cols_).foldl (fun bb p => resetCell bb p.1 p.2) b) ∧
    ((coords b.rows_ b.cols_).foldl (fun bb p => resetCell bb p.1 p.2) b).firstClick_
      = b.firstClick_ ∧
    AdjOK ((coords b.rows_ b.cols_).foldl (fun bb p => resetCell bb p.1 p.2) b) := by
  have h := adjFold_spec (fun bb p => resetCell bb p.1 p.2)
    (fun bb p => if (tileAt bb p.1 p.2).mine then (tileAt bb p.1 p.2).adjacentMines
      else (neighbourMines bb p.1 p.2 : Int))
    (fun bb p hw hp => by
      show resetCell bb p.1 p.2 = _
      rw [resetCell_eq bb hw hp]
      by_cases hm : (tileAt bb p.1 p.2).mine = true
      · rw [if_pos hm]
        show bb = setAdj bb p.1 p.2 (if (tileAt bb p.1 p.2).mine = true then
          (tileAt bb p.1 p.2).adjacentMines else (neighbourMines bb p.1 p.2 : Int))
        rw [if_pos hm]
        unfold setAdj
        exact (setTile_tileAt_self bb p.1 p.2).symm
      · rw [if_neg hm]
        show _ = setAdj bb p.1 p.2 (if (tileAt bb p.1 p.2).mine = true then
          (tileAt bb p.1 p.2).adjacentMines else (neighbourMines bb p.1 p.2 : Int))
        rw [if_neg hm])
    (fun bb p hm => by simp [hm]) b hwf (coords b.rows_ b.cols_)
    (fun p hp => (mem_coords_iff b p).1 hp)
  obtain ⟨hrel, hfc, _, _, hadj⟩ := h
  refine ⟨hrel, hfc, ?_⟩
  unfold AdjOK
  intro p hp hm
  rw [hrel.coords] at hp
  rw [(hrel.tileAt p.1 p.2).2.2] at hm
  rw [neighbourMines_congr (hrel.mono adjStep_sameMine)]
  exact hadj p hp hm

/-! ## Placing and gathering mines -/

theorem getTile_eq_getElem (ts : List Tile) (i : Nat) (h : i < ts.length) :
    getTile ts i = ts[i] := by
  unfold getTile
  rw [List.getD_eq_getElem?_getD, List.getElem?_eq_getElem h]
  rfl

theorem mine_lt_length (ts : List Tile) (i : Nat) (h : (getTile ts i).mine = true) :
    i < ts.length := by
  by_contra hlt
  rw [getTile_of_le ts i (Nat.le_of_not_lt hlt)] at h
  simp at h

theorem placeMines_length (ps : List Nat) (ts : List Tile) :
    (placeMines ps ts).length = ts.length := by
  induction ps generalizing ts with
  | nil => rfl
  | cons p ps ih =>
    unfold placeMines at ih ⊢
    rw [List.foldl_cons, ih, List.length_set]

theorem placeMines_cons (p : Nat) (ps : List Nat) (ts : List Tile) :
    placeMines (p :: ps) ts = placeMines ps (ts.set p { getTile ts p with mine := true }) := rfl

theorem placeMines_getTile_not_mem (ps : List Nat) (ts : List Tile) (i : Nat) (h : i ∉ ps) :
    getTile (placeMines ps ts) i = getTile ts i := by
  induction ps generalizing ts with
  | nil => rfl
  | cons p ps ih =>
    rw [placeMines_cons, ih _ (fun hm => h (List.mem_cons_of_mem _ hm))]
    apply getTile_set_ne
    intro e
    exact h (e ▸ List.mem_cons_self _ _)

theorem placeMines_mineStep (ps : List Nat) (ts : List Tile) (i : Nat) :
    Tile.mineStep (getTile ts i) (getTile (placeMines ps ts) i) := by
  induction ps generalizing ts with
  | nil => exact ⟨rfl, rfl, rfl⟩
  | cons p ps ih =>
    rw [placeMines_cons]
    have h1 := ih (ts.set p { getTile ts p with mine := true })
    have h0 : Tile.mineStep (getTile ts i)
        (getTile (ts.set p { getTile ts p with mine := true }) i) := by
      rw [getTile_set]
      by_cases hc : p = i ∧ p < ts.length
      · rw [if_pos hc]
        obtain ⟨rfl, _⟩ := hc
        exact ⟨rfl, rfl, rfl⟩
      · rw [if_neg hc]
        exact ⟨rfl, rfl, rfl⟩
    exact ⟨h1.1.trans h0.1, h1.2.1.trans h0.2.1, h1.2.2.trans h0.2.2⟩

theorem placeMines_count (ps : List Nat) (ts : List Tile) (hnd : ps.Nodup)
    (hps : ∀ p ∈ ps, p < ts.length ∧ (getTile ts p).mine = false) :
    (placeMines ps ts).countP (fun t => t.mine) = ts.countP (fun t => t.mine) + ps.length := by
  induction ps generalizing ts with
  | nil => rfl
  | cons p ps ih =>
    rw [placeMines_cons]
    obtain ⟨hp, hnd'⟩ := List.nodup_cons.1 hnd
    obtain ⟨hlt, hm⟩ := hps p (List.mem_cons_self _ _)
    rw [ih _ hnd', List.countP_set _ _ _ _ hlt]
    · rw [getTile_eq_getElem ts p hlt] at hm
      simp [hm]
      omega
    · intro q hq
      have hne : p ≠ q := fun e => hp (e ▸ hq)
      obtain ⟨hq1, hq2⟩ := hps q (List.mem_cons_of_mem _ hq)
      rw [List.length_set, getTile_set_ne _ _ _ _ hne]
      exact ⟨hq1, hq2⟩

/-- The state of the loop of `gatherMines` started from `(tm, ts)`. -/
theorem gatherMines_fold_length (safe : List Nat) (s : List Nat × List Tile) :
    (safe.foldl (fun (s : List Nat × List Tile) i =>
      if (getTile s.2 i).mine then (s.1 ++ [i], s.2.set i { getTile s.2 i with mine := false })
      else s) s).2.length = s.2.length := by
  induction safe generalizing s with
  | nil => rfl
  | cons i safe ih =>
    rw [List.foldl_cons, ih]
    by_cases hm : (getTile s.2 i).mine = true
    · rw [if_pos hm]; simp
    · rw [if_neg hm]

theorem gatherMines_fold_getTile (safe : List Nat) (s : List Nat × List Tile) (j : Nat) :
    getTile (safe.foldl (fun (s : List Nat × List Tile) i =>
      if (getTile s.2 i).mine then (s.1 ++ [i], s.2.set i { getTile s.2 i with mine := false })
      else s) s).2 j
    = if j ∈ safe then { getTile s.2 j with mine := false } else getTile s.2 j := by
  induction safe generalizing s with
  | nil => simp
  | cons i safe ih =>
    rw [List.foldl_cons, ih]
    by_cases hm : (getTile s.2 i).mine = true
    · rw [if_pos hm]
      simp only
      rw [getTile_set]
      by_cases hij : i = j
      · subst hij
        have hlt := mine_lt_length _ _ hm
        simp [hlt]
      · have hji : ¬ j = i := fun e => hij e.symm
        simp [hij, hji]
    · rw [if_neg hm]
      by_cases hij : i = j
      · subst hij
        have hmf : (getTile s.2 i).mine = false := by simpa using hm
        have e : ({ getTile s.2 i with mine := false } : Tile) = getTile s.2 i := by
          cases h : getTile s.2 i
          rw [h] at hmf
          simp at hmf
          simp [hmf]
        simp [e]
      · have hji : ¬ j = i := fun e => hij e.symm
        simp [hji]

theorem gatherMines_fold_count (safe : List Nat) (s : List Nat × List Tile) :
    (safe.foldl (fun (s : List Nat × List Tile) i =>
      if (getTile s.2 i).mine then (s.1 ++ [i], s.2.set i { getTile s.2 i with mine := false })
      else s) s).1.length
    + (safe.foldl (fun (s : List Nat × List Tile) i =>
      if (getTile s.2 i).mine then (s.1 ++ [i], s.2.set i { getTile s.2 i with mine := false })
      else s) s).2.countP (fun t => t.mine)
    = s.1.length + s.2.countP (fun t => t.mine) := by
  induction safe generalizing s with
  | nil => rfl
  | cons i safe ih =>
    rw [List.foldl_cons, ih]
    by_cases hm : (getTile s.2 i).mine = true
    · rw [if_pos hm]
      have hlt := mine_lt_length _ _ hm
      simp only [List.length_append, List.length_singleton]
      rw [List.countP_set _ _ _ _ hlt]
      rw [getTile_eq_getElem _ _ hlt] at hm
      have hpos : 0 < s.2.countP (fun t => t.mine) :=
        List.countP_pos_iff.2 ⟨s.2[i], List.getElem_mem hlt, hm⟩
      simp [hm]
      omega
    · rw [if_neg hm]

theorem gatherMines_fold_toMove (safe : List Nat) (hnd : safe.Nodup)
    (s : List Nat × List Tile) :
    (safe.foldl (fun (s : List Nat × List Tile) i =>
      if (getTile s.2 i).mine then (s.1 ++ [i], s.2.set i { getTile s.2 i with mine := false })
      else s) s).1.length
    = s.1.length + safe.countP (fun i => (getTile s.2 i).mine) := by
  induction safe generalizing s with
  | nil => rfl
  | cons i safe ih =>
    obtain ⟨hi, hnd'⟩ := List.nodup_cons.1 hnd
    rw [List.foldl_cons, ih hnd', List.countP_cons]
    by_cases hm : (getTile s.2 i).mine = true
    · rw [if_pos hm]
      simp only [List.length_append, List.length_singleton, hm, if_true]
      have e : safe.countP (fun j =>
          (getTile (s.2.set i { getTile s.2 i with mine := false }) j).mine)
          = safe.countP (fun j => (getTile s.2 j).mine) := by
        apply List.countP_congr
        intro j hj
        have hne : i ≠ j := fun e => hi (e ▸ hj)
        rw [getTile_set_ne _ _ _ _ hne]
      rw [e]
      omega
    · rw [if_neg hm]
      simp [hm]

/-! ## The safe block and the pool -/

theorem safeFold_mem (b : Board) (x y : Int) (L : List (Int × Int)) (acc : List Nat) (i : Nat) :
    i ∈ L.foldl (fun s d =>
      if inBounds b (x + d.1) (y + d.2) then
        (if s.contains (index b (x + d.1) (y + d.2)).toNat then s
         else s ++ [(index b (x + d.1) (y + d.2)).toNat])
      else s) acc
    ↔ i ∈ acc ∨ ∃ d ∈ L, inBounds b (x + d.1) (y + d.2) = true ∧
        i = (index b (x + d.1) (y + d.2)).toNat := by
  induction L generalizing acc with
  | nil => simp
  | cons d L ih =>
    rw [List.foldl_cons, ih]
    by_cases hb : inBounds b (x + d.1) (y + d.2) = true
    · rw [if_pos hb]
      by_cases hc : acc.contains (index b (x + d.1) (y + d.2)).toNat = true
      · rw [if_pos hc]
        have hmem : (index b (x + d.1) (y + d.2)).toNat ∈ acc := by simpa using hc
        constructor
        · rintro (h | ⟨e, he, h⟩)
          · exact Or.inl h
          · exact Or.inr ⟨e, List.mem_cons_of_mem _ he, h⟩
        · rintro (h | ⟨e, he, h1, h2⟩)
          · exact Or.inl h
          · rcases List.mem_cons.1 he with rfl | he'
            · exact Or.inl (h2 ▸ hmem)
            · exact Or.inr ⟨e, he', h1, h2⟩
      · rw [if_neg hc]
        constructor
        · rintro (h | ⟨e, he, h⟩)
          · rcases List.mem_append.1 h with h | h
            · exact Or.inl h
            · exact Or.inr ⟨d, List.mem_cons_self _ _, hb, by simpa using h⟩
          · exact Or.inr ⟨e, List.mem_cons_of_mem _ he, h⟩
        · rintro (h | ⟨e, he, h1, h2⟩)
          · exact Or.inl (List.mem_append_left _ h)
          · rcases List.mem_cons.1 he with rfl | he'
            · exact Or.inl (List.mem_append_right _ (by simp [h2]))
            · exact Or.inr ⟨e, he', h1, h2⟩
    · rw [if_neg hb]
      constructor
      · rintro (h | ⟨e, he, h⟩)
        · exact Or.inl h
        · exact Or.inr ⟨e, List.mem_cons_of_mem _ he, h⟩
      · rintro (h | ⟨e, he, h1, h2⟩)
        · exact Or.inl h
        · rcases List.mem_cons.1 he with rfl | he'
          · exact absurd h1 hb
          · exact Or.inr ⟨e, he', h1, h2⟩

theorem safeFold_nodup (b : Board) (x y : Int) (L : List (Int × Int)) (acc : List Nat)
    (hacc : acc.Nodup) :
    (L.foldl (fun s d =>
      if inBounds b (x + d.1) (y + d.2) then
        (if s.contains (index b (x + d.1) (y + d.2)).toNat then s
         else s ++ [(index b (x + d.1) (y + d.2)).toNat])
      else s) acc).Nodup := by
  induction L generalizing acc with
  | nil => exact hacc
  | cons d L ih =>
    rw [List.foldl_cons]
    apply ih
    by_cases hb : inBounds b (x + d.1) (y + d.2) = true
    · rw [if_pos hb]
      by_cases hc : acc.contains (index b (x + d.1) (y + d.2)).toNat = true
      · rw [if_pos hc]; exact hacc
      · rw [if_neg hc]
        have hnm : (index b (x + d.1) (y + d.2)).toNat ∉ acc := by simpa using hc
        rw [List.nodup_append]
        refine ⟨hacc, List.nodup_singleton _, ?_⟩
        intro a ha ha'
        simp only [List.mem_singleton] at ha'
        exact hnm (ha' ▸ ha)
    · rw [if_neg hb]; exact hacc

theorem mem_safeTiles (b : Board) (x y : Int) (i : Nat) :
    i ∈ safeTiles b x y ↔ ∃ d ∈ offsets9, inBounds b (x + d.1) (y + d.2) = true ∧
      i = (index b (x + d.1) (y + d.2)).toNat := by
  unfold safeTiles
  rw [safeFold_mem]
  simp

theorem safeTiles_nodup (b : Board) (x y : Int) : (safeTiles b x y).Nodup :=
  safeFold_nodup b x y offsets9 [] List.nodup_nil

theorem safeTiles_lt (b : Board) (x y : Int) (i : Nat) (h : i ∈ safeTiles b x y) :
    i < b.rows_ * b.cols_ := by
  obtain ⟨d, _, hb, rfl⟩ := (mem_safeTiles b x y i).1 h
  exact index_lt_mul b hb

/-- A cell at Chebyshev distance at most 1 from `(x, y)` is a safe tile. -/
theorem near_mem_safeTiles (b : Board) (x y cx cy : Int) (hb : inBounds b cx cy = true)
    (hx : |cx - x| ≤ 1) (hy : |cy - y| ≤ 1) : (index b cx cy).toNat ∈ safeTiles b x y := by
  rw [mem_safeTiles]
  refine ⟨(cx - x, cy - y), ?_, ?_, ?_⟩
  · rw [abs_le] at hx hy
    have h1 : cx - x = -1 ∨ cx - x = 0 ∨ cx - x = 1 := by omega
    have h2 : cy - y = -1 ∨ cy - y = 0 ∨ cy - y = 1 := by omega
    rcases h1 with h1 | h1 | h1 <;> rcases h2 with h2 | h2 | h2 <;> rw [h1, h2] <;>
      simp [offsets9]
  · have e1 : x + (cx - x) = cx := by ring
    have e2 : y + (cy - y) = cy := by ring
    simp only [e1, e2]
    exact hb
  · have e1 : x + (cx - x) = cx := by ring
    have e2 : y + (cy - y) = cy := by ring
    simp only [e1, e2]

theorem mem_buildPool (n : Nat) (safe : List Nat) (ts : List Tile) (i : Nat) :
    i ∈ buildPool n safe ts ↔ i < n ∧ (getTile ts i).mine = false ∧ i ∉ safe := by
  unfold buildPool
  simp [List.mem_filter]

theorem buildPool_nodup (n : Nat) (safe : List Nat) (ts : List Tile) :
    (buildPool n safe ts).Nodup :=
  (List.nodup_range n).filter _

theorem buildPool_length (b : Board) (x y : Int) :
    (buildPool (b.rows_ * b.cols_) (safeTiles b x y)
      (gatherMines (safeTiles b x y) b.tiles).2).length = freeOutside b x y := by
  unfold buildPool freeOutside
  rw [← List.countP_eq_length_filter]
  apply List.countP_congr
  intro i _
  unfold gatherMines
  rw [gatherMines_fold_getTile]
  by_cases hs : i ∈ safeTiles b x y
  · simp [hs]
  · simp [hs]

theorem gatherMines_length (b : Board) (x y : Int) :
    (gatherMines (safeTiles b x y) b.tiles).1.length = minesInside b x y := by
  unfold gatherMines minesInside
  rw [gatherMines_fold_toMove _ (safeTiles_nodup b x y)]
  simp

/-! ## The first-click relocation -/

theorem relocate_cond (shuf : List Nat → List Nat) (hshuf : ∀ l, (shuf l).Perm l)
    (b : Board) (x y : Int) :
    (gatherMines (safeTiles b x y) b.tiles).1.length ≤
      (shuf (buildPool (b.rows_ * b.cols_) (safeTiles b x y)
        (gatherMines (safeTiles b x y) b.tiles).2)).length ↔ Capacity b x y := by
  rw [gatherMines_length, (hshuf _).length_eq, buildPool_length]
  rfl

theorem relocate_eq_none (shuf : List Nat → List Nat) (hshuf : ∀ l, (shuf l).Perm l)
    (b : Board) (x y : Int) (hcap : ¬ Capacity b x y) : relocate shuf b x y = none := by
  unfold relocate
  simp only
  rw [if_neg]
  rw [relocate_cond shuf hshuf]
  exact hcap

theorem relocate_spec (shuf : List Nat → List Nat) (hshuf : ∀ l, (shuf l).Perm l)
    (b : Board) (hwf : b.WF) (x y : Int) (hcap : Capacity b x y) :
    ∃ b', relocate shuf b x y = some b' ∧ TilesRel Tile.sameMarks b b' ∧
      b'.firstClick_ = false ∧ b'.highlightX_ = b.highlightX_ ∧
      b'.highlightY_ = b.highlightY_ ∧ mineCount b' = mineCount b ∧ AdjOK b' ∧
      ∀ i ∈ safeTiles b x y, (getTile b'.tiles i).mine = false := by
  have hc := (relocate_cond shuf hshuf b x y).2 hcap
  unfold relocate
  simp only
  rw [if_pos hc]
  refine ⟨_, rfl, ?_⟩
  generalize hsafe : safeTiles b x y = safe at hc ⊢
  generalize hg : gatherMines safe b.tiles = g at hc ⊢
  generalize hpool : shuf (buildPool (b.rows_ * b.cols_) safe g.2) = pool at hc ⊢
  have hglen : g.2.length = b.tiles.length := by
    rw [← hg]; exact gatherMines_fold_length _ _
  have hgget : ∀ j, getTile g.2 j
      = if j ∈ safe then { getTile b.tiles j with mine := false } else getTile b.tiles j := by
    intro j; rw [← hg]; exact gatherMines_fold_getTile _ _ j
  have hgcount : g.1.length + g.2.countP (fun t => t.mine) = b.tiles.countP (fun t => t.mine) := by
    have := gatherMines_fold_count safe ([], b.tiles)
    rw [← hg]
    simpa [gatherMines] using this
  have hpmem : ∀ p ∈ pool, p < b.rows_ * b.cols_ ∧ (getTile g.2 p).mine = false ∧ p ∉ safe := by
    intro p hp
    rw [← hpool] at hp
    exact (mem_buildPool _ _ _ _).1 ((hshuf _).mem_iff.1 hp)
  have hpnd : pool.Nodup := by
    rw [← hpool]
    exact (hshuf _).nodup_iff.2 (buildPool_nodup _ _ _)
  have htake_nd : (pool.take g.1.length).Nodup := hpnd.sublist (List.take_sublist _ _)
  have htake_mem : ∀ p ∈ pool.take g.1.length, p ∈ pool := fun p hp => List.mem_of_mem_take hp
  have htake_len : (pool.take g.1.length).length = g.1.length := by
    rw [List.length_take]; omega
  set ts2 := placeMines (pool.take g.1.length) g.2 with hts2
  have hlen2 : ts2.length = b.tiles.length := by
    rw [hts2, placeMines_length, hglen]
  set b2 : Board := { b with firstClick_ := false, tiles := ts2 } with hb2
  have hwf2 : b2.WF := by
    unfold Board.WF at hwf ⊢
    show ts2.length = b.rows_ * b.cols_
    rw [hlen2, hwf]
  have hrel2 : TilesRel Tile.sameMarks b b2 := by
    refine ⟨rfl, rfl, hlen2, fun i => ?_⟩
    show Tile.sameMarks (getTile b.tiles i) (getTile ts2 i)
    have h1 := placeMines_mineStep (pool.take g.1.length) g.2 i
    have h0 : Tile.sameMarks (getTile b.tiles i) (getTile g.2 i) := by
      rw [hgget]
      by_cases hs : i ∈ safe
      · rw [if_pos hs]; exact ⟨rfl, rfl⟩
      · rw [if_neg hs]; exact ⟨rfl, rfl⟩
    exact ⟨h1.1.trans h0.1, h1.2.1.trans h0.2⟩
  have hcount2 : mineCount b2 = mineCount b := by
    show ts2.countP (fun t => t.mine) = b.tiles.countP (fun t => t.mine)
    rw [hts2, placeMines_count _ _ htake_nd, htake_len]
    · omega
    · intro p hp
      obtain ⟨h1, h2, _⟩ := hpmem p (htake_mem p hp)
      rw [hglen, hwf]
      exact ⟨h1, h2⟩
  have hsafe2 : ∀ i ∈ safe, (getTile ts2 i).mine = false := by
    intro i hi
    have hni : i ∉ pool.take g.1.length := fun hm => (hpmem i (htake_mem i hm)).2.2 hi
    rw [hts2, placeMines_getTile_not_mem _ _ _ hni, hgget, if_pos hi]
  obtain ⟨hrel, hfc, hhx, hhy, hadj⟩ := computeAdjacentMines_spec b2 hwf2
  refine ⟨?_, hfc, hhx, hhy, ?_, hadj, ?_⟩
  · refine ⟨hrel.1.trans hrel2.1, hrel.2.1.trans hrel2.2.1, hrel.2.2.1.trans hrel2.2.2.1, ?_⟩
    intro i
    have h1 := hrel.2.2.2 i
    have h0 := hrel2.2.2.2 i
    exact ⟨h1.1.trans h0.1, h1.2.1.trans h0.2⟩
  · rw [mineCount_congr (hrel.mono adjStep_sameMine), hcount2]
  · intro i hi
    have h1 := hrel.2.2.2 i
    rw [h1.2.2]
    exact hsafe2 i hi

/-! ## `reset` -/

theorem getTile_replicate (n : Nat) (t : Tile) (i : Nat) (h : i < n) :
    getTile (List.replicate n t) i = t := by
  rw [getTile_eq_getElem _ _ (by simpa using h)]
  simp

theorem mem_iff_getTile (ts : List Tile) (t : Tile) :
    t ∈ ts ↔ ∃ i, i < ts.length ∧ getTile ts i = t := by
  constructor
  · intro h
    obtain ⟨i, hi, e⟩ := List.getElem_of_mem h
    exact ⟨i, hi, by rw [getTile_eq_getElem _ _ hi, e]⟩
  · rintro ⟨i, hi, rfl⟩
    exact getTile_mem ts i hi

theorem AdjOK_highlight (b : Board) (hx hy : Int) (h : AdjOK b) :
    AdjOK { b with highlightX_ := hx, highlightY_ := hy } := h

theorem reset_spec (shuf : List Nat → List Nat) (hshuf : ∀ l, (shuf l).Perm l)
    (rows cols m : Nat) (hm : m ≤ rows * cols) :
    ∃ b, reset shuf rows cols m = some b ∧ b.rows_ = rows ∧ b.cols_ = cols ∧ b.WF ∧
      mineCount b = m ∧ (∀ t ∈ b.tiles, t.revealed = false ∧ t.flagged = false) ∧
      b.firstClick_ = true ∧ b.highlightX_ = -1 ∧ b.highlightY_ = -1 ∧ AdjOK b := by
  have hlen : (shuf (List.range (rows * cols))).length = rows * cols := by
    rw [(hshuf _).length_eq, List.length_range]
  unfold reset
  simp only
  rw [if_pos (by rw [hlen]; exact hm)]
  refine ⟨_, rfl, ?_⟩
  generalize hps : (shuf (List.range (rows * cols))).take m = ps
  have hps_nd : ps.Nodup := by
    rw [← hps]
    exact ((hshuf _).nodup_iff.2 (List.nodup_range _)).sublist (List.take_sublist _ _)
  have hps_lt : ∀ p ∈ ps, p < rows * cols := by
    intro p hp
    rw [← hps] at hp
    exact List.mem_range.1 ((hshuf _).mem_iff.1 (List.mem_of_mem_take hp))
  have hps_len : ps.length = m := by
    rw [← hps, List.length_take, hlen]; omega
  set ts := placeMines ps (List.replicate (rows * cols) clearTile) with hts
  have htlen : ts.length = rows * cols := by
    rw [hts, placeMines_length, List.length_replicate]
  set b0 : Board :=
    { rows_ := rows, cols_ := cols, tiles := ts, firstClick_ := true,
      highlightX_ := 0, highlightY_ := 0 } with hb0
  have hwf0 : b0.WF := htlen
  have hcount0 : mineCount b0 = m := by
    show ts.countP (fun t => t.mine) = m
    rw [hts, placeMines_count _ _ hps_nd, hps_len]
    · have h0 : (List.replicate (rows * cols) clearTile).countP (fun t => t.mine) = 0 := by
        rw [List.countP_eq_zero]
        intro a ha
        rw [List.eq_of_mem_replicate ha]
        simp [clearTile]
      omega
    · intro p hp
      rw [List.length_replicate]
      refine ⟨hps_lt p hp, ?_⟩
      rw [getTile_replicate _ _ _ (hps_lt p hp)]
      rfl
  have hmarks0 : ∀ i, (getTile ts i).revealed = false ∧ (getTile ts i).flagged = false := by
    intro i
    have h1 := placeMines_mineStep ps (List.replicate (rows * cols) clearTile) i
    rw [← hts] at h1
    rw [h1.1, h1.2.1]
    by_cases hi : i < rows * cols
    · rw [getTile_replicate _ _ _ hi]
      exact ⟨rfl, rfl⟩
    · rw [getTile_of_le _ _ (by simpa using hi)]
      exact ⟨rfl, rfl⟩
  obtain ⟨hrel, hfc, hadj⟩ := resetPass_spec b0 hwf0
  have hrel' : TilesRel Tile.adjStep b0
      ((coords rows cols).foldl (fun bb p => resetCell bb p.1 p.2) b0) := hrel
  refine ⟨hrel'.1, hrel'.2.1, ?_, ?_, ?_, hfc, rfl, rfl, ?_⟩
  · exact hrel'.WF hwf0
  · exact (mineCount_congr (hrel'.mono adjStep_sameMine)).trans hcount0
  · intro t ht
    obtain ⟨i, _, rfl⟩ := (mem_iff_getTile _ _).1 ht
    have h1 := hrel'.2.2.2 i
    exact ⟨h1.1.trans (hmarks0 i).1, h1.2.1.trans (hmarks0 i).2⟩
  · exact AdjOK_highlight _ _ _ hadj

/-! ## Loops that may fail -/

theorem foldlM_some_inv {α β : Type} (f : β → α → Option β) (Inv : β → Prop) :
    ∀ (L : List α), (∀ s d s', Inv s → d ∈ L → f s d = some s' → Inv s') →
      ∀ s s', Inv s → L.foldlM f s = some s' → Inv s'
  | [], _, s, s', hs, h => by
    simp only [List.foldlM_nil] at h
    cases h
    exact hs
  | d :: L, hf, s, s', hs, h => by
    rw [List.foldlM_cons] at h
    cases hfd : f s d with
    | none => rw [hfd] at h; cases h
    | some s1 =>
      rw [hfd] at h
      exact foldlM_some_inv f Inv L
        (fun s d s' hI hd => hf s d s' hI (List.mem_cons_of_mem _ hd)) s1 s'
        (hf s d s1 hs (List.mem_cons_self _ _) hfd) h

theorem foldlM_total {α β : Type} (f : β → α → Option β) (Inv : β → Prop) :
    ∀ (L : List α), (∀ s d, Inv s → d ∈ L → ∃ s', f s d = some s' ∧ Inv s') →
      ∀ s, Inv s → ∃ s', L.foldlM f s = some s' ∧ Inv s'
  | [], _, s, hs => ⟨s, rfl, hs⟩
  | d :: L, hf, s, hs => by
    obtain ⟨s1, h1, hI1⟩ := hf s d hs (List.mem_cons_self _ _)
    obtain ⟨s2, h2, hI2⟩ := foldlM_total f Inv L
      (fun s d hI hd => hf s d hI (List.mem_cons_of_mem _ hd)) s1 hI1
    refine ⟨s2, ?_, hI2⟩
    rw [List.foldlM_cons, h1]
    exact h2

/-! ## `reveal` once the first click is consumed -/

theorem revealFuel_succ (shuf : List Nat → List Nat) (fuel : Nat) (b : Board) (x y : Int)
    (hfc : b.firstClick_ = false) :
    revealFuel shuf (fuel + 1) b x y =
      if !inBounds b x y then some (false, b)
      else if (tileAt b x y).revealed || (tileAt b x y).flagged then some (false, b)
      else if (tileAt b x y).mine then
        some (true, setTile b x y { tileAt b x y with revealed := true })
      else if (tileAt b x y).adjacentMines == 0 then
        (offsets8.foldlM (fun bb d =>
          (revealFuel shuf fuel bb (x + d.1) (y + d.2)).map Prod.snd)
          (setTile b x y { tileAt b x y with revealed := true })).map (fun bb => (false, bb))
      else some (false, setTile b x y { tileAt b x y with revealed := true }) := by
  rw [revealFuel]
  simp only [hfc]
  rfl

theorem setRevealed_rel (b : Board) (x y : Int) :
    TilesRel Tile.revealStep b (setTile b x y { tileAt b x y with revealed := true }) :=
  setTile_rel revealStep_refl b x y _ ⟨rfl, rfl, rfl, fun _ => rfl⟩

/-- What a call of `reveal` keeps, relative to the board `b` it started from. -/
theorem revealFuel_frame (shuf : List Nat → List Nat) :
    ∀ (fuel : Nat) (b : Board) (x y : Int) (r : Bool) (b' : Board),
      b.firstClick_ = false → revealFuel shuf fuel b x y = some (r, b') →
      TilesRel Tile.revealStep b b' ∧ b'.firstClick_ = false ∧
        b'.highlightX_ = b.highlightX_ ∧ b'.highlightY_ = b.highlightY_
  | 0, _, _, _, _, _, _, h => by simp [revealFuel] at h
  | fuel + 1, b, x, y, r, b', hfc, h => by
    rw [revealFuel_succ shuf fuel b x y hfc] at h
    have hself : TilesRel Tile.revealStep b b ∧ b.firstClick_ = false ∧
        b.highlightX_ = b.highlightX_ ∧ b.highlightY_ = b.highlightY_ :=
      ⟨TilesRel.refl revealStep_refl b, hfc, rfl, rfl⟩
    have hone : TilesRel Tile.revealStep b (setTile b x y { tileAt b x y with revealed := true })
        ∧ (setTile b x y { tileAt b x y with revealed := true }).firstClick_ = false ∧
        (setTile b x y { tileAt b x y with revealed := true }).highlightX_ = b.highlightX_ ∧
        (setTile b x y { tileAt b x y with revealed := true }).highlightY_ = b.highlightY_ :=
      ⟨setRevealed_rel b x y, hfc, rfl, rfl⟩
    split at h
    · cases h; exact hself
    · split at h
      · cases h; exact hself
      · split at h
        · cases h; exact hone
        · split at h
          · rw [Option.map_eq_some'] at h
            obtain ⟨bb, hfold, he⟩ := h
            cases he
            exact foldlM_some_inv _
              (fun s => TilesRel Tile.revealStep b s ∧ s.firstClick_ = false ∧
                s.highlightX_ = b.highlightX_ ∧ s.highlightY_ = b.highlightY_) offsets8
              (fun s d s' hI _ hs => by
                rw [Option.map_eq_some'] at hs
                obtain ⟨⟨r1, s1⟩, hs1, he1⟩ := hs
                cases he1
                obtain ⟨hrel, hfc1, hx1, hy1⟩ :=
                  revealFuel_frame shuf fuel s _ _ r1 _ hI.2.1 hs1
                exact ⟨TilesRel.trans revealStep_trans hI.1 hrel, hfc1,
                  hx1.trans hI.2.2.1, hy1.trans hI.2.2.2⟩)
              _ _ hone hfold
          · cases h; exact hone

theorem countP_le_getTile (p : Tile → Bool) :
    ∀ (l l' : List Tile), l.length = l'.length →
      (∀ i, p (getTile l' i) = true → p (getTile l i) = true) → l'.countP p ≤ l.countP p
  | [], [], _, _ => le_refl _
  | [], _ :: _, h, _ => by simp at h
  | _ :: _, [], h, _ => by simp at h
  | a :: l, a' :: l', h, hp => by
    have h0 : p a' = true → p a = true := by simpa [getTile] using hp 0
    have ih := countP_le_getTile p l l' (by simpa using h)
      (fun i => by simpa [getTile] using hp (i + 1))
    rw [List.countP_cons, List.countP_cons]
    by_cases ha' : p a' = true
    · rw [if_pos ha', if_pos (h0 ha')]; omega
    · rw [if_neg ha']
      split <;> omega

theorem unrevealedCount_le {b b' : Board} (h : TilesRel Tile.revealStep b b') :
    unrevealedCount b' ≤ unrevealedCount b := by
  apply countP_le_getTile _ _ _ h.2.2.1.symm
  intro i hi
  have h1 := (h.2.2.2 i).2.2.2
  simp only [Bool.not_eq_true'] at hi ⊢
  cases hr : (getTile b.tiles i).revealed with
  | false => rfl
  | true => rw [h1 hr] at hi; cases hi

theorem unrevealedCount_le_length (b : Board) : unrevealedCount b ≤ b.tiles.length :=
  List.countP_le_length _

theorem unrevealedCount_setRevealed (b : Board) (hwf : b.WF) {x y : Int}
    (hb : inBounds b x y = true) (hr : (tileAt b x y).revealed = false) :
    unrevealedCount (setTile b x y { tileAt b x y with revealed := true }) < unrevealedCount b := by
  have hlt := index_lt b hwf hb
  unfold unrevealedCount setTile
  simp only
  rw [List.countP_set _ _ _ _ hlt]
  have hr' : (b.tiles[(index b x y).toNat]).revealed = false := by
    rw [← getTile_eq_getElem _ _ hlt]; exact hr
  have hpos : 0 < b.tiles.countP (fun t => !t.revealed) :=
    List.countP_pos_iff.2 ⟨_, List.getElem_mem hlt, by simp [hr']⟩
  simp only [hr', Bool.not_false, if_true, Bool.not_true, Bool.false_eq_true, if_false]
  omega

/-- With more fuel than unrevealed tiles, `reveal` returns. -/
theorem revealFuel_total (shuf : List Nat → List Nat) :
    ∀ (fuel : Nat) (b : Board) (x y : Int), b.WF → b.firstClick_ = false →
      unrevealedCount b < fuel → ∃ r b', revealFuel shuf fuel b x y = some (r, b')
  | 0, _, _, _, _, _, h => by omega
  | fuel + 1, b, x, y, hwf, hfc, hlt => by
    rw [revealFuel_succ shuf fuel b x y hfc]
    split
    · exact ⟨_, _, rfl⟩
    · rename_i hb
      have hb' : inBounds b x y = true := by simpa using hb
      split
      · exact ⟨_, _, rfl⟩
      · rename_i hrf
        have hr : (tileAt b x y).revealed = false := by
          simp only [Bool.or_eq_true, not_or, Bool.not_eq_true] at hrf
          exact hrf.1
        split
        · exact ⟨_, _, rfl⟩
        · split
          · have hcnt := unrevealedCount_setRevealed b hwf hb' hr
            obtain ⟨s', hs', _⟩ := foldlM_total
              (fun bb (d : Int × Int) =>
                (revealFuel shuf fuel bb (x + d.1) (y + d.2)).map Prod.snd)
              (fun s => TilesRel Tile.revealStep
                  (setTile b x y { tileAt b x y with revealed := true }) s ∧
                s.firstClick_ = false) offsets8
              (fun s d hI _ => by
                have hwfs : s.WF := hI.1.WF (setTile_WF b hwf x y _)
                have hcs : unrevealedCount s < fuel := by
                  have := unrevealedCount_le hI.1
                  omega
                obtain ⟨r1, s1, h1⟩ :=
                  revealFuel_total shuf fuel s (x + d.1) (y + d.2) hwfs hI.2 hcs
                obtain ⟨hrel, hfc1, _, _⟩ := revealFuel_frame shuf fuel s _ _ r1 s1 hI.2 h1
                refine ⟨s1, ?_, TilesRel.trans revealStep_trans hI.1 hrel, hfc1⟩
                show Option.map Prod.snd (revealFuel shuf fuel s (x + d.1) (y + d.2)) = some s1
                rw [h1]; rfl)
              _ ⟨TilesRel.refl revealStep_refl _, hfc⟩
            exact ⟨false, s', by rw [hs']; rfl⟩
          · exact ⟨_, _, rfl⟩

theorem reveal_eq (shuf : List Nat → List Nat) (b : Board) (x y : Int) :
    reveal shuf b x y = revealFuel shuf (b.tiles.length + 1) b x y := rfl

theorem reveal_total (shuf : List Nat → List Nat) (b : Board) (x y : Int) (hwf : b.WF)
    (hfc : b.firstClick_ = false) :
    ∃ r b', reveal shuf b x y = some (r, b') ∧ TilesRel Tile.revealStep b b' ∧
      b'.firstClick_ = false ∧ b'.highlightX_ = b.highlightX_ ∧
      b'.highlightY_ = b.highlightY_ := by
  obtain ⟨r, b', h⟩ := revealFuel_total shuf (b.tiles.length + 1) b x y hwf hfc
    (Nat.lt_succ_of_le (unrevealedCount_le_length b))
  exact ⟨r, b', h, revealFuel_frame shuf _ b x y r b' hfc h⟩

/-! ## The first reveal -/

theorem revealFuel_oob (shuf : List Nat → List Nat) (fuel : Nat) (b : Board) (x y : Int)
    (hb : inBounds b x y = false) : revealFuel shuf (fuel + 1) b x y = some (false, b) := by
  rw [revealFuel]
  simp [hb]

theorem relocate_some_props (shuf : List Nat → List Nat) (hshuf : ∀ l, (shuf l).Perm l)
    (b : Board) (hwf : b.WF) (x y : Int) (b0 : Board) (h : relocate shuf b x y = some b0) :
    Capacity b x y ∧ TilesRel Tile.sameMarks b b0 ∧ b0.firstClick_ = false ∧
      b0.highlightX_ = b.highlightX_ ∧ b0.highlightY_ = b.highlightY_ ∧
      mineCount b0 = mineCount b ∧ AdjOK b0 ∧
      ∀ i ∈ safeTiles b x y, (getTile b0.tiles i).mine = false := by
  by_cases hcap : Capacity b x y
  · obtain ⟨b1, h1, hp⟩ := relocate_spec shuf hshuf b hwf x y hcap
    rw [h] at h1
    cases h1
    exact ⟨hcap, hp⟩
  · rw [relocate_eq_none shuf hshuf b x y hcap] at h
    cases h

theorem revealFuel_first (shuf : List Nat → List Nat) (hshuf : ∀ l, (shuf l).Perm l)
    (fuel : Nat) (b : Board) (hwf : b.WF) (x y : Int) (hb : inBounds b x y = true)
    (hfc : b.firstClick_ = true) :
    revealFuel shuf (fuel + 1) b x y =
      (relocate shuf b x y).bind (fun b0 => revealFuel shuf (fuel + 1) b0 x y) := by
  cases hrel : relocate shuf b x y with
  | none =>
    rw [revealFuel]
    simp [hb, hfc, hrel]
  | some b0 =>
    obtain ⟨_, hr, hfc0, _⟩ := relocate_some_props shuf hshuf b hwf x y b0 hrel
    have hb0 : inBounds b0 x y = true := by rw [hr.inBounds]; exact hb
    show _ = revealFuel shuf (fuel + 1) b0 x y
    conv_lhs => rw [revealFuel]
    conv_rhs => rw [revealFuel]
    simp only [hb, hb0, hfc, hfc0, hrel]
    rfl

/-- The first reveal at an in-bounds cell with enough room outside its block:
the relocation succeeds and the reveal proper runs on the relocated board. -/
theorem reveal_first (shuf : List Nat → List Nat) (hshuf : ∀ l, (shuf l).Perm l)
    (b : Board) (hwf : b.WF) (x y : Int) (hb : inBounds b x y = true)
    (hfc : b.firstClick_ = true) (hcap : Capacity b x y) :
    ∃ b0 r b', relocate shuf b x y = some b0 ∧ reveal shuf b x y = some (r, b') ∧
      revealFuel shuf (b0.tiles.length + 1) b0 x y = some (r, b') ∧
      TilesRel Tile.sameMarks b b0 ∧ b0.firstClick_ = false ∧
      mineCount b0 = mineCount b ∧ AdjOK b0 ∧
      (∀ i ∈ safeTiles b x y, (getTile b0.tiles i).mine = false) ∧
      TilesRel Tile.revealStep b0 b' ∧ b'.firstClick_ = false ∧
      b'.highlightX_ = b.highlightX_ ∧ b'.highlightY_ = b.highlightY_ := by
  obtain ⟨b0, h0, hmarks, hfc0, hx0, hy0, hcount, hadj, hsafe⟩ :=
    relocate_spec shuf hshuf b hwf x y hcap
  have hwf0 : b0.WF := hmarks.WF hwf
  obtain ⟨r, b', h1, hrel, hfc1, hx1, hy1⟩ := reveal_total shuf b0 x y hwf0 hfc0
  refine ⟨b0, r, b', h0, ?_, h1, hmarks, hfc0, hcount, hadj, hsafe, hrel, hfc1,
    hx1.trans hx0, hy1.trans hy0⟩
  rw [reveal_eq, revealFuel_first shuf hshuf _ b hwf x y hb hfc, h0, ← hmarks.2.2.1]
  exact h1

theorem reveal_first_none (shuf : List Nat → List Nat) (hshuf : ∀ l, (shuf l).Perm l)
    (b : Board) (hwf : b.WF) (x y : Int) (hb : inBounds b x y = true)
    (hfc : b.firstClick_ = true) (hcap : ¬ Capacity b x y) : reveal shuf b x y = none := by
  rw [reveal_eq, revealFuel_first shuf hshuf _ b hwf x y hb hfc,
    relocate_eq_none shuf hshuf b x y hcap]
  rfl

/-! ### Capacity as a bound on the number of mines -/

theorem countP_incl_excl {α : Type} (p q : α → Bool) (L : List α) :
    L.countP (fun a => !p a && !q a) + L.countP p + L.countP q
      = L.length + L.countP (fun a => p a && q a) := by
  induction L with
  | nil => rfl
  | cons a L ih =>
    simp only [List.countP_cons, List.length_cons]
    cases hp : p a <;> cases hq : q a <;> simp <;> omega

theorem countP_range_getTile (p : Tile → Bool) (ts : List Tile) :
    (List.range ts.length).countP (fun i => p (getTile ts i)) = ts.countP p := by
  have h : ts = (List.range ts.length).map (fun i => getTile ts i) := by
    apply List.ext_getElem
    · simp
    · intro i h1 h2
      simp [getTile_eq_getElem ts i h1]
  conv_rhs => rw [h]
  rw [List.countP_map]
  rfl

theorem countP_range_mem (q : Nat → Bool) (n : Nat) (S : List Nat) (hnd : S.Nodup)
    (hlt : ∀ i ∈ S, i < n) :
    (List.range n).countP (fun i => q i && S.contains i) = S.countP q := by
  have hperm : ((List.range n).filter (fun i => S.contains i)).Perm S := by
    rw [List.perm_ext_iff_of_nodup ((List.nodup_range n).filter _) hnd]
    intro a
    have hc : S.contains a = true ↔ a ∈ S := by simp
    simp only [List.mem_filter, List.mem_range, hc]
    constructor
    · exact fun h => h.2
    · exact fun h => ⟨hlt a h, h⟩
  rw [← hperm.countP_eq, List.countP_filter]

theorem capacity_iff (b : Board) (hwf : b.WF) (x y : Int) :
    Capacity b x y ↔ mineCount b + (safeTiles b x y).length ≤ b.rows_ * b.cols_ := by
  unfold Capacity minesInside freeOutside mineCount
  have h1 := countP_incl_excl (fun i => (getTile b.tiles i).mine)
    (fun i => (safeTiles b x y).contains i) (List.range (b.rows_ * b.cols_))
  have h2 : (List.range (b.rows_ * b.cols_)).countP (fun i => (getTile b.tiles i).mine)
      = b.tiles.countP (fun t => t.mine) := by
    rw [← hwf]; exact countP_range_getTile (fun t => t.mine) b.tiles
  have h3 := countP_range_mem (fun _ => true) (b.rows_ * b.cols_) (safeTiles b x y)
    (safeTiles_nodup b x y) (safeTiles_lt b x y)
  have h4 := countP_range_mem (fun i => (getTile b.tiles i).mine) (b.rows_ * b.cols_)
    (safeTiles b x y) (safeTiles_nodup b x y) (safeTiles_lt b x y)
  simp only [Bool.true_and] at h3
  have h5 : (safeTiles b x y).countP (fun _ => true) = (safeTiles b x y).length := by
    rw [List.countP_eq_length]; intro _ _; rfl
  rw [h2, h3, h4, h5, List.length_range] at h1
  omega

/-! ## Frames of `flag`, `chord` and `AISolver` -/

theorem foldl_inv {α β : Type} (f : β → α → β) (Inv : β → Prop) :
    ∀ (L : List α), (∀ s d, Inv s → d ∈ L → Inv (f s d)) → ∀ s, Inv s → Inv (L.foldl f s)
  | [], _, _, hs => hs
  | d :: L, hf, s, hs => by
    rw [List.foldl_cons]
    exact foldl_inv f Inv L (fun s d hI hd => hf s d hI (List.mem_cons_of_mem _ hd)) _
      (hf s d hs (List.mem_cons_self _ _))

theorem flag_frame (b : Board) (x y : Int) :
    TilesRel Tile.flagStep b (flag b x y) ∧ (flag b x y).firstClick_ = b.firstClick_ ∧
      (flag b x y).highlightX_ = b.highlightX_ ∧ (flag b x y).highlightY_ = b.highlightY_ := by
  unfold flag
  split
  · exact ⟨TilesRel.refl flagStep_refl b, rfl, rfl, rfl⟩
  · simp only
    split
    · exact ⟨setTile_rel flagStep_refl b x y _ ⟨rfl, rfl, rfl⟩, rfl, rfl, rfl⟩
    · exact ⟨TilesRel.refl flagStep_refl b, rfl, rfl, rfl⟩

theorem fresh_tileAt (b : Board) (hfresh : ∀ t ∈ b.tiles, t.revealed = false) (x y : Int) :
    (tileAt b x y).revealed = false := by
  unfold tileAt
  by_cases h : (index b x y).toNat < b.tiles.length
  · exact hfresh _ (getTile_mem _ _ h)
  · rw [getTile_of_le _ _ (Nat.le_of_not_lt h)]

theorem chord_fresh (shuf : List Nat → List Nat) (b : Board)
    (hfresh : ∀ t ∈ b.tiles, t.revealed = false) (x y : Int) :
    chord shuf b x y = some (false, b) := by
  unfold chord
  split
  · rfl
  · simp [fresh_tileAt b hfresh x y]

theorem chordStep_total (shuf : List Nat → List Nat) (x y : Int) (b : Board)
    (s : Bool × Board) (d : Int × Int)
    (hI : TilesRel Tile.revealStep b s.2 ∧ s.2.WF ∧ s.2.firstClick_ = false ∧
      s.2.highlightX_ = b.highlightX_ ∧ s.2.highlightY_ = b.highlightY_) :
    ∃ s', chordStep shuf x y s d = some s' ∧
      (TilesRel Tile.revealStep b s'.2 ∧ s'.2.WF ∧ s'.2.firstClick_ = false ∧
        s'.2.highlightX_ = b.highlightX_ ∧ s'.2.highlightY_ = b.highlightY_) := by
  obtain ⟨hrel, hwf, hfc, hx, hy⟩ := hI
  unfold chordStep
  split
  · exact ⟨s, rfl, hrel, hwf, hfc, hx, hy⟩
  · simp only
    split
    · exact ⟨s, rfl, hrel, hwf, hfc, hx, hy⟩
    · split
      · exact ⟨_, rfl, TilesRel.trans revealStep_trans hrel (setRevealed_rel _ _ _),
          setTile_WF _ hwf _ _ _, hfc, hx, hy⟩
      · obtain ⟨r, b', h, hrel', hfc', hx', hy'⟩ :=
          reveal_total shuf s.2 (x + d.1) (y + d.2) hwf hfc
        refine ⟨(s.1, b'), by rw [h]; rfl, TilesRel.trans revealStep_trans hrel hrel',
          hrel'.WF hwf, hfc', hx'.trans hx, hy'.trans hy⟩

/-- Once the first click is consumed `chord` returns, and changes nothing but
`revealed` fields, from false to true. -/
theorem chord_total (shuf : List Nat → List Nat) (b : Board) (x y : Int) (hwf : b.WF)
    (hfc : b.firstClick_ = false) :
    ∃ r b', chord shuf b x y = some (r, b') ∧ TilesRel Tile.revealStep b b' ∧
      b'.firstClick_ = false ∧ b'.highlightX_ = b.highlightX_ ∧
      b'.highlightY_ = b.highlightY_ := by
  have hself : TilesRel Tile.revealStep b b ∧ b.firstClick_ = false ∧
      b.highlightX_ = b.highlightX_ ∧ b.highlightY_ = b.highlightY_ :=
    ⟨TilesRel.refl revealStep_refl b, hfc, rfl, rfl⟩
  unfold chord
  split
  · exact ⟨_, _, rfl, hself⟩
  · simp only
    split
    · exact ⟨_, _, rfl, hself⟩
    · split
      · exact ⟨_, _, rfl, hself⟩
      · obtain ⟨s', hs', hrel, _, hfc', hx, hy⟩ := foldlM_total (chordStep shuf x y)
          (fun s => TilesRel Tile.revealStep b s.2 ∧ s.2.WF ∧ s.2.firstClick_ = false ∧
            s.2.highlightX_ = b.highlightX_ ∧ s.2.highlightY_ = b.highlightY_) offsets8
          (fun s d hI _ => chordStep_total shuf x y b s d hI) (false, b)
          ⟨TilesRel.refl revealStep_refl b, hwf, hfc, rfl, rfl⟩
        exact ⟨s'.1, s'.2, hs', hrel, hfc', hx, hy⟩

theorem rule1Action_total (shuf : List Nat → List Nat) (b : Board) (x y : Int) (hwf : b.WF)
    (hfc : b.firstClick_ = false) :
    ∃ b', rule1Action shuf b x y = some b' ∧ TilesRel Tile.revealStep b b' ∧
      b'.firstClick_ = false ∧ b'.highlightX_ = b.highlightX_ ∧
      b'.highlightY_ = b.highlightY_ := by
  unfold rule1Action
  apply foldlM_total _
    (fun s => TilesRel Tile.revealStep b s ∧ s.firstClick_ = false ∧
      s.highlightX_ = b.highlightX_ ∧ s.highlightY_ = b.highlightY_) offsets8 _ b
    ⟨TilesRel.refl revealStep_refl b, hfc, rfl, rfl⟩
  intro s d hI _
  obtain ⟨hrel, hfc1, hx, hy⟩ := hI
  simp only
  split
  · exact ⟨s, rfl, hrel, hfc1, hx, hy⟩
  · split
    · obtain ⟨r, b', h, hrel', hfc', hx', hy'⟩ :=
        reveal_total shuf s (x + d.1) (y + d.2) (hrel.WF hwf) hfc1
      exact ⟨b', by rw [h]; rfl, TilesRel.trans revealStep_trans hrel hrel', hfc',
        hx'.trans hx, hy'.trans hy⟩
    · exact ⟨s, rfl, hrel, hfc1, hx, hy⟩

theorem rule2Action_frame (b : Board) (x y : Int) :
    TilesRel Tile.flagStep b (rule2Action b x y) ∧
      (rule2Action b x y).firstClick_ = b.firstClick_ ∧
      (rule2Action b x y).highlightX_ = b.highlightX_ ∧
      (rule2Action b x y).highlightY_ = b.highlightY_ := by
  unfold rule2Action
  apply foldl_inv _
    (fun s => TilesRel Tile.flagStep b s ∧ s.firstClick_ = b.firstClick_ ∧
      s.highlightX_ = b.highlightX_ ∧ s.highlightY_ = b.highlightY_) offsets8 _ b
    ⟨TilesRel.refl flagStep_refl b, rfl, rfl, rfl⟩
  intro s d hI _
  obtain ⟨hrel, hfc, hx, hy⟩ := hI
  simp only
  split
  · exact ⟨hrel, hfc, hx, hy⟩
  · split
    · exact ⟨TilesRel.trans flagStep_trans hrel
        (setTile_rel flagStep_refl s _ _ _ ⟨rfl, rfl, rfl⟩), hfc, hx, hy⟩
    · exact ⟨hrel, hfc, hx, hy⟩

theorem highlight_rel {R : Tile → Tile → Prop} (hR : ∀ t, R t t) (b : Board) (hx hy : Int) :
    TilesRel R b { b with highlightX_ := hx, highlightY_ := hy } :=
  ⟨rfl, rfl, rfl, fun _ => hR _⟩

/-- Once the first click is consumed `AISolver` returns, and changes neither a
mine nor an adjacency count. -/
theorem solverScan_total (shuf : List Nat → List Nat) :
    ∀ (L : List (Int × Int)) (b : Board), b.WF → b.firstClick_ = false →
      ∃ r b', solverScan shuf b L = some (r, b') ∧ TilesRel Tile.softStep b b' ∧
        b'.firstClick_ = false
  | [], b, _, hfc => ⟨_, _, rfl, highlight_rel softStep_refl b _ _, hfc⟩
  | p :: L, b, hwf, hfc => by
    rw [solverScan]
    simp only
    split
    · exact solverScan_total shuf L b hwf hfc
    · have hrel1 : TilesRel Tile.softStep b { b with highlightX_ := p.1, highlightY_ := p.2 } :=
        highlight_rel softStep_refl b _ _
      split
      · obtain ⟨b', h, hrel, hfc', _, _⟩ := rule1Action_total shuf
          { b with highlightX_ := p.1, highlightY_ := p.2 } p.1 p.2 hwf hfc
        exact ⟨true, b', by rw [h]; rfl,
          TilesRel.trans softStep_trans hrel1 (hrel.mono revealStep_softStep), hfc'⟩
      · split
        · obtain ⟨hrel, hfc', _, _⟩ :=
            rule2Action_frame { b with highlightX_ := p.1, highlightY_ := p.2 } p.1 p.2
          exact ⟨true, _, rfl,
            TilesRel.trans softStep_trans hrel1 (hrel.mono flagStep_softStep), hfc'.trans hfc⟩
        · obtain ⟨r, b', h, hrel, hfc'⟩ := solverScan_total shuf L
            { b with highlightX_ := p.1, highlightY_ := p.2 } hwf hfc
          exact ⟨r, b', h, TilesRel.trans softStep_trans hrel1 hrel, hfc'⟩

theorem solverScan_fresh (shuf : List Nat → List Nat) (b : Board)
    (hfresh : ∀ t ∈ b.tiles, t.revealed = false) :
    ∀ (L : List (Int × Int)),
      solverScan shuf b L = some (false, { b with highlightX_ := -1, highlightY_ := -1 })
  | [] => rfl
  | p :: L => by
    rw [solverScan]
    simp only [fresh_tileAt b hfresh p.1 p.2]
    exact solverScan_fresh shuf b hfresh L

/-! ## The scan of `AISolver` -/

theorem solverCounts_loop (b : Board) (x y : Int) (L : List (Int × Int)) (c : Int × Int) :
    L.foldl (fun (c : Int × Int) d =>
      if !inBounds b (x + d.1) (y + d.2) then c
      else
        let n := tileAt b (x + d.1) (y + d.2)
        if n.flagged then (c.1 + 1, c.2)
        else if !n.revealed then (c.1, c.2 + 1)
        else c) c
    = (c.1 + (L.countP (fun d =>
          inBounds b (x + d.1) (y + d.2) && (tileAt b (x + d.1) (y + d.2)).flagged) : Nat),
       c.2 + (L.countP (fun d => inBounds b (x + d.1) (y + d.2) &&
          (!(tileAt b (x + d.1) (y + d.2)).flagged &&
            !(tileAt b (x + d.1) (y + d.2)).revealed)) : Nat)) := by
  induction L generalizing c with
  | nil => simp
  | cons d L ih =>
    rw [List.foldl_cons, ih, List.countP_cons, List.countP_cons]
    cases hb : inBounds b (x + d.1) (y + d.2) <;>
      cases hf : (tileAt b (x + d.1) (y + d.2)).flagged <;>
      cases hr : (tileAt b (x + d.1) (y + d.2)).revealed <;>
      simp [hb, hf, hr] <;> ring

theorem solverCounts_eq (b : Board) (x y : Int) :
    solverCounts b x y = ((flaggedNeighbours b x y : Int), (unknownNeighbours b x y : Int)) := by
  unfold solverCounts flaggedNeighbours unknownNeighbours
  rw [solverCounts_loop]
  simp

theorem tileAt_highlight (b : Board) (hx hy x y : Int) :
    tileAt { b with highlightX_ := hx, highlightY_ := hy } x y = tileAt b x y := rfl

theorem flaggedNeighbours_highlight (b : Board) (hx hy x y : Int) :
    flaggedNeighbours { b with highlightX_ := hx, highlightY_ := hy } x y
      = flaggedNeighbours b x y := rfl

theorem unknownNeighbours_highlight (b : Board) (hx hy x y : Int) :
    unknownNeighbours { b with highlightX_ := hx, highlightY_ := hy } x y
      = unknownNeighbours b x y := rfl

theorem solverCounts_highlight (b : Board) (hx hy x y : Int) :
    solverCounts { b with highlightX_ := hx, highlightY_ := hy } x y = solverCounts b x y := rfl

theorem solverScan_eq (shuf : List Nat → List Nat) (b : Board) :
    ∀ (L : List (Int × Int)) (hx hy : Int),
      solverScan shuf { b with highlightX_ := hx, highlightY_ := hy } L = scanOutcome shuf b L
  | [], _, _ => rfl
  | p :: L, hx, hy => by
    rw [solverScan]
    simp only [tileAt_highlight, solverCounts_eq, flaggedNeighbours_highlight,
      unknownNeighbours_highlight]
    unfold scanOutcome
    rw [List.find?_cons]
    by_cases hskip : (!(tileAt b p.1 p.2).revealed || (tileAt b p.1 p.2).mine) = true
    · rw [if_pos hskip]
      have hf : solverFires b p.1 p.2 = false := by
        unfold solverFires
        simp only [Bool.or_eq_true, Bool.not_eq_true'] at hskip
        rcases hskip with h | h <;> simp [h]
      simp only [hf]
      exact solverScan_eq shuf b L hx hy
    · rw [if_neg hskip]
      have hrev : (tileAt b p.1 p.2).revealed = true ∧ (tileAt b p.1 p.2).mine = false := by
        simp only [Bool.or_eq_true, Bool.not_eq_true', not_or, Bool.not_eq_false,
          Bool.not_eq_true] at hskip
        exact hskip
      have hfires : solverFires b p.1 p.2 = (rule1Cond b p.1 p.2 || rule2Cond b p.1 p.2) := by
        unfold solverFires
        simp [hrev.1, hrev.2]
      have hc1 : (((flaggedNeighbours b p.1 p.2 : Int) == (tileAt b p.1 p.2).adjacentMines) &&
          decide ((unknownNeighbours b p.1 p.2 : Int) > 0)) = rule1Cond b p.1 p.2 := by
        unfold rule1Cond
        congr 1
        simp [beq_iff_eq]
      have hc2 : (decide ((tileAt b p.1 p.2).adjacentMines - (flaggedNeighbours b p.1 p.2 : Int)
            > 0) &&
          ((unknownNeighbours b p.1 p.2 : Int) ==
            (tileAt b p.1 p.2).adjacentMines - (flaggedNeighbours b p.1 p.2 : Int)))
          = rule2Cond b p.1 p.2 := by
        unfold rule2Cond
        congr 1
      rw [hc1, hc2, hfires]
      cases h1 : rule1Cond b p.1 p.2 with
      | true => simp [h1]
      | false =>
        cases h2 : rule2Cond b p.1 p.2 with
        | true => simp [h1]
        | false =>
          simp only [Bool.false_eq_true, if_false, Bool.or_self]
          exact solverScan_eq shuf b L p.1 p.2

theorem AISolver_eq (shuf : List Nat → List Nat) (b : Board) :
    AISolver shuf b = scanOutcome shuf b (coords b.rows_ b.cols_) :=
  solverScan_eq shuf b (coords b.rows_ b.cols_) b.highlightX_ b.highlightY_

theorem coords_pairwise (rows cols : Nat) : (coords rows cols).Pairwise rowMajorLt := by
  unfold coords
  rw [List.pairwise_flatMap]
  constructor
  · intro j _
    rw [List.pairwise_map]
    apply (List.pairwise_lt_range cols).imp
    intro i i' h
    right
    exact ⟨rfl, by simpa using h⟩
  · apply (List.pairwise_lt_range rows).imp
    intro j j' h p hp q hq
    rw [List.mem_map] at hp hq
    obtain ⟨_, _, rfl⟩ := hp
    obtain ⟨_, _, rfl⟩ := hq
    left
    simpa using h

theorem rowMajorLt_asymm (p q : Int × Int) (h : rowMajorLt p q) (h' : rowMajorLt q p) : False := by
  unfold rowMajorLt at h h'
  omega

theorem rowMajorLt_irrefl (p : Int × Int) (h : rowMajorLt p p) : False := by
  unfold rowMajorLt at h
  omega

/-- In a split of the scan order at `p`, the positions visited before `p` are
those of the first part. -/
theorem before_mem_prefix (rows cols : Nat) (as bs : List (Int × Int)) (p q : Int × Int)
    (h : coords rows cols = as ++ p :: bs) (hq : q ∈ coords rows cols)
    (hlt : rowMajorLt q p) : q ∈ as := by
  have hpw := coords_pairwise rows cols
  rw [h] at hpw hq
  rw [List.pairwise_append] at hpw
  obtain ⟨_, hpb, _⟩ := hpw
  rw [List.pairwise_cons] at hpb
  rcases List.mem_append.1 hq with h1 | h1
  · exact h1
  · rcases List.mem_cons.1 h1 with h2 | h2
    · subst h2
      exact absurd hlt (rowMajorLt_irrefl q)
    · exact absurd hlt (fun hl => rowMajorLt_asymm _ _ (hpb.1 q h2) hl)

/-! ## Flood fill -/

theorem zeroCell_congr {b b' : Board} (h : TilesRel Tile.softStep b b') (x y : Int) :
    zeroCell b' x y = zeroCell b x y := by
  unfold zeroCell
  rw [h.inBounds, (h.tileAt x y).1, (h.tileAt x y).2]

theorem ClosedUnder_congr {b b' : Board} (h : TilesRel Tile.softStep b b')
    (T : Int → Int → Prop) (hT : ClosedUnder b T) : ClosedUnder b' T := by
  intro cx cy hc hz d hd
  rw [zeroCell_congr h] at hz
  exact hT cx cy hc hz d hd

theorem zeroCell_iff (b : Board) (x y : Int) :
    zeroCell b x y = true ↔ inBounds b x y = true ∧ (tileAt b x y).mine = false ∧
      (tileAt b x y).adjacentMines = 0 := by
  unfold zeroCell
  simp [and_assoc]

theorem revealed_setRevealed (b : Board) (hwf : b.WF) {x y cx cy : Int}
    (hb : inBounds b x y = true) (hcb : inBounds b cx cy = true) :
    (tileAt (setTile b x y { tileAt b x y with revealed := true }) cx cy).revealed = true ↔
      (x = cx ∧ y = cy) ∨ (tileAt b cx cy).revealed = true := by
  rw [tileAt_setTile b hwf hb hcb]
  by_cases hc : x = cx ∧ y = cy
  · simp [hc]
  · simp [hc]

/-- Soundness of the cascade: a call started inside a set closed under
"neighbour of a zero cell" reveals tiles of that set only. -/
theorem revealFuel_sound (shuf : List Nat → List Nat) (T : Int → Int → Prop) :
    ∀ (fuel : Nat) (b : Board) (x y : Int) (r : Bool) (b' : Board),
      b.WF → b.firstClick_ = false → ClosedUnder b T → T x y →
      revealFuel shuf fuel b x y = some (r, b') →
      ∀ cx cy : Int, inBounds b cx cy = true → (tileAt b' cx cy).revealed = true →
        (tileAt b cx cy).revealed = true ∨ T cx cy
  | 0, _, _, _, _, _, _, _, _, _, h => by simp [revealFuel] at h
  | fuel + 1, b, x, y, r, b', hwf, hfc, hT, hxy, h => by
    rw [revealFuel_succ shuf fuel b x y hfc] at h
    have hone : inBounds b x y = true → ∀ cx cy : Int, inBounds b cx cy = true →
        (tileAt (setTile b x y { tileAt b x y with revealed := true }) cx cy).revealed = true →
        (tileAt b cx cy).revealed = true ∨ T cx cy := by
      intro hb cx cy hcb hrev
      rcases (revealed_setRevealed b hwf hb hcb).1 hrev with ⟨rfl, rfl⟩ | h'
      · exact Or.inr hxy
      · exact Or.inl h'
    split at h
    · cases h; exact fun _ _ _ hr => Or.inl hr
    · rename_i hb
      have hb' : inBounds b x y = true := by simpa using hb
      split at h
      · cases h; exact fun _ _ _ hr => Or.inl hr
      · split at h
        · cases h; exact hone hb'
        · rename_i hm
          split at h
          · rename_i hz
            rw [Option.map_eq_some'] at h
            obtain ⟨bb, hfold, he⟩ := h
            cases he
            have hzero : zeroCell b x y = true := by
              rw [zeroCell_iff]
              exact ⟨hb', by simpa using hm, by simpa using hz⟩
            have hrel1 := setRevealed_rel b x y
            have hinv := foldlM_some_inv
              (fun bb (d : Int × Int) =>
                (revealFuel shuf fuel bb (x + d.1) (y + d.2)).map Prod.snd)
              (fun s => TilesRel Tile.revealStep b s ∧ s.firstClick_ = false ∧
                ∀ cx cy : Int, inBounds b cx cy = true → (tileAt s cx cy).revealed = true →
                  (tileAt b cx cy).revealed = true ∨ T cx cy) offsets8
              (fun s d s' hI hd hs => by
                rw [Option.map_eq_some'] at hs
                obtain ⟨⟨r1, s1⟩, hs1, he1⟩ := hs
                cases he1
                obtain ⟨hrel, hfc1, _, _⟩ := revealFuel_frame shuf fuel s _ _ r1 _ hI.2.1 hs1
                refine ⟨TilesRel.trans revealStep_trans hI.1 hrel, hfc1, ?_⟩
                intro cx cy hcb hrev
                have hcs : inBounds s cx cy = true := by rw [hI.1.inBounds]; exact hcb
                rcases revealFuel_sound shuf T fuel s _ _ r1 _ (hI.1.WF hwf) hI.2.1
                  (ClosedUnder_congr (hI.1.mono revealStep_softStep) T hT)
                  (hT x y hxy hzero d hd) hs1 cx cy hcs hrev with h' | h'
                · exact hI.2.2 cx cy hcb h'
                · exact Or.inr h')
              _ _ ⟨hrel1, hfc, hone hb'⟩ hfold
            exact hinv.2.2
          · cases h; exact hone hb'

theorem foldlM_post {α β : Type} (f : β → α → Option β) (Inv : β → Prop)
    (P : α → β → Prop) :
    ∀ (L : List α),
      (∀ s d s', Inv s → d ∈ L → f s d = some s' →
        Inv s' ∧ P d s' ∧ ∀ e, P e s → P e s') →
      ∀ s s', Inv s → L.foldlM f s = some s' →
        Inv s' ∧ (∀ d ∈ L, P d s') ∧ ∀ e, P e s → P e s'
  | [], _, s, s', hs, h => by
    simp only [List.foldlM_nil] at h
    cases h
    exact ⟨hs, fun _ hd => by simp at hd, fun _ he => he⟩
  | d :: L, hf, s, s', hs, h => by
    rw [List.foldlM_cons] at h
    cases hfd : f s d with
    | none => rw [hfd] at h; cases h
    | some s1 =>
      rw [hfd] at h
      obtain ⟨hI1, hP1, hst1⟩ := hf s d s1 hs (List.mem_cons_self _ _) hfd
      obtain ⟨hI2, hP2, hst2⟩ := foldlM_post f Inv P L
        (fun s d s' hI hd => hf s d s' hI (List.mem_cons_of_mem _ hd)) s1 s' hI1 h
      refine ⟨hI2, ?_, fun e he => hst2 e (hst1 e he)⟩
      intro e he
      rcases List.mem_cons.1 he with rfl | he'
      · exact hst2 _ hP1
      · exact hP2 e he'

theorem OpenAt_of_setRevealed (b : Board) (hwf : b.WF) {x y : Int}
    (hb : inBounds b x y = true) (hnz : zeroCell b x y = false) (cx cy : Int)
    (h : OpenAt (setTile b x y { tileAt b x y with revealed := true }) cx cy) :
    OpenAt b cx cy := by
  have hrel := setRevealed_rel b x y
  obtain ⟨hz, hr, d, hd, hnb, hnr, hnf⟩ := h
  rw [zeroCell_congr (hrel.mono revealStep_softStep)] at hz
  have hcb : inBounds b cx cy = true := ((zeroCell_iff b cx cy).1 hz).1
  rw [inBounds_setTile] at hnb
  refine ⟨hz, ?_, d, hd, hnb, ?_, ?_⟩
  · rcases (revealed_setRevealed b hwf hb hcb).1 hr with ⟨rfl, rfl⟩ | h'
    · rw [hz] at hnz; cases hnz
    · exact h'
  · cases hr0 : (tileAt b (cx + d.1) (cy + d.2)).revealed with
    | false => rfl
    | true =>
      have := (hrel.tileAt (cx + d.1) (cy + d.2)).2.2.2 hr0
      rw [hnr] at this
      cases this
  · rw [← (hrel.tileAt (cx + d.1) (cy + d.2)).2.1]
    exact hnf

/-- Completeness of the cascade: the call reveals its target unless it is
flagged, and leaves no revealed zero cell with an unrevealed, unflagged
neighbour that was not one before. -/
theorem revealFuel_complete (shuf : List Nat → List Nat) :
    ∀ (fuel : Nat) (b : Board) (x y : Int) (r : Bool) (b' : Board),
      b.WF → b.firstClick_ = false → revealFuel shuf fuel b x y = some (r, b') →
      (inBounds b x y = true → (tileAt b x y).flagged = false →
        (tileAt b' x y).revealed = true) ∧
      ∀ cx cy : Int, OpenAt b' cx cy → OpenAt b cx cy
  | 0, _, _, _, _, _, _, _, h => by simp [revealFuel] at h
  | fuel + 1, b, x, y, r, b', hwf, hfc, h => by
    rw [revealFuel_succ shuf fuel b x y hfc] at h
    split at h
    · rename_i hb
      cases h
      refine ⟨fun hb' => ?_, fun _ _ ho => ho⟩
      simp only [Bool.not_eq_true', ] at hb
      rw [hb] at hb'; cases hb'
    · rename_i hb
      have hb' : inBounds b x y = true := by simpa using hb
      split at h
      · rename_i hrf
        cases h
        refine ⟨fun _ hf => ?_, fun _ _ ho => ho⟩
        simp only [Bool.or_eq_true] at hrf
        rcases hrf with h' | h'
        · exact h'
        · rw [hf] at h'; cases h'
      · split at h
        · rename_i hm
          cases h
          refine ⟨fun _ _ => tileAt_setTile_self b hwf hb' _ ▸ rfl, ?_⟩
          apply OpenAt_of_setRevealed b hwf hb'
          unfold zeroCell
          simp [hm]
        · rename_i hm
          split at h
          · rename_i hz
            rw [Option.map_eq_some'] at h
            obtain ⟨bb, hfold, he⟩ := h
            cases he
            have hzero : zeroCell b x y = true := by
              rw [zeroCell_iff]
              exact ⟨hb', by simpa using hm, by simpa using hz⟩
            have hrel1 := setRevealed_rel b x y
            have hwf1 : (setTile b x y { tileAt b x y with revealed := true }).WF :=
              setTile_WF b hwf x y _
            have hrev1 : (tileAt (setTile b x y { tileAt b x y with revealed := true })
                x y).revealed = true := by
              rw [tileAt_setTile_self b hwf hb']
            obtain ⟨⟨hrel, _, hopen⟩, hpost, _⟩ := foldlM_post
              (fun bb (d : Int × Int) =>
                (revealFuel shuf fuel bb (x + d.1) (y + d.2)).map Prod.snd)
              (fun s => TilesRel Tile.revealStep
                  (setTile b x y { tileAt b x y with revealed := true }) s ∧
                s.firstClick_ = false ∧
                ∀ cx cy : Int, OpenAt s cx cy →
                  OpenAt (setTile b x y { tileAt b x y with revealed := true }) cx cy)
              (fun d s => inBounds b (x + d.1) (y + d.2) = true →
                (tileAt b (x + d.1) (y + d.2)).flagged = false →
                (tileAt s (x + d.1) (y + d.2)).revealed = true) offsets8
              (fun s d s' hI _ hs => by
                rw [Option.map_eq_some'] at hs
                obtain ⟨⟨r1, s1⟩, hs1, he1⟩ := hs
                cases he1
                obtain ⟨hrel, hfc1, _, _⟩ := revealFuel_frame shuf fuel s _ _ r1 _ hI.2.1 hs1
                obtain ⟨hA, hB⟩ := revealFuel_complete shuf fuel s _ _ r1 _
                  (hI.1.WF hwf1) hI.2.1 hs1
                refine ⟨⟨TilesRel.trans revealStep_trans hI.1 hrel, hfc1,
                  fun cx cy ho => hI.2.2 cx cy (hB cx cy ho)⟩, ?_, ?_⟩
                · intro hnb hnf
                  apply hA
                  · rw [hI.1.inBounds]; exact hnb
                  · rw [(hI.1.tileAt _ _).2.1, (hrel1.tileAt _ _).2.1]; exact hnf
                · intro e he hnb hnf
                  exact (hrel.tileAt _ _).2.2.2 (he hnb hnf))
              _ _ ⟨TilesRel.refl revealStep_refl _, hfc, fun _ _ ho => ho⟩ hfold
            have hrelb := TilesRel.trans revealStep_trans hrel1 hrel
            refine ⟨fun _ _ => (hrel.tileAt x y).2.2.2 hrev1, ?_⟩
            intro cx cy ho
            have ho1 := hopen cx cy ho
            by_cases hc : x = cx ∧ y = cy
            · exfalso
              obtain ⟨rfl, rfl⟩ := hc
              obtain ⟨_, _, d, hd, hnb, hnr, hnf⟩ := ho
              rw [hrelb.inBounds] at hnb
              rw [(hrelb.tileAt _ _).2.1] at hnf
              rw [hpost d hd hnb hnf] at hnr
              cases hnr
            · obtain ⟨hz, hr, d, hd, hnb, hnr, hnf⟩ := ho1
              rw [zeroCell_congr (hrel1.mono revealStep_softStep)] at hz
              have hcb : inBounds b cx cy = true := ((zeroCell_iff b cx cy).1 hz).1
              rw [inBounds_setTile] at hnb
              refine ⟨hz, ?_, d, hd, hnb, ?_, ?_⟩
              · rcases (revealed_setRevealed b hwf hb' hcb).1 hr with h' | h'
                · exact absurd h' hc
                · exact h'
              · cases hr0 : (tileAt b (cx + d.1) (cy + d.2)).revealed with
                | false => rfl
                | true =>
                  have := (hrel1.tileAt (cx + d.1) (cy + d.2)).2.2.2 hr0
                  rw [hnr] at this
                  cases this
              · rw [← (hrel1.tileAt (cx + d.1) (cy + d.2)).2.1]
                exact hnf
          · rename_i hz
            cases h
            refine ⟨fun _ _ => tileAt_setTile_self b hwf hb' _ ▸ rfl, ?_⟩
            apply OpenAt_of_setRevealed b hwf hb'
            unfold zeroCell
            simp only [hb', Bool.true_and, Bool.and_eq_false_imp, Bool.not_eq_true',
              decide_eq_false_iff_not]
            intro _
            simpa using hz

/-- The value returned by `reveal` once the first click is consumed. -/
theorem reveal_return (shuf : List Nat → List Nat) (b : Board) (hwf : b.WF)
    (hfc : b.firstClick_ = false) (x y : Int) :
    ∃ r b', reveal shuf b x y = some (r, b') ∧
      (r = true ↔ (inBounds b x y = true ∧ (tileAt b x y).revealed = false ∧
        (tileAt b x y).flagged = false ∧ (tileAt b x y).mine = true)) ∧
      (r = true → b' = setTile b x y { tileAt b x y with revealed := true }) := by
  obtain ⟨r, b', h, _⟩ := reveal_total shuf b x y hwf hfc
  refine ⟨r, b', h, ?_⟩
  rw [reveal_eq, revealFuel_succ shuf _ b x y hfc] at h
  split at h
  · rename_i hb
    cases h
    simp only [Bool.not_eq_true', Bool.false_eq_true, false_iff, not_and, false_implies,
      and_true] at hb ⊢
    intro hb'
    rw [hb] at hb'
    cases hb'
  · rename_i hb
    split at h
    · rename_i hrf
      cases h
      simp only [Bool.or_eq_true] at hrf
      simp only [Bool.false_eq_true, false_iff, not_and, false_implies, and_true]
      intro _ h1 h2
      rcases hrf with h' | h'
      · rw [h1] at h'; cases h'
      · rw [h2] at h'; cases h'
    · rename_i hrf
      simp only [Bool.or_eq_true, not_or, Bool.not_eq_true] at hrf
      split at h
      · rename_i hm
        cases h
        simp only [Bool.not_eq_true', Bool.not_eq_false] at hb
        exact ⟨⟨fun _ => ⟨hb, hrf.1, hrf.2, hm⟩, fun _ => rfl⟩, fun _ => rfl⟩
      · rename_i hm
        have hr : r = false := by
          split at h
          · rw [Option.map_eq_some'] at h
            obtain ⟨_, _, he⟩ := h
            cases he; rfl
          · cases h; rfl
        subst hr
        simp only [Bool.false_eq_true, false_iff, not_and, false_implies, and_true]
        intro _ _ _ h4
        exact hm h4


theorem noflag_tileAt (b : Board) (h : ∀ t ∈ b.tiles, t.flagged = false) (x y : Int) :
    (tileAt b x y).flagged = false := by
  unfold tileAt
  by_cases hi : (index b x y).toNat < b.tiles.length
  · exact h _ (getTile_mem _ _ hi)
  · rw [getTile_of_le _ _ (Nat.le_of_not_lt hi)]

theorem InRegion_closed (b : Board) (x y : Int) : ClosedUnder b (InRegion b x y) := by
  intro cx cy hc hz d hd
  rcases hc with hc | ⟨zx, zy, hzr, d', hd', rfl, rfl⟩
  · exact Or.inr ⟨cx, cy, hc, d, hd, rfl, rfl⟩
  · exact Or.inr ⟨_, _, ZeroReach.step zx zy d' hzr hd' hz, d, hd, rfl, rfl⟩

/-- On a board without flags and without open zero cells, a revealed zero
start cell has its whole zero-region revealed. -/
theorem zeroReach_revealed (b b' : Board) (hrel : TilesRel Tile.revealStep b b')
    (hnoflag : ∀ t ∈ b.tiles, t.flagged = false) (hclosed : ∀ cx cy : Int, ¬ OpenAt b' cx cy)
    (x y : Int) (hz0 : zeroCell b x y = true) (hr0 : (tileAt b' x y).revealed = true)
    (cx cy : Int) (h : ZeroReach b x y cx cy) :
    zeroCell b cx cy = true ∧ (tileAt b' cx cy).revealed = true := by
  induction h with
  | start => exact ⟨hz0, hr0⟩
  | step zx zy d _ hd hz ih =>
    refine ⟨hz, ?_⟩
    cases hr : (tileAt b' (zx + d.1) (zy + d.2)).revealed with
    | true => rfl
    | false =>
      exfalso
      apply hclosed zx zy
      refine ⟨?_, ih.2, d, hd, ?_, hr, ?_⟩
      · rw [zeroCell_congr (hrel.mono revealStep_softStep)]; exact ih.1
      · rw [hrel.inBounds]; exact ((zeroCell_iff b _ _).1 hz).1
      · rw [(hrel.tileAt _ _).2.1]; exact noflag_tileAt b hnoflag _ _

theorem flood_fill_core (shuf : List Nat → List Nat) (b : Board) (hwf : b.WF)
    (hfc : b.firstClick_ = false) (hnoflag : ∀ t ∈ b.tiles, t.flagged = false)
    (hnorev : ∀ t ∈ b.tiles, t.revealed = false) (x y : Int) (hb : inBounds b x y = true)
    (hm : (tileAt b x y).mine = false) (hz : (tileAt b x y).adjacentMines = 0) :
    ∃ b', reveal shuf b x y = some (false, b') ∧
      ∀ cx cy : Int, inBounds b cx cy = true →
        ((tileAt b' cx cy).revealed = true ↔ InRegion b x y cx cy) := by
  obtain ⟨r, b', h, hiff, _⟩ := reveal_return shuf b hwf hfc x y
  have hr : r = false := by
    cases r with
    | false => rfl
    | true =>
      have := (hiff.1 rfl).2.2.2
      rw [hm] at this
      cases this
  subst hr
  refine ⟨b', h, ?_⟩
  rw [reveal_eq] at h
  obtain ⟨hrel, _, _, _⟩ := revealFuel_frame shuf _ b x y false b' hfc h
  have hzero : zeroCell b x y = true := (zeroCell_iff b x y).2 ⟨hb, hm, hz⟩
  obtain ⟨hA, hB⟩ := revealFuel_complete shuf _ b x y false b' hwf hfc h
  have hr0 : (tileAt b' x y).revealed = true := hA hb (noflag_tileAt b hnoflag x y)
  have hclosed : ∀ cx cy : Int, ¬ OpenAt b' cx cy := by
    intro cx cy ho
    have := (hB cx cy ho).2.1
    rw [fresh_tileAt b hnorev cx cy] at this
    cases this
  intro cx cy hcb
  constructor
  · intro hrev
    rcases revealFuel_sound shuf (InRegion b x y) _ b x y false b' hwf hfc
      (InRegion_closed b x y) (Or.inl ZeroReach.start) h cx cy hcb hrev with h' | h'
    · rw [fresh_tileAt b hnorev cx cy] at h'
      cases h'
    · exact h'
  · rintro (hzr | ⟨zx, zy, hzr, d, hd, rfl, rfl⟩)
    · exact (zeroReach_revealed b b' hrel hnoflag hclosed x y hzero hr0 cx cy hzr).2
    · obtain ⟨hz1, hr1⟩ := zeroReach_revealed b b' hrel hnoflag hclosed x y hzero hr0 zx zy hzr
      cases hr : (tileAt b' (zx + d.1) (zy + d.2)).revealed with
      | true => rfl
      | false =>
        exfalso
        apply hclosed zx zy
        refine ⟨?_, hr1, d, hd, ?_, hr, ?_⟩
        · rw [zeroCell_congr (hrel.mono revealStep_softStep)]; exact hz1
        · rw [hrel.inBounds]; exact hcb
        · rw [(hrel.tileAt _ _).2.1]; exact noflag_tileAt b hnoflag _ _

/-! ## What every operation keeps of the marks -/

theorem markStep_refl (t : Tile) : Tile.markStep t t := ⟨id, id⟩

theorem markStep_trans (t t' t'' : Tile) (h : Tile.markStep t t') (h' : Tile.markStep t' t'') :
    Tile.markStep t t'' :=
  ⟨fun hr => h'.1 (h.1 hr), fun hx => h'.2 (h.2 hx)⟩

theorem sameMarks_markStep (t t' : Tile) (h : Tile.sameMarks t t') : Tile.markStep t t' := by
  obtain ⟨h1, h2⟩ := h
  unfold Tile.markStep
  rw [h1, h2]
  exact ⟨id, id⟩

theorem adjStep_markStep (t t' : Tile) (h : Tile.adjStep t t') : Tile.markStep t t' :=
  sameMarks_markStep t t' ⟨h.1, h.2.1⟩

theorem setRevealed_marks (b : Board) (x y : Int) (hf : (tileAt b x y).flagged = false) :
    TilesRel Tile.markStep b (setTile b x y { tileAt b x y with revealed := true }) :=
  setTile_rel markStep_refl b x y _ ⟨fun _ => rfl, fun _ => by simp [hf]⟩

theorem setFlagged_marks (b : Board) (x y : Int) (v : Bool)
    (hr : (tileAt b x y).revealed = false) :
    TilesRel Tile.markStep b (setTile b x y { tileAt b x y with flagged := v }) :=
  setTile_rel markStep_refl b x y _
    ⟨(fun h => by rw [hr] at h; cases h), fun _ => by simp [hr]⟩

theorem revealFuel_marks (shuf : List Nat → List Nat) :
    ∀ (fuel : Nat) (b : Board) (x y : Int) (r : Bool) (b' : Board),
      b.firstClick_ = false → revealFuel shuf fuel b x y = some (r, b') →
      TilesRel Tile.markStep b b'
  | 0, _, _, _, _, _, _, h => by simp [revealFuel] at h
  | fuel + 1, b, x, y, r, b', hfc, h => by
    rw [revealFuel_succ shuf fuel b x y hfc] at h
    split at h
    · cases h; exact TilesRel.refl markStep_refl b
    · split at h
      · cases h; exact TilesRel.refl markStep_refl b
      · rename_i hrf
        have hf : (tileAt b x y).flagged = false := by
          simp only [Bool.or_eq_true, not_or, Bool.not_eq_true] at hrf
          exact hrf.2
        have hone := setRevealed_marks b x y hf
        split at h
        · cases h; exact hone
        · split at h
          · rw [Option.map_eq_some'] at h
            obtain ⟨bb, hfold, he⟩ := h
            cases he
            exact (foldlM_some_inv _
              (fun s => TilesRel Tile.markStep b s ∧ s.firstClick_ = false) offsets8
              (fun s d s' hI _ hs => by
                rw [Option.map_eq_some'] at hs
                obtain ⟨⟨r1, s1⟩, hs1, he1⟩ := hs
                cases he1
                obtain ⟨_, hfc1, _, _⟩ := revealFuel_frame shuf fuel s _ _ r1 _ hI.2 hs1
                exact ⟨TilesRel.trans markStep_trans hI.1
                  (revealFuel_marks shuf fuel s _ _ r1 _ hI.2 hs1), hfc1⟩)
              _ _ ⟨hone, hfc⟩ hfold).1
          · cases h; exact hone

/-- Whatever `reveal` returns, first click pending or not: revealed tiles stay
revealed and no tile is newly both flagged and revealed. -/
theorem reveal_marks (shuf : List Nat → List Nat) (hshuf : ∀ l, (shuf l).Perm l)
    (b : Board) (hwf : b.WF) (x y : Int) (r : Bool) (b' : Board)
    (h : reveal shuf b x y = some (r, b')) : TilesRel Tile.markStep b b' := by
  rw [reveal_eq] at h
  by_cases hb : inBounds b x y = true
  · cases hfc : b.firstClick_ with
    | false => exact revealFuel_marks shuf _ b x y r b' hfc h
    | true =>
      rw [revealFuel_first shuf hshuf _ b hwf x y hb hfc] at h
      cases hrel : relocate shuf b x y with
      | none => rw [hrel] at h; cases h
      | some b0 =>
        rw [hrel] at h
        obtain ⟨_, hmarks, hfc0, _⟩ := relocate_some_props shuf hshuf b hwf x y b0 hrel
        exact TilesRel.trans markStep_trans (hmarks.mono sameMarks_markStep)
          (revealFuel_marks shuf _ b0 x y r b' hfc0 h)
  · have hb' : inBounds b x y = false := by simpa using hb
    rw [revealFuel_oob shuf _ b x y hb'] at h
    cases h
    exact TilesRel.refl markStep_refl b

theorem flag_marks (b : Board) (x y : Int) : TilesRel Tile.markStep b (flag b x y) := by
  unfold flag
  split
  · exact TilesRel.refl markStep_refl b
  · simp only
    split
    · rename_i hr
      exact setFlagged_marks b x y _ (by simpa using hr)
    · exact TilesRel.refl markStep_refl b

theorem chordStep_marks (shuf : List Nat → List Nat) (hshuf : ∀ l, (shuf l).Perm l)
    (x y : Int) (s : Bool × Board) (hwf : s.2.WF) (d : Int × Int) (s' : Bool × Board)
    (h : chordStep shuf x y s d = some s') : TilesRel Tile.markStep s.2 s'.2 := by
  unfold chordStep at h
  split at h
  · cases h; exact TilesRel.refl markStep_refl _
  · simp only at h
    split at h
    · cases h; exact TilesRel.refl markStep_refl _
    · rename_i hf
      split at h
      · cases h
        exact setRevealed_marks _ _ _ (by simpa using hf)
      · rw [Option.map_eq_some'] at h
        obtain ⟨⟨r1, s1⟩, h1, he⟩ := h
        cases he
        exact reveal_marks shuf hshuf s.2 hwf _ _ r1 s1 h1

theorem chord_marks (shuf : List Nat → List Nat) (hshuf : ∀ l, (shuf l).Perm l)
    (b : Board) (hwf : b.WF) (x y : Int) (r : Bool) (b' : Board)
    (h : chord shuf b x y = some (r, b')) : TilesRel Tile.markStep b b' := by
  unfold chord at h
  split at h
  · cases h; exact TilesRel.refl markStep_refl b
  · simp only at h
    split at h
    · cases h; exact TilesRel.refl markStep_refl b
    · split at h
      · cases h; exact TilesRel.refl markStep_refl b
      · exact foldlM_some_inv (chordStep shuf x y)
          (fun s => TilesRel Tile.markStep b s.2) offsets8
          (fun s d s' hI _ hs => TilesRel.trans markStep_trans hI
            (chordStep_marks shuf hshuf x y s (hI.WF hwf) d s' hs))
          (false, b) (r, b') (TilesRel.refl markStep_refl b) h

theorem rule1Action_marks (shuf : List Nat → List Nat) (hshuf : ∀ l, (shuf l).Perm l)
    (b : Board) (hwf : b.WF) (x y : Int) (b' : Board)
    (h : rule1Action shuf b x y = some b') : TilesRel Tile.markStep b b' := by
  unfold rule1Action at h
  refine foldlM_some_inv _ (fun s => TilesRel Tile.markStep b s) offsets8 ?_ b b'
    (TilesRel.refl markStep_refl b) h
  intro s d s' hI _ hs
  simp only at hs
  split at hs
  · cases hs; exact hI
  · split at hs
    · rw [Option.map_eq_some'] at hs
      obtain ⟨⟨r1, s1⟩, h1, he⟩ := hs
      cases he
      exact TilesRel.trans markStep_trans hI (reveal_marks shuf hshuf s (hI.WF hwf) _ _ r1 s1 h1)
    · cases hs; exact hI

theorem rule2Action_marks (b : Board) (x y : Int) :
    TilesRel Tile.markStep b (rule2Action b x y) := by
  unfold rule2Action
  apply foldl_inv _ (fun s => TilesRel Tile.markStep b s) offsets8 _ b
    (TilesRel.refl markStep_refl b)
  intro s d hI _
  simp only
  split
  · exact hI
  · split
    · rename_i hc
      simp only [Bool.and_eq_true, Bool.not_eq_true'] at hc
      exact TilesRel.trans markStep_trans hI (setFlagged_marks s _ _ true hc.1)
    · exact hI

theorem AISolver_marks (shuf : List Nat → List Nat) (hshuf : ∀ l, (shuf l).Perm l)
    (b : Board) (hwf : b.WF) (r : Bool) (b' : Board)
    (h : AISolver shuf b = some (r, b')) : TilesRel Tile.markStep b b' := by
  rw [AISolver_eq] at h
  unfold scanOutcome at h
  split at h
  · cases h
    exact highlight_rel markStep_refl b _ _
  · rename_i p _
    split at h
    · rw [Option.map_eq_some'] at h
      obtain ⟨bb, h1, he⟩ := h
      cases he
      exact TilesRel.trans markStep_trans (highlight_rel markStep_refl b p.1 p.2)
        (rule1Action_marks shuf hshuf { b with highlightX_ := p.1, highlightY_ := p.2 }
          hwf p.1 p.2 _ h1)
    · cases h
      exact TilesRel.trans markStep_trans (highlight_rel markStep_refl b p.1 p.2)
        (rule2Action_marks _ p.1 p.2)

theorem markStep_stillRevealed {b b' : Board} (h : TilesRel Tile.markStep b b')
    (cx cy : Int) (hr : (tileAt b cx cy).revealed = true) :
    (tileAt b' cx cy).revealed = true :=
  (h.tileAt cx cy).1 hr

theorem markStep_noFlaggedRevealed {b b' : Board} (h : TilesRel Tile.markStep b b')
    (hn : NoFlaggedRevealed b) : NoFlaggedRevealed b' := by
  intro t ht
  obtain ⟨i, hi, rfl⟩ := (mem_iff_getTile _ _).1 ht
  apply (h.2.2.2 i).2
  exact hn _ (getTile_mem _ _ (by rw [← h.2.2.1]; exact hi))

/-! ## The first firing position and the two actions -/

theorem rowMajorLt_total (p q : Int × Int) (h : p ≠ q) : rowMajorLt p q ∨ rowMajorLt q p := by
  unfold rowMajorLt
  have hne : p.1 ≠ q.1 ∨ p.2 ≠ q.2 := by
    by_contra hc
    simp only [not_or, not_not] at hc
    exact h (Prod.ext hc.1 hc.2)
  omega

theorem find_first_firing (b : Board) (x y : Int) (hb : inBounds b x y = true)
    (hf : solverFires b x y = true)
    (hfirst : ∀ x' y' : Int, inBounds b x' y' = true → rowMajorLt (x', y') (x, y) →
      solverFires b x' y' = false) :
    (coords b.rows_ b.cols_).find? (fun p => solverFires b p.1 p.2) = some (x, y) := by
  have hmem : (x, y) ∈ coords b.rows_ b.cols_ := (mem_coords_iff b (x, y)).2 hb
  cases hfind : (coords b.rows_ b.cols_).find? (fun p => solverFires b p.1 p.2) with
  | none =>
    rw [List.find?_eq_none] at hfind
    exact absurd hf (hfind (x, y) hmem)
  | some p =>
    obtain ⟨hfp, as, bs, hsplit, hpre⟩ := List.find?_eq_some.1 hfind
    have hfp' : solverFires b p.1 p.2 = true := hfp
    have hpm : p ∈ coords b.rows_ b.cols_ := by rw [hsplit]; simp
    have hpb : inBounds b p.1 p.2 = true := (mem_coords_iff b p).1 hpm
    by_cases hpe : p = (x, y)
    · rw [hpe]
    · exfalso
      rcases rowMajorLt_total p (x, y) hpe with hlt | hlt
      · have := hfirst p.1 p.2 hpb hlt
        rw [hfp'] at this
        cases this
      · have hq := before_mem_prefix b.rows_ b.cols_ as bs p (x, y) hsplit hmem hlt
        have := hpre (x, y) hq
        simp only [hf, Bool.not_true, Bool.false_eq_true] at this

/-- The result of `AISolver` when `(x, y)` is the first position, in row-major
order, at which a rule fires. -/
theorem AISolver_at_first (shuf : List Nat → List Nat) (b : Board) (x y : Int)
    (hb : inBounds b x y = true) (hf : solverFires b x y = true)
    (hfirst : ∀ x' y' : Int, inBounds b x' y' = true → rowMajorLt (x', y') (x, y) →
      solverFires b x' y' = false) :
    AISolver shuf b =
      if rule1Cond b x y then
        (rule1Action shuf { b with highlightX_ := x, highlightY_ := y } x y).map
          (fun bb => (true, bb))
      else some (true, rule2Action { b with highlightX_ := x, highlightY_ := y } x y) := by
  rw [AISolver_eq]
  unfold scanOutcome
  rw [find_first_firing b x y hb hf hfirst]

theorem AISolver_no_firing (shuf : List Nat → List Nat) (b : Board)
    (h : ∀ x y : Int, inBounds b x y = true → solverFires b x y = false) :
    AISolver shuf b = some (false, { b with highlightX_ := -1, highlightY_ := -1 }) := by
  rw [AISolver_eq]
  unfold scanOutcome
  have hnone : (coords b.rows_ b.cols_).find? (fun p => solverFires b p.1 p.2) = none := by
    rw [List.find?_eq_none]
    intro p hp
    have := h p.1 p.2 ((mem_coords_iff b p).1 hp)
    simp [this]
  rw [hnone]

theorem first_firing_exists (b : Board)
    (h : ∃ x y : Int, inBounds b x y = true ∧ solverFires b x y = true) :
    ∃ x y : Int, inBounds b x y = true ∧ solverFires b x y = true ∧
      ∀ x' y' : Int, inBounds b x' y' = true → rowMajorLt (x', y') (x, y) →
        solverFires b x' y' = false := by
  obtain ⟨x0, y0, hb0, hf0⟩ := h
  cases hfind : (coords b.rows_ b.cols_).find? (fun p => solverFires b p.1 p.2) with
  | none =>
    rw [List.find?_eq_none] at hfind
    exact absurd hf0 (hfind (x0, y0) ((mem_coords_iff b (x0, y0)).2 hb0))
  | some p =>
    obtain ⟨hfp, as, bs, hsplit, hpre⟩ := List.find?_eq_some.1 hfind
    have hpm : p ∈ coords b.rows_ b.cols_ := by rw [hsplit]; simp
    refine ⟨p.1, p.2, (mem_coords_iff b p).1 hpm, hfp, ?_⟩
    intro x' y' hb' hlt
    have hq := before_mem_prefix b.rows_ b.cols_ as bs p (x', y') hsplit
      ((mem_coords_iff b (x', y')).2 hb') hlt
    simpa using hpre (x', y') hq

theorem exists_unknownNeighbour (b : Board) (x y : Int) (h : 0 < unknownNeighbours b x y) :
    ∃ cx cy : Int, unknownNeighbour b x y cx cy := by
  unfold unknownNeighbours at h
  obtain ⟨d, hd, hp⟩ := List.countP_pos_iff.1 h
  simp only [Bool.and_eq_true, Bool.not_eq_true'] at hp
  exact ⟨x + d.1, y + d.2, ⟨d, hd, rfl, rfl⟩, hp.1, hp.2.2, hp.2.1⟩

/-- Rule 1 leaves every in-bounds unflagged neighbour revealed. -/
theorem rule1Action_reveals (shuf : List Nat → List Nat) (b : Board) (hwf : b.WF)
    (hfc : b.firstClick_ = false) (x y : Int) (b' : Board)
    (h : rule1Action shuf b x y = some b') :
    TilesRel Tile.revealStep b b' ∧
    ∀ d ∈ offsets8, inBounds b (x + d.1) (y + d.2) = true →
      (tileAt b (x + d.1) (y + d.2)).flagged = false →
      (tileAt b' (x + d.1) (y + d.2)).revealed = true := by
  unfold rule1Action at h
  obtain ⟨⟨hrel, _⟩, hpost, _⟩ := foldlM_post _
    (fun s => TilesRel Tile.revealStep b s ∧ s.firstClick_ = false)
    (fun (d : Int × Int) s => inBounds b (x + d.1) (y + d.2) = true →
      (tileAt b (x + d.1) (y + d.2)).flagged = false →
      (tileAt s (x + d.1) (y + d.2)).revealed = true) offsets8
    (fun s d s' hI _ hs => by
      obtain ⟨hrs, hfcs⟩ := hI
      simp only at hs
      split at hs
      · rename_i hnb
        cases hs
        refine ⟨⟨hrs, hfcs⟩, ?_, fun _ he => he⟩
        intro hb0 _
        rw [hrs.inBounds] at hnb
        simp [hb0] at hnb
      · rename_i hnb
        have hnb' : inBounds s (x + d.1) (y + d.2) = true := by simpa using hnb
        split at hs
        · rw [Option.map_eq_some'] at hs
          obtain ⟨⟨r1, s1⟩, h1, he⟩ := hs
          cases he
          rw [reveal_eq] at h1
          obtain ⟨hrel1, hfc1, _, _⟩ := revealFuel_frame shuf _ s _ _ r1 s1 hfcs h1
          obtain ⟨hA, _⟩ := revealFuel_complete shuf _ s _ _ r1 s1 (hrs.WF hwf) hfcs h1
          refine ⟨⟨TilesRel.trans revealStep_trans hrs hrel1, hfc1⟩, ?_, ?_⟩
          · intro _ hf0
            apply hA hnb'
            rw [(hrs.tileAt _ _).2.1]
            exact hf0
          · intro e he hbe hfe
            exact (hrel1.tileAt _ _).2.2.2 (he hbe hfe)
        · rename_i hc
          cases hs
          refine ⟨⟨hrs, hfcs⟩, ?_, fun _ he => he⟩
          intro _ hf0
          have hfs : (tileAt s (x + d.1) (y + d.2)).flagged = false := by
            rw [(hrs.tileAt _ _).2.1]; exact hf0
          simp only [hfs, Bool.not_false, Bool.and_true, Bool.not_eq_true', Bool.not_eq_false]
            at hc
          exact hc)
    b b' ⟨TilesRel.refl revealStep_refl b, hfc⟩ h
  exact ⟨hrel, hpost⟩

/-- The loop of Rule 2 over a list `L` of offsets: the neighbours of `(x, y)`
along `L` that were neither revealed nor flagged are flagged, nothing else
changes. -/
theorem rule2_fold_spec (b : Board) (hwf : b.WF) (x y : Int) (L : List (Int × Int)) :
    TilesRel Tile.flagStep b (L.foldl (fun bb d =>
      if !inBounds bb (x + d.1) (y + d.2) then bb
      else
        let n := tileAt bb (x + d.1) (y + d.2)
        if !n.revealed && !n.flagged then setTile bb (x + d.1) (y + d.2) { n with flagged := true }
        else bb) b) ∧
    ∀ cx cy : Int, inBounds b cx cy = true →
      (((∃ d ∈ L, cx = x + d.1 ∧ cy = y + d.2) ∧ (tileAt b cx cy).revealed = false ∧
          (tileAt b cx cy).flagged = false) →
        tileAt (L.foldl (fun bb d =>
          if !inBounds bb (x + d.1) (y + d.2) then bb
          else
            let n := tileAt bb (x + d.1) (y + d.2)
            if !n.revealed && !n.flagged then
              setTile bb (x + d.1) (y + d.2) { n with flagged := true }
            else bb) b) cx cy = { tileAt b cx cy with flagged := true }) ∧
      (¬ ((∃ d ∈ L, cx = x + d.1 ∧ cy = y + d.2) ∧ (tileAt b cx cy).revealed = false ∧
          (tileAt b cx cy).flagged = false) →
        tileAt (L.foldl (fun bb d =>
          if !inBounds bb (x + d.1) (y + d.2) then bb
          else
            let n := tileAt bb (x + d.1) (y + d.2)
            if !n.revealed && !n.flagged then
              setTile bb (x + d.1) (y + d.2) { n with flagged := true }
            else bb) b) cx cy = tileAt b cx cy) := by
  induction L using List.reverseRecOn with
  | nil =>
    refine ⟨TilesRel.refl flagStep_refl b, fun cx cy _ => ⟨?_, fun _ => rfl⟩⟩
    rintro ⟨⟨d, hd, _⟩, _⟩
    simp at hd
  | append_singleton L d ih =>
    obtain ⟨hrel, hcell⟩ := ih
    rw [List.foldl_append, List.foldl_cons, List.foldl_nil]
    generalize hs : L.foldl (fun bb d =>
      if !inBounds bb (x + d.1) (y + d.2) then bb
      else
        let n := tileAt bb (x + d.1) (y + d.2)
        if !n.revealed && !n.flagged then setTile bb (x + d.1) (y + d.2) { n with flagged := true }
        else bb) b = s at hrel hcell
    have hwfs : s.WF := hrel.WF hwf
    have hmem : ∀ cx cy : Int, (∃ e ∈ L ++ [d], cx = x + e.1 ∧ cy = y + e.2) ↔
        ((∃ e ∈ L, cx = x + e.1 ∧ cy = y + e.2) ∨ (cx = x + d.1 ∧ cy = y + d.2)) := by
      intro cx cy
      constructor
      · rintro ⟨e, he, h1⟩
        rcases List.mem_append.1 he with h | h
        · exact Or.inl ⟨e, h, h1⟩
        · simp only [List.mem_singleton] at h
          subst h
          exact Or.inr h1
      · rintro (⟨e, he, h1⟩ | h1)
        · exact ⟨e, List.mem_append_left _ he, h1⟩
        · exact ⟨d, List.mem_append_right _ (by simp), h1⟩
    by_cases hnb : inBounds b (x + d.1) (y + d.2) = true
    · have hnbs : inBounds s (x + d.1) (y + d.2) = true := by rw [hrel.inBounds]; exact hnb
      obtain ⟨hyes, hno⟩ := hcell (x + d.1) (y + d.2) hnb
      simp only [hnbs, Bool.not_true, Bool.false_eq_true, if_false]
      by_cases hK : (∃ e ∈ L, x + d.1 = x + e.1 ∧ y + d.2 = y + e.2) ∧
          (tileAt b (x + d.1) (y + d.2)).revealed = false ∧
          (tileAt b (x + d.1) (y + d.2)).flagged = false
      · -- already flagged by an earlier offset reaching the same position
        have hts := hyes hK
        have hcond : (!(tileAt s (x + d.1) (y + d.2)).revealed &&
            !(tileAt s (x + d.1) (y + d.2)).flagged) = false := by
          rw [hts]; simp
        rw [hcond]
        simp only [Bool.false_eq_true, if_false]
        refine ⟨hrel, fun cx cy hcb => ?_⟩
        obtain ⟨hy1, hn1⟩ := hcell cx cy hcb
        constructor
        · rintro ⟨hex, hr, hf⟩
          rcases (hmem cx cy).1 hex with h | ⟨rfl, rfl⟩
          · exact hy1 ⟨h, hr, hf⟩
          · exact hts
        · intro hneg
          apply hn1
          rintro ⟨hex, hr, hf⟩
          exact hneg ⟨(hmem cx cy).2 (Or.inl hex), hr, hf⟩
      · have hts := hno hK
        by_cases hU : (tileAt b (x + d.1) (y + d.2)).revealed = false ∧
            (tileAt b (x + d.1) (y + d.2)).flagged = false
        · have hcond : (!(tileAt s (x + d.1) (y + d.2)).revealed &&
              !(tileAt s (x + d.1) (y + d.2)).flagged) = true := by
            rw [hts, hU.1, hU.2]; rfl
          rw [hcond]
          simp only [if_true]
          refine ⟨TilesRel.trans flagStep_trans hrel
            (setTile_rel flagStep_refl s _ _ _ ⟨rfl, rfl, rfl⟩), fun cx cy hcb => ?_⟩
          have hcbs : inBounds s cx cy = true := by rw [hrel.inBounds]; exact hcb
          obtain ⟨hy1, hn1⟩ := hcell cx cy hcb
          by_cases hc : x + d.1 = cx ∧ y + d.2 = cy
          · obtain ⟨rfl, rfl⟩ := hc
            rw [tileAt_setTile_self s hwfs hnbs, hts]
            refine ⟨fun _ => rfl, fun hneg => ?_⟩
            exact absurd ⟨(hmem _ _).2 (Or.inr ⟨rfl, rfl⟩), hU.1, hU.2⟩ hneg
          · rw [tileAt_setTile_ne s hnbs hcbs hc]
            constructor
            · rintro ⟨hex, hr, hf⟩
              rcases (hmem cx cy).1 hex with h | ⟨h1, h2⟩
              · exact hy1 ⟨h, hr, hf⟩
              · exact absurd ⟨h1.symm, h2.symm⟩ hc
            · intro hneg
              apply hn1
              rintro ⟨hex, hr, hf⟩
              exact hneg ⟨(hmem cx cy).2 (Or.inl hex), hr, hf⟩
        · have hcond : (!(tileAt s (x + d.1) (y + d.2)).revealed &&
              !(tileAt s (x + d.1) (y + d.2)).flagged) = false := by
            rw [hts]
            cases hr : (tileAt b (x + d.1) (y + d.2)).revealed <;>
              cases hf : (tileAt b (x + d.1) (y + d.2)).flagged <;> simp
            exact hU ⟨hr, hf⟩
          rw [hcond]
          simp only [Bool.false_eq_true, if_false]
          refine ⟨hrel, fun cx cy hcb => ?_⟩
          obtain ⟨hy1, hn1⟩ := hcell cx cy hcb
          constructor
          · rintro ⟨hex, hr, hf⟩
            rcases (hmem cx cy).1 hex with h | ⟨rfl, rfl⟩
            · exact hy1 ⟨h, hr, hf⟩
            · exact absurd ⟨hr, hf⟩ hU
          · intro hneg
            apply hn1
            rintro ⟨hex, hr, hf⟩
            exact hneg ⟨(hmem cx cy).2 (Or.inl hex), hr, hf⟩
    · have hnbs : inBounds s (x + d.1) (y + d.2) = false := by
        rw [hrel.inBounds]; simpa using hnb
      simp only [hnbs, Bool.not_false, if_true]
      refine ⟨hrel, fun cx cy hcb => ?_⟩
      obtain ⟨hy1, hn1⟩ := hcell cx cy hcb
      constructor
      · rintro ⟨hex, hr, hf⟩
        rcases (hmem cx cy).1 hex with h | ⟨rfl, rfl⟩
        · exact hy1 ⟨h, hr, hf⟩
        · exact absurd hcb hnb
      · intro hneg
        apply hn1
        rintro ⟨hex, hr, hf⟩
        exact hneg ⟨(hmem cx cy).2 (Or.inl hex), hr, hf⟩

/-- Rule 2 at `(x, y)`: exactly the unknown neighbours of `(x, y)` get flagged. -/
theorem rule2Action_tileAt (b : Board) (hwf : b.WF) (x y cx cy : Int)
    (hcb : inBounds b cx cy = true) :
    (unknownNeighbour b x y cx cy →
      tileAt (rule2Action b x y) cx cy = { tileAt b cx cy with flagged := true }) ∧
    (¬ unknownNeighbour b x y cx cy → tileAt (rule2Action b x y) cx cy = tileAt b cx cy) := by
  obtain ⟨hy, hn⟩ := (rule2_fold_spec b hwf x y offsets8).2 cx cy hcb
  unfold unknownNeighbour isNeighbour rule2Action
  constructor
  · rintro ⟨hex, _, hr, hf⟩
    exact hy ⟨hex, hr, hf⟩
  · intro hneg
    apply hn
    rintro ⟨hex, hr, hf⟩
    exact hneg ⟨hex, hcb, hr, hf⟩

/-! ## Termination measure and refused reveals -/

theorem countP_lt_getTile (p : Tile → Bool) :
    ∀ (l l' : List Tile), l.length = l'.length →
      (∀ i, p (getTile l' i) = true → p (getTile l i) = true) →
      (∃ j, j < l.length ∧ p (getTile l j) = true ∧ p (getTile l' j) = false) →
      l'.countP p < l.countP p
  | [], _, _, _, h => by
    obtain ⟨j, hj, _⟩ := h
    simp at hj
  | _ :: _, [], h, _, _ => by simp at h
  | a :: l, a' :: l', h, hp, hex => by
    have hlen : l.length = l'.length := by simpa using h
    have hp' : ∀ i, p (getTile l' i) = true → p (getTile l i) = true :=
      fun i => by simpa [getTile] using hp (i + 1)
    have h0 : p a' = true → p a = true := by simpa [getTile] using hp 0
    have hle := countP_le_getTile p l l' hlen hp'
    rw [List.countP_cons, List.countP_cons]
    obtain ⟨j, hj, hj1, hj2⟩ := hex
    cases j with
    | zero =>
      have ha : p a = true := by simpa [getTile] using hj1
      have ha' : p a' = false := by simpa [getTile] using hj2
      simp only [ha, ha', if_true, Bool.false_eq_true, if_false]
      omega
    | succ k =>
      have ih := countP_lt_getTile p l l' hlen hp'
        ⟨k, by simpa using hj, by simpa [getTile] using hj1, by simpa [getTile] using hj2⟩
      by_cases ha' : p a' = true
      · rw [if_pos ha', if_pos (h0 ha')]; omega
      · rw [if_neg ha']
        split <;> omega

/-- A call of `reveal` never increases the number of unrevealed tiles, and
strictly decreases it when its target is in bounds, unrevealed and unflagged. -/
theorem revealFuel_measure (shuf : List Nat → List Nat) (fuel : Nat) (b : Board) (hwf : b.WF)
    (hfc : b.firstClick_ = false) (x y : Int) (r : Bool) (b' : Board)
    (h : revealFuel shuf fuel b x y = some (r, b')) :
    unrevealedCount b' ≤ unrevealedCount b ∧
    (inBounds b x y = true → (tileAt b x y).revealed = false →
      (tileAt b x y).flagged = false → unrevealedCount b' < unrevealedCount b) := by
  obtain ⟨hrel, _, _, _⟩ := revealFuel_frame shuf fuel b x y r b' hfc h
  refine ⟨unrevealedCount_le hrel, ?_⟩
  intro hb hr hf
  obtain ⟨hA, _⟩ := revealFuel_complete shuf fuel b x y r b' hwf hfc h
  have hr' := hA hb hf
  unfold unrevealedCount
  apply countP_lt_getTile _ _ _ hrel.2.2.1.symm
  · intro i hi
    have h1 := (hrel.2.2.2 i).2.2.2
    simp only [Bool.not_eq_true'] at hi ⊢
    cases hr0 : (getTile b.tiles i).revealed with
    | false => rfl
    | true => rw [h1 hr0] at hi; cases hi
  · refine ⟨(index b x y).toNat, index_lt b hwf hb, ?_, ?_⟩
    · have : (getTile b.tiles (index b x y).toNat).revealed = false := hr
      simp [this]
    · have : (getTile b'.tiles (index b x y).toNat).revealed = true := by
        rw [← hrel.index x y]; exact hr'
      simp [this]

theorem reveal_none_iff (shuf : List Nat → List Nat) (hshuf : ∀ l, (shuf l).Perm l)
    (b : Board) (hwf : b.WF) (x y : Int) :
    reveal shuf b x y = none ↔
      (b.firstClick_ = true ∧ inBounds b x y = true ∧ ¬ Capacity b x y) := by
  constructor
  · intro h
    by_cases hb : inBounds b x y = true
    · cases hfc : b.firstClick_ with
      | false =>
        obtain ⟨r, b', h', _⟩ := reveal_total shuf b x y hwf hfc
        rw [h] at h'; cases h'
      | true =>
        refine ⟨rfl, hb, fun hcap => ?_⟩
        obtain ⟨_, r, b', _, h', _⟩ := reveal_first shuf hshuf b hwf x y hb hfc hcap
        rw [h] at h'; cases h'
    · have hb' : inBounds b x y = false := by simpa using hb
      rw [reveal_eq, revealFuel_oob shuf _ b x y hb'] at h
      cases h
  · rintro ⟨hfc, hb, hcap⟩
    exact reveal_first_none shuf hshuf b hwf x y hb hfc hcap

theorem reveal_refused (shuf : List Nat → List Nat) (b : Board) (x y : Int)
    (hfc : b.firstClick_ = false)
    (h : (tileAt b x y).revealed = true ∨ (tileAt b x y).flagged = true) :
    reveal shuf b x y = some (false, b) := by
  rw [reveal_eq, revealFuel_succ shuf _ b x y hfc]
  split
  · rfl
  · rw [if_pos]
    simpa using h

theorem reveal_refused_first (shuf : List Nat → List Nat) (hshuf : ∀ l, (shuf l).Perm l)
    (b : Board) (hwf : b.WF) (x y : Int) (hb : inBounds b x y = true)
    (hfc : b.firstClick_ = true) (hcap : Capacity b x y)
    (h : (tileAt b x y).revealed = true ∨ (tileAt b x y).flagged = true) :
    ∃ b0, relocate shuf b x y = some b0 ∧ reveal shuf b x y = some (false, b0) ∧
      TilesRel Tile.sameMarks b b0 ∧ b0.firstClick_ = false ∧
      b0.highlightX_ = b.highlightX_ ∧ b0.highlightY_ = b.highlightY_ ∧
      mineCount b0 = mineCount b ∧ AdjOK b0 ∧
      ∀ i ∈ safeTiles b x y, (getTile b0.tiles i).mine = false := by
  obtain ⟨b0, h0, hmarks, hfc0, hx0, hy0, hcount, hadj, hsafe⟩ :=
    relocate_spec shuf hshuf b hwf x y hcap
  refine ⟨b0, h0, ?_, hmarks, hfc0, hx0, hy0, hcount, hadj, hsafe⟩
  rw [reveal_eq, revealFuel_first shuf hshuf _ b hwf x y hb hfc, h0]
  show revealFuel shuf (b.tiles.length + 1) b0 x y = some (false, b0)
  have ht := hmarks.tileAt x y
  have h' : (tileAt b0 x y).revealed = true ∨ (tileAt b0 x y).flagged = true := by
    rw [ht.1, ht.2]; exact h
  have := reveal_refused shuf b0 x y hfc0 h'
  rw [reveal_eq, hmarks.2.2.1] at this
  exact this

/-! ## The flood fill does not look at the shuffle -/

theorem foldlM_congr_inv {α β : Type} (f g : β → α → Option β) (Inv : β → Prop)
    (hfg : ∀ s d, Inv s → f s d = g s d)
    (hinv : ∀ s d s', Inv s → f s d = some s' → Inv s') :
    ∀ (L : List α) (s : β), Inv s → L.foldlM f s = L.foldlM g s
  | [], _, _ => rfl
  | d :: L, s, hs => by
    rw [List.foldlM_cons, List.foldlM_cons, ← hfg s d hs]
    cases hfd : f s d with
    | none => rfl
    | some s1 => exact foldlM_congr_inv f g Inv hfg hinv L s1 (hinv s d s1 hs hfd)

theorem revealFuel_shuf_irrelevant (shuf shuf' : List Nat → List Nat) :
    ∀ (fuel : Nat) (b : Board) (x y : Int), b.firstClick_ = false →
      revealFuel shuf fuel b x y = revealFuel shuf' fuel b x y
  | 0, _, _, _, _ => rfl
  | fuel + 1, b, x, y, hfc => by
    rw [revealFuel_succ shuf fuel b x y hfc, revealFuel_succ shuf' fuel b x y hfc]
    have hfold : ∀ s : Board, s.firstClick_ = false →
        offsets8.foldlM (fun bb (d : Int × Int) =>
          (revealFuel shuf fuel bb (x + d.1) (y + d.2)).map Prod.snd) s
        = offsets8.foldlM (fun bb (d : Int × Int) =>
          (revealFuel shuf' fuel bb (x + d.1) (y + d.2)).map Prod.snd) s := by
      intro s hs
      apply foldlM_congr_inv _ _ (fun s => s.firstClick_ = false) _ _ offsets8 s hs
      · intro s d hs'
        show (revealFuel shuf fuel s (x + d.1) (y + d.2)).map Prod.snd
          = (revealFuel shuf' fuel s (x + d.1) (y + d.2)).map Prod.snd
        rw [revealFuel_shuf_irrelevant shuf shuf' fuel s _ _ hs']
      · intro s d s' hs' h
        rw [Option.map_eq_some'] at h
        obtain ⟨⟨r1, s1⟩, h1, he⟩ := h
        cases he
        exact (revealFuel_frame shuf fuel s _ _ r1 s1 hs' h1).2.1
    rw [hfold (setTile b x y { tileAt b x y with revealed := true }) hfc]

theorem revealFuel_first_of_some (shuf : List Nat → List Nat) (fuel : Nat) (b b0 : Board)
    (x y : Int) (hb : inBounds b x y = true) (hfc : b.firstClick_ = true)
    (hrel : relocate shuf b x y = some b0) (hb0 : inBounds b0 x y = true)
    (hfc0 : b0.firstClick_ = false) :
    revealFuel shuf (fuel + 1) b x y = revealFuel shuf (fuel + 1) b0 x y := by
  conv_lhs => rw [revealFuel]
  conv_rhs => rw [revealFuel]
  simp only [hb, hb0, hfc, hfc0, hrel]
  rfl

/-- A first reveal whose 3x3 block holds no mine moves nothing: the relocation
only recomputes the adjacency counts, whatever the shuffle. -/
theorem relocate_of_gather_nil (shuf : List Nat → List Nat) (b : Board) (x y : Int)
    (hg : gatherMines (safeTiles b x y) b.tiles = ([], b.tiles)) :
    relocate shuf b x y = some (computeAdjacentMines { b with firstClick_ := false }) := by
  unfold relocate
  simp only [hg, List.length_nil, Nat.zero_le, if_true, List.take_zero]
  rfl

theorem rule1Cond_unknown (b : Board) (x y : Int) (h : rule1Cond b x y = true) :
    0 < unknownNeighbours b x y := by
  unfold rule1Cond at h
  simp only [Bool.and_eq_true, decide_eq_true_eq] at h
  exact h.2

theorem rule2Cond_unknown (b : Board) (x y : Int) (h : rule2Cond b x y = true) :
    0 < unknownNeighbours b x y := by
  unfold rule2Cond at h
  simp only [Bool.and_eq_true, decide_eq_true_eq] at h
  omega

theorem rule2Cond_not_rule1 (b : Board) (x y : Int) (h : rule2Cond b x y = true) :
    rule1Cond b x y = false := by
  unfold rule2Cond at h
  unfold rule1Cond
  simp only [Bool.and_eq_true, decide_eq_true_eq] at h
  simp only [Bool.and_eq_false_imp, decide_eq_true_eq, decide_eq_false_iff_not]
  intro h1
  omega

theorem solverFires_iff (b : Board) (x y : Int) :
    solverFires b x y = true ↔ (tileAt b x y).revealed = true ∧ (tileAt b x y).mine = false ∧
      (rule1Cond b x y = true ∨ rule2Cond b x y = true) := by
  unfold solverFires
  simp [and_assoc]

/-- Outcome of `AISolver` when Rule 1 fires at the first firing position. -/
theorem solver_rule1_outcome (shuf : List Nat → List Nat) (b : Board) (hwf : b.WF)
    (hfc : b.firstClick_ = false) (x y : Int) (hb : inBounds b x y = true)
    (hf : solverFires b x y = true)
    (hfirst : ∀ x' y' : Int, inBounds b x' y' = true → rowMajorLt (x', y') (x, y) →
      solverFires b x' y' = false)
    (h1 : rule1Cond b x y = true) :
    ∃ b', AISolver shuf b = some (true, b') ∧
      rule1Action shuf { b with highlightX_ := x, highlightY_ := y } x y = some b' ∧
      TilesRel Tile.revealStep b b' ∧
      ∀ cx cy : Int, unknownNeighbour b x y cx cy → (tileAt b' cx cy).revealed = true := by
  obtain ⟨b', hact, _⟩ := rule1Action_total shuf
    { b with highlightX_ := x, highlightY_ := y } x y hwf hfc
  obtain ⟨hrel, hpost⟩ := rule1Action_reveals shuf
    { b with highlightX_ := x, highlightY_ := y } hwf hfc x y b' hact
  refine ⟨b', ?_, hact, ?_, ?_⟩
  · rw [AISolver_at_first shuf b x y hb hf hfirst, if_pos h1, hact]
    rfl
  · exact TilesRel.trans revealStep_trans (highlight_rel revealStep_refl b x y) hrel
  · rintro cx cy ⟨⟨d, hd, rfl, rfl⟩, hcb, _, hfl⟩
    exact hpost d hd hcb hfl

/-- Outcome of `AISolver` when Rule 2 fires at the first firing position. -/
theorem solver_rule2_outcome (shuf : List Nat → List Nat) (b : Board) (hwf : b.WF)
    (x y : Int) (hb : inBounds b x y = true) (hf : solverFires b x y = true)
    (hfirst : ∀ x' y' : Int, inBounds b x' y' = true → rowMajorLt (x', y') (x, y) →
      solverFires b x' y' = false)
    (h1 : rule1Cond b x y = false) :
    AISolver shuf b
      = some (true, rule2Action { b with highlightX_ := x, highlightY_ := y } x y) ∧
    ∀ cx cy : Int, inBounds b cx cy = true →
      (unknownNeighbour b x y cx cy →
        tileAt (rule2Action { b with highlightX_ := x, highlightY_ := y } x y) cx cy
          = { tileAt b cx cy with flagged := true }) ∧
      (¬ unknownNeighbour b x y cx cy →
        tileAt (rule2Action { b with highlightX_ := x, highlightY_ := y } x y) cx cy
          = tileAt b cx cy) := by
  refine ⟨?_, ?_⟩
  · rw [AISolver_at_first shuf b x y hb hf hfirst, if_neg (by simp [h1])]
  · intro cx cy hcb
    exact rule2Action_tileAt { b with highlightX_ := x, highlightY_ := y } hwf x y cx cy hcb

/-! ## The relocation loop, access by access -/

theorem relocate_unfold (shuf : List Nat → List Nat) (b : Board) (x y : Int) :
    relocate shuf b x y =
      if (toMove b x y).length ≤ (pool shuf b x y).length then
        some (computeAdjacentMines { b with
          firstClick_ := false,
          tiles := placeMines ((pool shuf b x y).take (toMove b x y).length)
            (clearedTiles b x y) })
      else none := rfl

theorem pool_nodup (shuf : List Nat → List Nat) (hshuf : ∀ l, (shuf l).Perm l)
    (b : Board) (x y : Int) : (pool shuf b x y).Nodup :=
  (hshuf _).nodup_iff.2 (buildPool_nodup _ _ _)

theorem mem_pool (shuf : List Nat → List Nat) (hshuf : ∀ l, (shuf l).Perm l)
    (b : Board) (x y : Int) (p : Nat) (h : p ∈ pool shuf b x y) :
    p < b.rows_ * b.cols_ ∧ p ∉ safeTiles b x y ∧ (getTile b.tiles p).mine = false ∧
      (getTile (clearedTiles b x y) p).mine = false := by
  unfold pool at h
  obtain ⟨h1, h2, h3⟩ := (mem_buildPool _ _ _ p).1 ((hshuf _).mem_iff.1 h)
  refine ⟨h1, h3, ?_, h2⟩
  unfold clearedTiles gatherMines at h2
  rw [gatherMines_fold_getTile, if_neg h3] at h2
  exact h2

theorem pool_length_iff (shuf : List Nat → List Nat) (hshuf : ∀ l, (shuf l).Perm l)
    (b : Board) (x y : Int) :
    (toMove b x y).length ≤ (pool shuf b x y).length ↔ Capacity b x y :=
  relocate_cond shuf hshuf b x y

theorem safeTiles_length_le (b : Board) (x y : Int) :
    (safeTiles b x y).length ≤ b.rows_ * b.cols_ := by
  have h := ((safeTiles_nodup b x y).subperm (fun i hi =>
    List.mem_range.2 (safeTiles_lt b x y i hi))).length_le
  simpa using h

/-- Every access `pool[i]` of the relocation loop. -/
theorem pool_access (shuf : List Nat → List Nat) (hshuf : ∀ l, (shuf l).Perm l)
    (b : Board) (x y : Int) (i : Nat) (hi : i < (pool shuf b x y).length) :
    ∃ p, (pool shuf b x y)[i]? = some p ∧ p < b.rows_ * b.cols_ ∧ p ∉ safeTiles b x y ∧
      (getTile b.tiles p).mine = false ∧
      (getTile (placeMines ((pool shuf b x y).take i) (clearedTiles b x y)) p).mine = false ∧
      ∀ j, j < i → (pool shuf b x y)[j]? ≠ some p := by
  have hnd := pool_nodup shuf hshuf b x y
  have hdist : ∀ j, j < i → (pool shuf b x y)[j]? ≠ some (pool shuf b x y)[i] := by
    intro j hj he
    have hj' : j < (pool shuf b x y).length := Nat.lt_trans hj hi
    rw [List.getElem?_eq_getElem hj'] at he
    have he' : (pool shuf b x y)[j] = (pool shuf b x y)[i] := Option.some.inj he
    have := (hnd.getElem_inj_iff).1 he'
    omega
  obtain ⟨h1, h2, h3, h4⟩ := mem_pool shuf hshuf b x y _ (List.getElem_mem hi)
  refine ⟨(pool shuf b x y)[i], List.getElem?_eq_getElem hi, h1, h2, h3, ?_, hdist⟩
  rw [placeMines_getTile_not_mem]
  · exact h4
  · intro hm
    obtain ⟨j, hj, he⟩ := List.getElem_of_mem hm
    rw [List.length_take] at hj
    rw [List.getElem_take] at he
    have hj' : j < i := by omega
    apply hdist j hj'
    rw [List.getElem?_eq_getElem (Nat.lt_trans hj' hi), he]

/-! ## The cascade never exposes a mine -/

theorem safeStep_refl (t : Tile) : Tile.safeStep t t :=
  ⟨revealStep_refl t, fun h h' => by rw [h] at h'; cases h'⟩

theorem safeStep_trans (t t' t'' : Tile) (h : Tile.safeStep t t') (h' : Tile.safeStep t' t'') :
    Tile.safeStep t t'' := by
  refine ⟨revealStep_trans t t' t'' h.1 h'.1, fun h0 h2 => ?_⟩
  cases h1 : t'.revealed with
  | true => exact h.2 h0 h1
  | false =>
    rw [← h.1.1]
    exact h'.2 h1 h2

theorem safeStep_revealStep (t t' : Tile) (h : Tile.safeStep t t') : Tile.revealStep t t' := h.1

theorem safeStep_softStep (t t' : Tile) (h : Tile.safeStep t t') : Tile.softStep t t' :=
  revealStep_softStep t t' h.1

theorem revealStep_safeStep_of_no_mine (t t' : Tile) (h : Tile.revealStep t t')
    (hm : t.mine = false) : Tile.safeStep t t' := ⟨h, fun _ _ => hm⟩

theorem setRevealed_safe (b : Board) (x y : Int) (hm : (tileAt b x y).mine = false) :
    TilesRel Tile.safeStep b (setTile b x y { tileAt b x y with revealed := true }) :=
  setTile_rel safeStep_refl b x y _ ⟨⟨rfl, rfl, rfl, fun _ => rfl⟩, fun _ _ => hm⟩

/-- With correct adjacency counts, a zero cell has no mine among its in-bounds
neighbours. -/
theorem zero_adj_no_mine (b : Board) (hadj : AdjOK b) (x y : Int) (hb : inBounds b x y = true)
    (hm : (tileAt b x y).mine = false) (hz : (tileAt b x y).adjacentMines = 0) :
    ∀ d ∈ offsets8, inBounds b (x + d.1) (y + d.2) = true →
      (tileAt b (x + d.1) (y + d.2)).mine = false := by
  have h := (AdjOK_iff b).1 hadj x y hb hm
  rw [hz] at h
  have h0 : neighbourMines b x y = 0 := by omega
  unfold neighbourMines at h0
  rw [List.countP_eq_zero] at h0
  intro d hd hbd
  have := h0 d hd
  simpa [hbd] using this

/-- A call of `reveal` on a cell without a mine, with correct adjacency counts:
it returns false and every tile it reveals holds no mine. -/
theorem revealFuel_safe (shuf : List Nat → List Nat) :
    ∀ (fuel : Nat) (b : Board) (x y : Int) (r : Bool) (b' : Board),
      b.WF → b.firstClick_ = false → AdjOK b →
      (inBounds b x y = true → (tileAt b x y).mine = false) →
      revealFuel shuf fuel b x y = some (r, b') →
      r = false ∧ TilesRel Tile.safeStep b b'
  | 0, _, _, _, _, _, _, _, _, _, h => by simp [revealFuel] at h
  | fuel + 1, b, x, y, r, b', hwf, hfc, hadj, htarget, h => by
    rw [revealFuel_succ shuf fuel b x y hfc] at h
    split at h
    · cases h; exact ⟨rfl, TilesRel.refl safeStep_refl b⟩
    · rename_i hb
      have hb' : inBounds b x y = true := by simpa using hb
      have hm := htarget hb'
      split at h
      · cases h; exact ⟨rfl, TilesRel.refl safeStep_refl b⟩
      · have hone := setRevealed_safe b x y hm
        split at h
        · rename_i hmine
          rw [hm] at hmine
          cases hmine
        · split at h
          · rename_i hz
            have hz' : (tileAt b x y).adjacentMines = 0 := by simpa using hz
            have hnb := zero_adj_no_mine b hadj x y hb' hm hz'
            rw [Option.map_eq_some'] at h
            obtain ⟨bb, hfold, he⟩ := h
            cases he
            refine ⟨rfl, ?_⟩
            exact (foldlM_some_inv _
              (fun s => TilesRel Tile.safeStep b s ∧ s.firstClick_ = false) offsets8
              (fun s d s' hI hd hs => by
                rw [Option.map_eq_some'] at hs
                obtain ⟨⟨r1, s1⟩, hs1, he1⟩ := hs
                cases he1
                obtain ⟨hrs, hfcs⟩ := hI
                obtain ⟨_, hfc1, _, _⟩ := revealFuel_frame shuf fuel s _ _ r1 _ hfcs hs1
                have hstep := (revealFuel_safe shuf fuel s _ _ r1 _ (hrs.WF hwf) hfcs
                  (AdjOK_congr (hrs.mono safeStep_softStep) hadj)
                  (fun hbs => by
                    rw [hrs.inBounds] at hbs
                    rw [(hrs.tileAt _ _).1.1]
                    exact hnb d hd hbs) hs1).2
                exact ⟨TilesRel.trans safeStep_trans hrs hstep, hfc1⟩)
              _ _ ⟨hone, hfc⟩ hfold).1
          · cases h; exact ⟨rfl, hone⟩

/-- The same for `reveal`, which is shown to return. -/
theorem reveal_safe (shuf : List Nat → List Nat) (b : Board) (hwf : b.WF)
    (hfc : b.firstClick_ = false) (hadj : AdjOK b) (x y : Int)
    (htarget : inBounds b x y = true → (tileAt b x y).mine = false) :
    ∃ b', reveal shuf b x y = some (false, b') ∧ TilesRel Tile.safeStep b b' ∧
      b'.firstClick_ = false ∧ b'.highlightX_ = b.highlightX_ ∧
      b'.highlightY_ = b.highlightY_ := by
  obtain ⟨r, b', h, _, hfc', hx, hy⟩ := reveal_total shuf b x y hwf hfc
  obtain ⟨hr, hrel⟩ := revealFuel_safe shuf _ b x y r b' hwf hfc hadj htarget h
  subst hr
  exact ⟨b', h, hrel, hfc', hx, hy⟩

/-! ## The revealing loop of `chord` -/

theorem countFlags_eq (b : Board) (x y : Int) :
    countFlags b x y = (flaggedNeighbours b x y : Int) := by
  unfold countFlags flaggedNeighbours
  have h := foldl_count (Int × Int)
    (fun d => inBounds b (x + d.1) (y + d.2) && (tileAt b (x + d.1) (y + d.2)).flagged) offsets8 0
  simpa using h

/-- The body of the revealing loop of `chord` at an in-bounds, unflagged
neighbour: a mine is revealed directly, any other tile through `reveal`. -/
theorem chordStep_unflagged (shuf : List Nat → List Nat) (x y : Int) (s : Bool × Board)
    (d : Int × Int) (hb : inBounds s.2 (x + d.1) (y + d.2) = true)
    (hf : (tileAt s.2 (x + d.1) (y + d.2)).flagged = false) :
    chordStep shuf x y s d =
      if (tileAt s.2 (x + d.1) (y + d.2)).mine then
        some (true, setTile s.2 (x + d.1) (y + d.2)
          { tileAt s.2 (x + d.1) (y + d.2) with revealed := true })
      else (reveal shuf s.2 (x + d.1) (y + d.2)).map (fun r => (s.1, r.2)) := by
  unfold chordStep
  simp [hb, hf]

/-- The body of the revealing loop of `chord` skips an out-of-bounds or flagged
neighbour. -/
theorem chordStep_skip (shuf : List Nat → List Nat) (x y : Int) (s : Bool × Board)
    (d : Int × Int)
    (h : inBounds s.2 (x + d.1) (y + d.2) = false ∨
      (tileAt s.2 (x + d.1) (y + d.2)).flagged = true) :
    chordStep shuf x y s d = some s := by
  unfold chordStep
  rcases h with h | h
  · simp [h]
  · by_cases hb : inBounds s.2 (x + d.1) (y + d.2) = true
    · simp [hb, h]
    · simp [hb]

/-- When the test of `chord` passes, its result is that of the revealing loop. -/
theorem chord_eq_loop (shuf : List Nat → List Nat) (b : Board) (x y : Int)
    (hb : inBounds b x y = true) (hrev : (tileAt b x y).revealed = true)
    (hnf : (tileAt b x y).flagged = false)
    (hcount : (flaggedNeighbours b x y : Int) = (tileAt b x y).adjacentMines) :
    chord shuf b x y = offsets8.foldlM (chordStep shuf x y) (false, b) := by
  unfold chord
  simp [hb, hrev, hnf, countFlags_eq, hcount]

/-- The revealing loop of `chord`, once the first click is consumed: only
`revealed` fields change, from false to true; no flagged tile is revealed; every
in-bounds unflagged neighbour ends up revealed. -/
theorem chordLoop_spec (shuf : List Nat → List Nat) (b : Board) (hwf : b.WF)
    (hfc : b.firstClick_ = false) (x y : Int) (s' : Bool × Board)
    (h : offsets8.foldlM (chordStep shuf x y) (false, b) = some s') :
    TilesRel Tile.revealStep b s'.2 ∧ TilesRel Tile.markStep b s'.2 ∧
    ∀ d ∈ offsets8, inBounds b (x + d.1) (y + d.2) = true →
      (tileAt b (x + d.1) (y + d.2)).flagged = false →
      (tileAt s'.2 (x + d.1) (y + d.2)).revealed = true := by
  obtain ⟨⟨hrel, hmk, _⟩, hpost, _⟩ := foldlM_post (chordStep shuf x y)
    (fun s => TilesRel Tile.revealStep b s.2 ∧ TilesRel Tile.markStep b s.2 ∧
      s.2.firstClick_ = false)
    (fun (d : Int × Int) s => inBounds b (x + d.1) (y + d.2) = true →
      (tileAt b (x + d.1) (y + d.2)).flagged = false →
      (tileAt s.2 (x + d.1) (y + d.2)).revealed = true) offsets8
    (fun s d s' hI _ hs => by
      obtain ⟨hrs, hms, hfcs⟩ := hI
      by_cases hbs : inBounds s.2 (x + d.1) (y + d.2) = true
      · cases hfs : (tileAt s.2 (x + d.1) (y + d.2)).flagged with
        | true =>
          rw [chordStep_skip shuf x y s d (Or.inr hfs)] at hs
          cases hs
          refine ⟨⟨hrs, hms, hfcs⟩, ?_, fun _ he => he⟩
          intro _ hf0
          rw [(hrs.tileAt _ _).2.1, hf0] at hfs
          cases hfs
        | false =>
          rw [chordStep_unflagged shuf x y s d hbs hfs] at hs
          split at hs
          · cases hs
            have hstep := setRevealed_rel s.2 (x + d.1) (y + d.2)
            refine ⟨⟨TilesRel.trans revealStep_trans hrs hstep,
              TilesRel.trans markStep_trans hms (setRevealed_marks s.2 _ _ hfs), hfcs⟩, ?_, ?_⟩
            · intro _ _
              rw [tileAt_setTile_self s.2 (hrs.WF hwf) hbs]
            · intro e he hbe hfe
              exact (hstep.tileAt _ _).2.2.2 (he hbe hfe)
          · rw [Option.map_eq_some'] at hs
            obtain ⟨⟨r1, s1⟩, h1, he⟩ := hs
            cases he
            rw [reveal_eq] at h1
            obtain ⟨hrel1, hfc1, _, _⟩ := revealFuel_frame shuf _ s.2 _ _ r1 s1 hfcs h1
            obtain ⟨hA, _⟩ := revealFuel_complete shuf _ s.2 _ _ r1 s1 (hrs.WF hwf) hfcs h1
            refine ⟨⟨TilesRel.trans revealStep_trans hrs hrel1,
              TilesRel.trans markStep_trans hms (revealFuel_marks shuf _ s.2 _ _ r1 s1 hfcs h1),
              hfc1⟩, ?_, ?_⟩
            · intro _ _
              exact hA hbs hfs
            · intro e he hbe hfe
              exact (hrel1.tileAt _ _).2.2.2 (he hbe hfe)
      · have hbs' : inBounds s.2 (x + d.1) (y + d.2) = false := by simpa using hbs
        rw [chordStep_skip shuf x y s d (Or.inl hbs')] at hs
        cases hs
        refine ⟨⟨hrs, hms, hfcs⟩, ?_, fun _ he => he⟩
        intro hb0 _
        rw [hrs.inBounds, hb0] at hbs'
        cases hbs')
    (false, b) s' ⟨TilesRel.refl revealStep_refl b, TilesRel.refl markStep_refl b, hfc⟩ h
  exact ⟨hrel, hmk, hpost⟩

/-- A flagged tile keeps its `revealed` field when only `revealed` fields change
and no tile becomes both flagged and revealed. -/
theorem flagged_keeps_revealed (t t' : Tile) (h : Tile.revealStep t t') (hm : Tile.markStep t t')
    (hf : t.flagged = true) : t'.revealed = t.revealed := by
  cases hr : t.revealed with
  | true => exact h.2.2.2 hr
  | false =>
    have := hm.2 (by rw [hr]; simp)
    rw [h.2.1, hf] at this
    simpa using this

/-! ## Soundness of the solver's deductions -/

theorem countP_eq_imp {α : Type} (p q : α → Bool) :
    ∀ (l : List α), (∀ a ∈ l, p a = true → q a = true) → l.countP p = l.countP q →
      ∀ a ∈ l, q a = true → p a = true
  | [], _, _, a, ha, _ => by simp at ha
  | c :: l, hpq, hc, a, ha, hq => by
    have hle : l.countP p ≤ l.countP q :=
      List.countP_mono_left (fun x hx hp => hpq x (List.mem_cons_of_mem _ hx) hp)
    have hpc := hpq c (List.mem_cons_self _ _)
    rw [List.countP_cons, List.countP_cons] at hc
    have htail : l.countP p = l.countP q ∧ (q c = true → p c = true) := by
      cases hp : p c with
      | true =>
        have hqc := hpc hp
        rw [hp, hqc] at hc
        simp only [if_true] at hc
        exact ⟨by omega, fun _ => rfl⟩
      | false =>
        cases hqc : q c with
        | true =>
          rw [hp, hqc] at hc
          simp only [if_true, Bool.false_eq_true, if_false] at hc
          omega
        | false =>
          rw [hp, hqc] at hc
          simp only [Bool.false_eq_true, if_false] at hc
          exact ⟨by omega, fun h => by cases h⟩
    rcases List.mem_cons.1 ha with rfl | ha'
    · exact htail.2 hq
    · exact countP_eq_imp p q l (fun x hx => hpq x (List.mem_cons_of_mem _ hx)) htail.1 a ha' hq

theorem countP_or_disjoint {α : Type} (p q : α → Bool) :
    ∀ (l : List α), (∀ a ∈ l, p a = true → q a = false) →
      l.countP (fun a => p a || q a) = l.countP p + l.countP q
  | [], _ => rfl
  | c :: l, h => by
    have ih := countP_or_disjoint p q l (fun x hx => h x (List.mem_cons_of_mem _ hx))
    have hc := h c (List.mem_cons_self _ _)
    rw [List.countP_cons, List.countP_cons, List.countP_cons, ih]
    cases hp : p c with
    | true =>
      rw [hc hp]
      simp
      omega
    | false =>
      cases hq : q c with
      | true => simp; omega
      | false => simp

/-- A property of every tile of the vector and of the default tile holds of the
tile read at any position. -/
theorem tileAt_prop (P : Tile → Prop) (b : Board) (h0 : P {}) (h : ∀ t ∈ b.tiles, P t)
    (x y : Int) : P (tileAt b x y) := by
  unfold tileAt
  by_cases hi : (index b x y).toNat < b.tiles.length
  · exact h _ (getTile_mem _ _ hi)
  · rw [getTile_of_le _ _ (Nat.le_of_not_lt hi)]
    exact h0

theorem soundStep_refl (t : Tile) : Tile.soundStep t t :=
  ⟨rfl, rfl, fun h => h, fun h => h, (fun h h' => by rw [h] at h'; cases h'),
    (fun h h' => by rw [h] at h'; cases h')⟩

theorem soundStep_trans (t t' t'' : Tile) (h : Tile.soundStep t t')
    (h' : Tile.soundStep t' t'') : Tile.soundStep t t'' := by
  obtain ⟨m1, a1, r1, f1, nr1, nf1⟩ := h
  obtain ⟨m2, a2, r2, f2, nr2, nf2⟩ := h'
  refine ⟨m2.trans m1, a2.trans a1, fun hr => r2 (r1 hr), fun hf => f2 (f1 hf), ?_, ?_⟩
  · intro h0 h2
    cases hr : t'.revealed with
    | true => exact nr1 h0 hr
    | false => rw [← m1]; exact nr2 hr h2
  · intro h0 h2
    cases hf : t'.flagged with
    | true => exact nf1 h0 hf
    | false => rw [← m1]; exact nf2 hf h2

theorem safeStep_soundStep (t t' : Tile) (h : Tile.safeStep t t') : Tile.soundStep t t' :=
  ⟨h.1.1, h.1.2.2.1, h.1.2.2.2, fun hf => by rw [h.1.2.1]; exact hf, h.2,
    fun h0 h1 => by rw [h.1.2.1, h0] at h1; cases h1⟩

theorem soundStep_softStep (t t' : Tile) (h : Tile.soundStep t t') : Tile.softStep t t' :=
  ⟨h.1, h.2.1⟩

/-- The soundness predicate carries over to a board related tile by tile by
`Tile.soundStep`. -/
theorem SolverSound_step {b b' : Board} (h : TilesRel Tile.soundStep b b')
    (hfc : b'.firstClick_ = false) (hs : SolverSound b) : SolverSound b' := by
  obtain ⟨_, hadj, hflag, hmine⟩ := hs
  refine ⟨hfc, AdjOK_congr (h.mono soundStep_softStep) hadj, ?_, ?_⟩
  · intro t ht hf
    obtain ⟨i, hi, rfl⟩ := (mem_iff_getTile _ _).1 ht
    obtain ⟨m, _, _, _, _, nf⟩ := h.2.2.2 i
    rw [m]
    cases hf0 : (getTile b.tiles i).flagged with
    | true => exact hflag _ (getTile_mem _ _ (by rw [← h.2.2.1]; exact hi)) hf0
    | false => exact nf hf0 hf
  · intro t ht hm
    obtain ⟨i, hi, rfl⟩ := (mem_iff_getTile _ _).1 ht
    obtain ⟨m, _, _, _, nr, _⟩ := h.2.2.2 i
    rw [m] at hm
    have hr0 := hmine _ (getTile_mem _ _ (by rw [← h.2.2.1]; exact hi)) hm
    cases hr : (getTile b'.tiles i).revealed with
    | false => rfl
    | true =>
      rw [nr hr0 hr] at hm
      cases hm

/-- Rule 1 deduction: when every flagged tile is a mine, adjacency counts are
correct and the flagged neighbours of a cell without a mine are as many as its
`adjacentMines`, its unflagged in-bounds neighbours hold no mine. -/
theorem rule1_neighbours_safe (b : Board) (hs : SolverSound b) (x y : Int)
    (hb : inBounds b x y = true) (hm : (tileAt b x y).mine = false)
    (hc : (flaggedNeighbours b x y : Int) = (tileAt b x y).adjacentMines) :
    ∀ d ∈ offsets8, inBounds b (x + d.1) (y + d.2) = true →
      (tileAt b (x + d.1) (y + d.2)).flagged = false →
      (tileAt b (x + d.1) (y + d.2)).mine = false := by
  obtain ⟨_, hadj, hflag, _⟩ := hs
  have hadj' := (AdjOK_iff b).1 hadj x y hb hm
  have hcount : flaggedNeighbours b x y = neighbourMines b x y := by omega
  unfold flaggedNeighbours neighbourMines at hcount
  have himp := countP_eq_imp _ _ offsets8
    (fun d _ hp => by
      simp only [Bool.and_eq_true] at hp ⊢
      exact ⟨hp.1, tileAt_prop (fun t => t.flagged = true → t.mine = true) b
        (fun h => by cases h) hflag _ _ hp.2⟩)
    hcount
  intro d hd hbd hf
  cases hmd : (tileAt b (x + d.1) (y + d.2)).mine with
  | false => rfl
  | true =>
    have := himp d hd (by simp [hbd, hmd])
    simp only [Bool.and_eq_true] at this
    rw [hf] at this
    cases this.2

/-- Rule 2 deduction: when moreover no mine is revealed and the unknown
neighbours are as many as `adjacentMines - flaggedNeighbors`, every unrevealed,
unflagged in-bounds neighbour holds a mine. -/
theorem rule2_neighbours_mines (b : Board) (hs : SolverSound b) (x y : Int)
    (hb : inBounds b x y = true) (hm : (tileAt b x y).mine = false)
    (hc : (unknownNeighbours b x y : Int)
      = (tileAt b x y).adjacentMines - (flaggedNeighbours b x y : Int)) :
    ∀ d ∈ offsets8, inBounds b (x + d.1) (y + d.2) = true →
      (tileAt b (x + d.1) (y + d.2)).flagged = false →
      (tileAt b (x + d.1) (y + d.2)).revealed = false →
      (tileAt b (x + d.1) (y + d.2)).mine = true := by
  obtain ⟨_, hadj, hflag, hmine⟩ := hs
  have hadj' := (AdjOK_iff b).1 hadj x y hb hm
  have hsum : neighbourMines b x y = flaggedNeighbours b x y + unknownNeighbours b x y := by
    omega
  unfold flaggedNeighbours unknownNeighbours at hsum
  rw [← countP_or_disjoint _ _ offsets8 (fun d _ hp => by
    simp only [Bool.and_eq_true] at hp
    simp [hp.2])] at hsum
  unfold neighbourMines at hsum
  have himp := countP_eq_imp _ _ offsets8
    (fun d _ hp => by
      simp only [Bool.and_eq_true] at hp
      have hr := tileAt_prop (fun t => t.mine = true → t.revealed = false) b
        (fun h => by cases h) hmine _ _ hp.2
      cases hf : (tileAt b (x + d.1) (y + d.2)).flagged with
      | true => simp [hp.1]
      | false => simp [hp.1, hr])
    hsum
  intro d hd hbd hf hr
  have := himp d hd (by simp [hbd, hf, hr])
  simp only [Bool.and_eq_true] at this
  exact this.2

/-- Rule 1 on neighbours that hold no mine reveals no mine. -/
theorem rule1Action_safe (shuf : List Nat → List Nat) (b : Board) (hwf : b.WF)
    (hfc : b.firstClick_ = false) (hadj : AdjOK b) (x y : Int)
    (hsafe : ∀ d ∈ offsets8, inBounds b (x + d.1) (y + d.2) = true →
      (tileAt b (x + d.1) (y + d.2)).flagged = false →
      (tileAt b (x + d.1) (y + d.2)).mine = false)
    (b' : Board) (h : rule1Action shuf b x y = some b') :
    TilesRel Tile.safeStep b b' := by
  unfold rule1Action at h
  exact (foldlM_some_inv _
    (fun s => TilesRel Tile.safeStep b s ∧ s.firstClick_ = false) offsets8
    (fun s d s' hI hd hs => by
      obtain ⟨hrs, hfcs⟩ := hI
      simp only at hs
      split at hs
      · cases hs; exact ⟨hrs, hfcs⟩
      · split at hs
        · rename_i hc
          simp only [Bool.and_eq_true, Bool.not_eq_true'] at hc
          rw [Option.map_eq_some'] at hs
          obtain ⟨⟨r1, s1⟩, h1, he⟩ := hs
          cases he
          rw [reveal_eq] at h1
          obtain ⟨_, hfc1, _, _⟩ := revealFuel_frame shuf _ s _ _ r1 s1 hfcs h1
          have hstep := (revealFuel_safe shuf _ s _ _ r1 s1 (hrs.WF hwf) hfcs
            (AdjOK_congr (hrs.mono safeStep_softStep) hadj)
            (fun hbs => by
              rw [hrs.inBounds] at hbs
              rw [(hrs.tileAt _ _).1.1]
              apply hsafe d hd hbs
              rw [← (hrs.tileAt _ _).1.2.1]
              exact hc.2) h1).2
          exact ⟨TilesRel.trans safeStep_trans hrs hstep, hfc1⟩
        · cases hs; exact ⟨hrs, hfcs⟩)
    b b' ⟨TilesRel.refl safeStep_refl b, hfc⟩ h).1

/-- Rule 2 on unknown neighbours that all hold a mine flags mines only. -/
theorem rule2Action_sound (b : Board) (x y : Int)
    (hmines : ∀ d ∈ offsets8, inBounds b (x + d.1) (y + d.2) = true →
      (tileAt b (x + d.1) (y + d.2)).flagged = false →
      (tileAt b (x + d.1) (y + d.2)).revealed = false →
      (tileAt b (x + d.1) (y + d.2)).mine = true) :
    TilesRel Tile.soundStep b (rule2Action b x y) := by
  unfold rule2Action
  apply foldl_inv _ (fun s => TilesRel Tile.soundStep b s) offsets8 _ b
    (TilesRel.refl soundStep_refl b)
  intro s d hrs hd
  simp only
  split
  · exact hrs
  · rename_i hnb
    have hbs : inBounds s (x + d.1) (y + d.2) = true := by simpa using hnb
    split
    · rename_i hc
      simp only [Bool.and_eq_true, Bool.not_eq_true'] at hc
      obtain ⟨m, _, r, f, _, _⟩ := hrs.tileAt (x + d.1) (y + d.2)
      have hf0 : (tileAt b (x + d.1) (y + d.2)).flagged = false := by
        cases hf : (tileAt b (x + d.1) (y + d.2)).flagged with
        | false => rfl
        | true => rw [f hf] at hc; cases hc.2
      have hr0 : (tileAt b (x + d.1) (y + d.2)).revealed = false := by
        cases hr : (tileAt b (x + d.1) (y + d.2)).revealed with
        | false => rfl
        | true => rw [r hr] at hc; cases hc.1
      have hmine := hmines d hd (by rw [← hrs.inBounds]; exact hbs) hf0 hr0
      refine TilesRel.trans soundStep_trans hrs (setTile_rel soundStep_refl s _ _ _ ?_)
      exact ⟨rfl, rfl, fun h => h, fun _ => rfl,
        (fun h h' => by rw [hc.1] at h'; cases h'),
        (fun _ _ => by rw [m]; exact hmine)⟩
    · exact hrs

/-- One step of the solver from a state satisfying the soundness predicate. -/
theorem solver_sound_step (shuf : List Nat → List Nat) (b : Board) (hwf : b.WF)
    (hs : SolverSound b) :
    ∃ r b', AISolver shuf b = some (r, b') ∧ TilesRel Tile.soundStep b b' ∧
      b'.firstClick_ = false := by
  have hfc := hs.1
  by_cases hex : ∃ x y : Int, inBounds b x y = true ∧ solverFires b x y = true
  · obtain ⟨x, y, hb, hf, hfirst⟩ := first_firing_exists b hex
    obtain ⟨_, hmine, hrules⟩ := (solverFires_iff b x y).1 hf
    cases h1 : rule1Cond b x y with
    | true =>
      obtain ⟨b', hsol, hact, hrel, _⟩ := solver_rule1_outcome shuf b hwf hfc x y hb hf hfirst h1
      have hc : (flaggedNeighbours b x y : Int) = (tileAt b x y).adjacentMines := by
        unfold rule1Cond at h1
        simp only [Bool.and_eq_true, decide_eq_true_eq] at h1
        exact h1.1
      have hsafe := rule1_neighbours_safe b hs x y hb hmine hc
      have hst : TilesRel Tile.safeStep b b' :=
        rule1Action_safe shuf { b with highlightX_ := x, highlightY_ := y } hwf hfc
          (AdjOK_highlight b x y hs.2.1) x y hsafe b' hact
      obtain ⟨_, hfc', _, _⟩ := rule1Action_total shuf
        { b with highlightX_ := x, highlightY_ := y } x y hwf hfc
      refine ⟨true, b', hsol, hst.mono safeStep_soundStep, ?_⟩
      obtain ⟨b2, hact2, _, hfc2, _, _⟩ := rule1Action_total shuf
        { b with highlightX_ := x, highlightY_ := y } x y hwf hfc
      rw [hact] at hact2
      cases hact2
      exact hfc2
    | false =>
      have h2 : rule2Cond b x y = true := by
        rcases hrules with h | h
        · rw [h1] at h; cases h
        · exact h
      obtain ⟨hsol, _⟩ := solver_rule2_outcome shuf b hwf x y hb hf hfirst h1
      have hc : (unknownNeighbours b x y : Int)
          = (tileAt b x y).adjacentMines - (flaggedNeighbours b x y : Int) := by
        unfold rule2Cond at h2
        simp only [Bool.and_eq_true, decide_eq_true_eq] at h2
        exact h2.2
      have hmines := rule2_neighbours_mines b hs x y hb hmine hc
      have hst : TilesRel Tile.soundStep b
          (rule2Action { b with highlightX_ := x, highlightY_ := y } x y) :=
        rule2Action_sound { b with highlightX_ := x, highlightY_ := y } x y hmines
      exact ⟨true, _, hsol, hst,
        (rule2Action_frame { b with highlightX_ := x, highlightY_ := y } x y).2.1.trans hfc⟩
  · have hnone : ∀ x y : Int, inBounds b x y = true → solverFires b x y = false := by
      intro x y hb
      cases hf : solverFires b x y with
      | false => rfl
      | true => exact absurd ⟨x, y, hb, hf⟩ hex
    exact ⟨false, _, AISolver_no_firing shuf b hnone,
      highlight_rel soundStep_refl b (-1) (-1), hfc⟩

/-! ## Termination of `reveal`, first click included -/

theorem unrevealedCount_sameMarks {b b0 : Board} (h : TilesRel Tile.sameMarks b b0) :
    unrevealedCount b0 = unrevealedCount b :=
  countP_congr_getTile _ _ _ h.2.2.1.symm (fun i => by rw [(h.2.2.2 i).1])

/-- A call of `reveal` whose target is out of bounds, revealed or flagged
returns at once, once the first click is consumed. -/
theorem revealFuel_short (shuf : List Nat → List Nat) (fuel : Nat) (b : Board) (x y : Int)
    (hfc : b.firstClick_ = false)
    (h : inBounds b x y = false ∨ (tileAt b x y).revealed = true ∨
      (tileAt b x y).flagged = true) :
    revealFuel shuf (fuel + 1) b x y = some (false, b) := by
  rw [revealFuel_succ shuf fuel b x y hfc]
  rcases h with h | h
  · simp [h]
  · split
    · rfl
    · rw [if_pos]
      simpa using h

/-- A first reveal in bounds without room for the relocation has no result,
whatever the recursion depth allowed. -/
theorem revealFuel_first_none (shuf : List Nat → List Nat) (hshuf : ∀ l, (shuf l).Perm l)
    (b : Board) (hwf : b.WF) (x y : Int) (hb : inBounds b x y = true)
    (hfc : b.firstClick_ = true) (hcap : ¬ Capacity b x y) :
    ∀ fuel, revealFuel shuf fuel b x y = none
  | 0 => rfl
  | fuel + 1 => by
    rw [revealFuel_first shuf hshuf fuel b hwf x y hb hfc,
      relocate_eq_none shuf hshuf b x y hcap]
    rfl

/-- Every call of `reveal` with the first click consumed returns within a
recursion depth above the number of unrevealed tiles, and that number is its
measure. -/
theorem revealFuel_terminates (shuf : List Nat → List Nat) (s : Board) (cx cy : Int)
    (fuel : Nat) (hwf : s.WF) (hfc : s.firstClick_ = false) (hfuel : unrevealedCount s < fuel) :
    ∃ r s', revealFuel shuf fuel s cx cy = some (r, s') ∧ s'.WF ∧ s'.firstClick_ = false ∧
      unrevealedCount s' ≤ unrevealedCount s ∧
      (inBounds s cx cy = true → (tileAt s cx cy).revealed = false →
        (tileAt s cx cy).flagged = false → unrevealedCount s' < unrevealedCount s) ∧
      ((inBounds s cx cy = false ∨ (tileAt s cx cy).revealed = true ∨
        (tileAt s cx cy).flagged = true) → r = false ∧ s' = s) := by
  obtain ⟨r, s', h⟩ := revealFuel_total shuf fuel s cx cy hwf hfc hfuel
  obtain ⟨hrel, hfc', _, _⟩ := revealFuel_frame shuf fuel s cx cy r s' hfc h
  obtain ⟨hle, hlt⟩ := revealFuel_measure shuf fuel s hwf hfc cx cy r s' h
  refine ⟨r, s', h, hrel.WF hwf, hfc', hle, hlt, ?_⟩
  intro hshort
  cases fuel with
  | zero => omega
  | succ n =>
    rw [revealFuel_short shuf n s cx cy hfc hshort] at h
    cases h
    exact ⟨rfl, rfl⟩

/-- Termination of `reveal` on every board state where the first-click
relocation, if it runs, has room. -/
theorem reveal_returns (shuf : List Nat → List Nat) (hshuf : ∀ l, (shuf l).Perm l)
    (b : Board) (hwf : b.WF) (x y : Int)
    (hroom : b.firstClick_ = true → inBounds b x y = true → Capacity b x y) :
    ∃ r b', reveal shuf b x y = some (r, b') ∧ b'.WF ∧
      unrevealedCount b' ≤ unrevealedCount b ∧
      (inBounds b x y = true → (tileAt b x y).revealed = false →
        (tileAt b x y).flagged = false → unrevealedCount b' < unrevealedCount b) := by
  by_cases hb : inBounds b x y = true
  · cases hfc : b.firstClick_ with
    | false =>
      obtain ⟨r, b', h, hwf', _, hle, hlt, _⟩ := revealFuel_terminates shuf b x y
        (b.tiles.length + 1) hwf hfc (Nat.lt_succ_of_le (unrevealedCount_le_length b))
      exact ⟨r, b', h, hwf', hle, hlt⟩
    | true =>
      obtain ⟨b0, r, b', _, h, h0, hmarks, hfc0, _⟩ :=
        reveal_first shuf hshuf b hwf x y hb hfc (hroom hfc hb)
      obtain ⟨hle, hlt⟩ := revealFuel_measure shuf _ b0 (hmarks.WF hwf) hfc0 x y r b' h0
      obtain ⟨hrel, _⟩ := revealFuel_frame shuf _ b0 x y r b' hfc0 h0
      rw [unrevealedCount_sameMarks hmarks] at hle hlt
      refine ⟨r, b', h, hrel.WF (hmarks.WF hwf), hle, ?_⟩
      intro _ hr hf
      apply hlt
      · rw [hmarks.inBounds]; exact hb
      · rw [(hmarks.tileAt x y).1]; exact hr
      · rw [(hmarks.tileAt x y).2]; exact hf
  · have hb' : inBounds b x y = false := by simpa using hb
    refine ⟨false, b, ?_, hwf, Nat.le_refl _, fun h => ?_⟩
    · rw [reveal_eq, revealFuel_oob shuf _ b x y hb']
    · rw [hb'] at h; cases h

/-! ## Invariant of a game -/

theorem reset_inv (shuf : List Nat → List Nat) (hshuf : ∀ l, (shuf l).Perm l)
    (rows cols m : Nat) (hm : m ≤ rows * cols) :
    ∃ b, reset shuf rows cols m = some b ∧ b.Inv ∧ AdjOK b ∧ mineCount b = m ∧
      b.rows_ = rows ∧ b.cols_ = cols ∧ b.firstClick_ = true := by
  obtain ⟨b, h, hr, hc, hwf, hcount, hmarks, hfc, _, _, hadj⟩ :=
    reset_spec shuf hshuf rows cols m hm
  exact ⟨b, h, ⟨hwf, fun _ t ht => (hmarks t ht).1⟩, hadj, hcount, hr, hc, hfc⟩

theorem inv_of_consumed {b : Board} (hwf : b.WF) (hfc : b.firstClick_ = false) : b.Inv :=
  ⟨hwf, fun h => by rw [hfc] at h; cases h⟩

/-- Effect of `reveal` on a board satisfying the game invariant, when the
relocation (if any) has room. -/
theorem reveal_step (shuf : List Nat → List Nat) (hshuf : ∀ l, (shuf l).Perm l)
    (b : Board) (hinv : b.Inv) (x y : Int)
    (hcap : b.firstClick_ = true → inBounds b x y = true →
      mineCount b + (safeTiles b x y).length ≤ b.rows_ * b.cols_) :
    ∃ r b', reveal shuf b x y = some (r, b') ∧ b'.Inv ∧ mineCount b' = mineCount b ∧
      (AdjOK b → AdjOK b') := by
  obtain ⟨hwf, hfresh⟩ := hinv
  by_cases hb : inBounds b x y = true
  · cases hfc : b.firstClick_ with
    | false =>
      obtain ⟨r, b', h, hrel, hfc', _, _⟩ := reveal_total shuf b x y hwf hfc
      exact ⟨r, b', h, inv_of_consumed (hrel.WF hwf) hfc',
        mineCount_congr (hrel.mono revealStep_sameMine),
        AdjOK_congr (hrel.mono revealStep_softStep)⟩
    | true =>
      have hc := (capacity_iff b hwf x y).2 (hcap hfc hb)
      obtain ⟨b0, r, b', _, h, _, hmarks, _, hcount, hadj, _, hrel, hfc', _, _⟩ :=
        reveal_first shuf hshuf b hwf x y hb hfc hc
      exact ⟨r, b', h, inv_of_consumed (hrel.WF (hmarks.WF hwf)) hfc',
        (mineCount_congr (hrel.mono revealStep_sameMine)).trans hcount,
        fun _ => AdjOK_congr (hrel.mono revealStep_softStep) hadj⟩
  · have hb' : inBounds b x y = false := by simpa using hb
    exact ⟨false, b, by rw [reveal_eq, revealFuel_oob shuf _ b x y hb'], ⟨hwf, hfresh⟩, rfl, id⟩

theorem flag_step (b : Board) (hinv : b.Inv) (x y : Int) :
    (flag b x y).Inv ∧ mineCount (flag b x y) = mineCount b ∧
      (AdjOK b → AdjOK (flag b x y)) := by
  obtain ⟨hwf, hfresh⟩ := hinv
  obtain ⟨hrel, hfc, _, _⟩ := flag_frame b x y
  refine ⟨⟨hrel.WF hwf, ?_⟩, mineCount_congr (hrel.mono (fun _ _ h => h.1)),
    AdjOK_congr (hrel.mono flagStep_softStep)⟩
  intro hfc' t ht
  rw [hfc] at hfc'
  obtain ⟨i, _, rfl⟩ := (mem_iff_getTile _ _).1 ht
  rw [(hrel.2.2.2 i).2.1]
  by_cases hi : i < b.tiles.length
  · exact hfresh hfc' _ (getTile_mem _ _ hi)
  · rw [getTile_of_le _ _ (Nat.le_of_not_lt hi)]

theorem chord_step (shuf : List Nat → List Nat) (b : Board) (hinv : b.Inv) (x y : Int) :
    ∃ r b', chord shuf b x y = some (r, b') ∧ b'.Inv ∧ mineCount b' = mineCount b ∧
      (AdjOK b → AdjOK b') := by
  obtain ⟨hwf, hfresh⟩ := hinv
  cases hfc : b.firstClick_ with
  | false =>
    obtain ⟨r, b', h, hrel, hfc', _, _⟩ := chord_total shuf b x y hwf hfc
    exact ⟨r, b', h, inv_of_consumed (hrel.WF hwf) hfc',
      mineCount_congr (hrel.mono revealStep_sameMine),
      AdjOK_congr (hrel.mono revealStep_softStep)⟩
  | true =>
    exact ⟨false, b, chord_fresh shuf b (hfresh hfc) x y, ⟨hwf, hfresh⟩, rfl, id⟩

theorem solver_step (shuf : List Nat → List Nat) (b : Board) (hinv : b.Inv) :
    ∃ r b', AISolver shuf b = some (r, b') ∧ b'.Inv ∧ mineCount b' = mineCount b ∧
      (AdjOK b → AdjOK b') := by
  obtain ⟨hwf, hfresh⟩ := hinv
  cases hfc : b.firstClick_ with
  | false =>
    obtain ⟨r, b', h, hrel, hfc'⟩ := solverScan_total shuf (coords b.rows_ b.cols_) b hwf hfc
    exact ⟨r, b', h, inv_of_consumed (hrel.WF hwf) hfc',
      mineCount_congr (hrel.mono softStep_sameMine), AdjOK_congr hrel⟩
  | true =>
    refine ⟨false, _, solverScan_fresh shuf b (hfresh hfc) _, ⟨hwf, hfresh⟩, rfl, ?_⟩
    exact AdjOK_highlight b _ _

/-! ## Claims -/

/-- C1 (amended). On a board produced by `reset(rows, cols, mineCount)`, for
every shuffle outcome and every in-bounds `(x, y)` whose 3x3 block `S` leaves
room for the mines, `mineCount + |S| ≤ rows * cols`: the first `reveal(x, y)`
returns, and afterwards no cell within Chebyshev distance 1 of `(x, y)` holds a
mine. -/
theorem first_reveal_clears_block (shuf₁ shuf₂ : List Nat → List Nat)
    (h₁ : ∀ l, (shuf₁ l).Perm l) (h₂ : ∀ l, (shuf₂ l).Perm l)
    (rows cols m : Nat) (b : Board) (hreset : reset shuf₁ rows cols m = some b)
    (x y : Int) (hb : inBounds b x y = true)
    (hcap : m + (safeTiles b x y).length ≤ rows * cols) :
    ∃ r b', reveal shuf₂ b x y = some (r, b') ∧
      ∀ cx cy : Int, inBounds b' cx cy = true → |cx - x| ≤ 1 → |cy - y| ≤ 1 →
        (tileAt b' cx cy).mine = false := by
  obtain ⟨b1, h1, hinv, _, hcount, hr, hc, hfc⟩ :=
    reset_inv shuf₁ h₁ rows cols m (by omega)
  rw [hreset] at h1
  cases h1
  have hcap' : Capacity b x y := by
    rw [capacity_iff b hinv.1, hcount, hr, hc]; exact hcap
  obtain ⟨b0, r, b', _, h, _, hmarks, _, _, _, hsafe, hrel, _⟩ :=
    reveal_first shuf₂ h₂ b hinv.1 x y hb hfc hcap'
  refine ⟨r, b', h, ?_⟩
  intro cx cy hcb hx hy
  have hcb0 : inBounds b cx cy = true := by
    rw [← hmarks.inBounds, ← hrel.inBounds]; exact hcb
  have hmem := near_mem_safeTiles b x y cx cy hcb0 hx hy
  have hm0 := hsafe _ hmem
  have ht := hrel.tileAt cx cy
  rw [ht.1]
  unfold tileAt
  rw [hmarks.index]
  exact hm0

theorem first_reveal_clears_block_witness :
    ∃ b, reset id 4 4 3 = some b ∧ ∃ r b', reveal id b 1 0 = some (r, b') ∧
      ∀ cx cy : Int, inBounds b' cx cy = true → |cx - 1| ≤ 1 → |cy - 0| ≤ 1 →
        (tileAt b' cx cy).mine = false :=
  ⟨_, rfl, first_reveal_clears_block id id (fun _ => List.Perm.refl _)
    (fun _ => List.Perm.refl _) 4 4 3 _ rfl 1 0 (by decide) (by decide)⟩

/-- C1, as stated, fails: after `reset(3, 3, 9)` every cell holds a mine, the
block around `(1, 1)` is the whole grid, `pool` is empty and the relocation
loop reads `pool[0]`; the first `reveal(1, 1)` has no defined result. -/
theorem first_reveal_full_board_undefined :
    ∃ b, reset id 3 3 9 = some b ∧ inBounds b 1 1 = true ∧
      ¬ ∃ r b', reveal id b 1 1 = some (r, b') ∧
        ∀ cx cy : Int, inBounds b' cx cy = true → |cx - 1| ≤ 1 → |cy - 1| ≤ 1 →
          (tileAt b' cx cy).mine = false := by
  refine ⟨⟨3, 3, List.replicate 9 { mine := true }, true, -1, -1⟩, by decide, by decide, ?_⟩
  rintro ⟨r, b', h, _⟩
  have hn : reveal id ⟨3, 3, List.replicate 9 { mine := true }, true, -1, -1⟩ 1 1 = none := by
    decide
  rw [hn] at h
  cases h

/-- C2. For every `rows`, `cols`, `mineCount ≤ rows * cols` and every
permutation the shuffle produces, `reset(rows, cols, mineCount)` returns a
board of these dimensions on which exactly `mineCount` tiles hold a mine, every
tile is unrevealed and unflagged, the first click is pending and the highlight
is cleared. -/
theorem reset_places_mineCount_mines (shuf : List Nat → List Nat)
    (hshuf : ∀ l, (shuf l).Perm l) (rows cols m : Nat) (hm : m ≤ rows * cols) :
    ∃ b, reset shuf rows cols m = some b ∧ b.rows_ = rows ∧ b.cols_ = cols ∧
      b.tiles.length = rows * cols ∧ mineCount b = m ∧
      (∀ t ∈ b.tiles, t.revealed = false ∧ t.flagged = false) ∧
      b.firstClick_ = true ∧ b.highlightX_ = -1 ∧ b.highlightY_ = -1 := by
  obtain ⟨b, h, hr, hc, hwf, hcount, hmarks, hfc, hx, hy, _⟩ :=
    reset_spec shuf hshuf rows cols m hm
  refine ⟨b, h, hr, hc, ?_, hcount, hmarks, hfc, hx, hy⟩
  rw [hwf, hr, hc]

theorem reset_places_mineCount_mines_witness :
    ∃ b, reset List.reverse 3 4 5 = some b ∧ b.rows_ = 3 ∧ b.cols_ = 4 ∧
      b.tiles.length = 3 * 4 ∧ mineCount b = 5 ∧
      (∀ t ∈ b.tiles, t.revealed = false ∧ t.flagged = false) ∧
      b.firstClick_ = true ∧ b.highlightX_ = -1 ∧ b.highlightY_ = -1 :=
  reset_places_mineCount_mines List.reverse (fun l => List.reverse_perm l) 3 4 5 (by decide)

/-- C3 (amended). On a board state of a game (tile vector matching the
dimensions, no tile revealed while the first click is pending) with exactly
`m` mines: `flag`, `chord` and `AISolver` return a board with exactly `m` mines;
so does `reveal(x, y)`, provided that, when it is the first reveal and `(x, y)`
is in bounds, the 3x3 block `S` of `(x, y)` leaves room for the mines,
`m + |S| ≤ rows * cols`. -/
theorem mine_count_invariant (shuf : List Nat → List Nat) (hshuf : ∀ l, (shuf l).Perm l)
    (b : Board) (hinv : b.Inv) (m : Nat) (hm : mineCount b = m) (x y : Int) :
    mineCount (flag b x y) = m ∧
    ((b.firstClick_ = true → inBounds b x y = true →
        m + (safeTiles b x y).length ≤ b.rows_ * b.cols_) →
      ∃ r b', reveal shuf b x y = some (r, b') ∧ mineCount b' = m) ∧
    (∃ r b', chord shuf b x y = some (r, b') ∧ mineCount b' = m) ∧
    (∃ r b', AISolver shuf b = some (r, b') ∧ mineCount b' = m) := by
  subst hm
  refine ⟨(flag_step b hinv x y).2.1, ?_, ?_, ?_⟩
  · intro hcap
    obtain ⟨r, b', h, _, hc, _⟩ := reveal_step shuf hshuf b hinv x y hcap
    exact ⟨r, b', h, hc⟩
  · obtain ⟨r, b', h, _, hc, _⟩ := chord_step shuf b hinv x y
    exact ⟨r, b', h, hc⟩
  · obtain ⟨r, b', h, _, hc, _⟩ := solver_step shuf b hinv
    exact ⟨r, b', h, hc⟩

theorem mine_count_invariant_witness :
    ∃ r b', reveal id
      ⟨3, 4, [{ mine := true }, { mine := true }, { adjacentMines := 1 }, {},
              { adjacentMines := 2 }, { adjacentMines := 2 }, { adjacentMines := 1 }, {},
              {}, {}, {}, {}], true, -1, -1⟩ 0 0 = some (r, b') ∧ mineCount b' = 2 :=
  (mine_count_invariant id (fun _ => List.Perm.refl _)
    ⟨3, 4, [{ mine := true }, { mine := true }, { adjacentMines := 1 }, {},
            { adjacentMines := 2 }, { adjacentMines := 2 }, { adjacentMines := 1 }, {},
            {}, {}, {}, {}], true, -1, -1⟩ (by decide) 2 (by decide) 0 0).2.1
    (fun _ _ => by decide)

/-- C3, as stated, fails for a first reveal without room: on the 2x2 board
left by `reset(2, 2, 1)` the block of `(0, 0)` is the whole grid, `pool` is
empty and the relocation reads `pool[0]`; `reveal(0, 0)` has no defined
result, hence no resulting board with one mine. -/
theorem mine_count_first_reveal_undefined :
    reset id 2 2 1 = some ⟨2, 2, [{ mine := true }, { adjacentMines := 1 },
      { adjacentMines := 1 }, { adjacentMines := 1 }], true, -1, -1⟩ ∧
    mineCount ⟨2, 2, [{ mine := true }, { adjacentMines := 1 },
      { adjacentMines := 1 }, { adjacentMines := 1 }], true, -1, -1⟩ = 1 ∧
    ¬ ∃ r b', reveal id ⟨2, 2, [{ mine := true }, { adjacentMines := 1 },
      { adjacentMines := 1 }, { adjacentMines := 1 }], true, -1, -1⟩ 0 0 = some (r, b') ∧
        mineCount b' = 1 := by
  refine ⟨by decide, by decide, ?_⟩
  rintro ⟨r, b', h, _⟩
  have hn : reveal id ⟨2, 2, [{ mine := true }, { adjacentMines := 1 },
      { adjacentMines := 1 }, { adjacentMines := 1 }], true, -1, -1⟩ 0 0 = none := by
    decide
  rw [hn] at h
  cases h

/-- C4 (amended). `reset(rows, cols, mineCount)` with `mineCount ≤ rows * cols`
returns a board on which every tile without a mine stores the number of its
in-bounds neighbours holding one; `flag`, `chord`, `AISolver` keep this
(together with the game invariant), and so does `reveal(x, y)` provided that,
when it is the first reveal and `(x, y)` is in bounds, the 3x3 block `S` of
`(x, y)` leaves room for the mines, `mineCount + |S| ≤ rows * cols`. The stored
value then lies in `[0, 8]`. -/
theorem adjacency_invariant (shuf : List Nat → List Nat) (hshuf : ∀ l, (shuf l).Perm l) :
    (∀ rows cols m : Nat, m ≤ rows * cols →
      ∃ b, reset shuf rows cols m = some b ∧ b.Inv ∧ AdjOK b) ∧
    (∀ (b : Board) (x y : Int), b.Inv → AdjOK b →
      ((flag b x y).Inv ∧ AdjOK (flag b x y)) ∧
      ((b.firstClick_ = true → inBounds b x y = true →
          mineCount b + (safeTiles b x y).length ≤ b.rows_ * b.cols_) →
        ∃ r b', reveal shuf b x y = some (r, b') ∧ b'.Inv ∧ AdjOK b') ∧
      (∃ r b', chord shuf b x y = some (r, b') ∧ b'.Inv ∧ AdjOK b') ∧
      (∃ r b', AISolver shuf b = some (r, b') ∧ b'.Inv ∧ AdjOK b')) ∧
    (∀ (b : Board), AdjOK b → ∀ x y : Int, inBounds b x y = true →
      (tileAt b x y).mine = false →
      (tileAt b x y).adjacentMines = neighbourMines b x y ∧
        0 ≤ (tileAt b x y).adjacentMines ∧ (tileAt b x y).adjacentMines ≤ 8) := by
  refine ⟨?_, ?_, ?_⟩
  · intro rows cols m hm
    obtain ⟨b, h, hinv, hadj, _⟩ := reset_inv shuf hshuf rows cols m hm
    exact ⟨b, h, hinv, hadj⟩
  · intro b x y hinv hadj
    refine ⟨?_, ?_, ?_, ?_⟩
    · obtain ⟨h1, _, h3⟩ := flag_step b hinv x y
      exact ⟨h1, h3 hadj⟩
    · intro hcap
      obtain ⟨r, b', h, hi, _, ha⟩ := reveal_step shuf hshuf b hinv x y hcap
      exact ⟨r, b', h, hi, ha hadj⟩
    · obtain ⟨r, b', h, hi, _, ha⟩ := chord_step shuf b hinv x y
      exact ⟨r, b', h, hi, ha hadj⟩
    · obtain ⟨r, b', h, hi, _, ha⟩ := solver_step shuf b hinv
      exact ⟨r, b', h, hi, ha hadj⟩
  · intro b hadj x y hb hm
    have h := (AdjOK_iff b).1 hadj x y hb hm
    have h8 := neighbourMines_le b x y
    rw [h]
    exact ⟨rfl, by omega, by omega⟩

theorem adjacency_invariant_witness :
    (∃ b, reset List.reverse 3 3 2 = some b ∧ b.Inv ∧ AdjOK b) ∧
    ∃ r b', reveal List.reverse
        ⟨3, 3, [{}, {}, {}, { adjacentMines := 1 }, { adjacentMines := 2 },
          { adjacentMines := 2 }, { adjacentMines := 1 }, { mine := true }, { mine := true }],
          true, -1, -1⟩ 2 2 = some (r, b') ∧ b'.Inv ∧ AdjOK b' :=
  ⟨(adjacency_invariant List.reverse (fun l => List.reverse_perm l)).1 3 3 2 (by decide),
    ((adjacency_invariant List.reverse (fun l => List.reverse_perm l)).2.1
      ⟨3, 3, [{}, {}, {}, { adjacentMines := 1 }, { adjacentMines := 2 },
        { adjacentMines := 2 }, { adjacentMines := 1 }, { mine := true }, { mine := true }],
        true, -1, -1⟩ 2 2 (by decide) (by decide)).2.1 (fun _ _ => by decide)⟩

/-- C4, as stated, fails for a first reveal without room: on the 1x1 board
left by `reset(1, 1, 1)` the only tile holds the mine, `pool` is empty and the
relocation reads `pool[0]`; `reveal(0, 0)` has no defined result, hence no
resulting board on which the adjacency counts could be right. -/
theorem adjacency_first_reveal_undefined :
    reset id 1 1 1 = some ⟨1, 1, [{ mine := true }], true, -1, -1⟩ ∧
    ¬ ∃ r b', reveal id ⟨1, 1, [{ mine := true }], true, -1, -1⟩ 0 0 = some (r, b') ∧
      AdjOK b' := by
  refine ⟨by decide, ?_⟩
  rintro ⟨r, b', h, _⟩
  have hn : reveal id ⟨1, 1, [{ mine := true }], true, -1, -1⟩ 0 0 = none := by decide
  rw [hn] at h
  cases h

/-- C5. On a board state with the first click consumed, correct adjacency
counts, no flagged and no revealed tile, for every in-bounds `(x, y)` without a
mine and with `adjacentMines == 0`: `reveal(x, y)` returns false, and afterwards
a cell of the grid is revealed exactly when it lies in the zero-region `Z` of
`(x, y)` or is an 8-neighbour of a cell of `Z`. -/
theorem flood_fill_reveals_zero_region (shuf : List Nat → List Nat) (b : Board) (hwf : b.WF)
    (hfc : b.firstClick_ = false) (_hadj : AdjOK b)
    (hnoflag : ∀ t ∈ b.tiles, t.flagged = false)
    (hnorev : ∀ t ∈ b.tiles, t.revealed = false) (x y : Int) (hb : inBounds b x y = true)
    (hm : (tileAt b x y).mine = false) (hz : (tileAt b x y).adjacentMines = 0) :
    ∃ b', reveal shuf b x y = some (false, b') ∧
      ∀ cx cy : Int, inBounds b cx cy = true →
        ((tileAt b' cx cy).revealed = true ↔ InRegion b x y cx cy) :=
  flood_fill_core shuf b hwf hfc hnoflag hnorev x y hb hm hz

theorem flood_fill_reveals_zero_region_witness :
    ∃ b', reveal id ⟨3, 3, [{}, {}, {}, {}, { adjacentMines := 1 }, { adjacentMines := 1 },
        {}, { adjacentMines := 1 }, { mine := true }], false, -1, -1⟩ 0 0 = some (false, b') ∧
      ∀ cx cy : Int,
        inBounds ⟨3, 3, [{}, {}, {}, {}, { adjacentMines := 1 }, { adjacentMines := 1 },
          {}, { adjacentMines := 1 }, { mine := true }], false, -1, -1⟩ cx cy = true →
        ((tileAt b' cx cy).revealed = true ↔
          InRegion ⟨3, 3, [{}, {}, {}, {}, { adjacentMines := 1 }, { adjacentMines := 1 },
            {}, { adjacentMines := 1 }, { mine := true }], false, -1, -1⟩ 0 0 cx cy) :=
  flood_fill_reveals_zero_region id
    ⟨3, 3, [{}, {}, {}, {}, { adjacentMines := 1 }, { adjacentMines := 1 },
      {}, { adjacentMines := 1 }, { mine := true }], false, -1, -1⟩
    (by decide) rfl (by decide) (by decide) (by decide) 0 0 (by decide) (by decide) (by decide)

/-- C6. On a board state whose first click is consumed, `reveal(x, y)` returns,
and it returns true exactly when `(x, y)` is in bounds and its tile is
unrevealed, unflagged and a mine; the resulting board is then the old one with
this one tile revealed. -/
theorem reveal_true_iff_mine_hit (shuf : List Nat → List Nat) (b : Board) (hwf : b.WF)
    (hfc : b.firstClick_ = false) (x y : Int) :
    ∃ r b', reveal shuf b x y = some (r, b') ∧
      (r = true ↔ (inBounds b x y = true ∧ (tileAt b x y).revealed = false ∧
        (tileAt b x y).flagged = false ∧ (tileAt b x y).mine = true)) ∧
      (r = true → b' = setTile b x y { tileAt b x y with revealed := true }) :=
  reveal_return shuf b hwf hfc x y

theorem reveal_true_iff_mine_hit_witness :
    ∃ r b', reveal id ⟨1, 3, [{}, { adjacentMines := 1 }, { mine := true }], false, -1, -1⟩ 2 0
        = some (r, b') ∧
      (r = true ↔ (inBounds ⟨1, 3, [{}, { adjacentMines := 1 }, { mine := true }], false, -1, -1⟩
          2 0 = true ∧
        (tileAt ⟨1, 3, [{}, { adjacentMines := 1 }, { mine := true }], false, -1, -1⟩
          2 0).revealed = false ∧
        (tileAt ⟨1, 3, [{}, { adjacentMines := 1 }, { mine := true }], false, -1, -1⟩
          2 0).flagged = false ∧
        (tileAt ⟨1, 3, [{}, { adjacentMines := 1 }, { mine := true }], false, -1, -1⟩
          2 0).mine = true)) ∧
      (r = true → b' = setTile
        ⟨1, 3, [{}, { adjacentMines := 1 }, { mine := true }], false, -1, -1⟩ 2 0
        { tileAt ⟨1, 3, [{}, { adjacentMines := 1 }, { mine := true }], false, -1, -1⟩ 2 0
          with revealed := true }) :=
  reveal_true_iff_mine_hit id
    ⟨1, 3, [{}, { adjacentMines := 1 }, { mine := true }], false, -1, -1⟩ (by decide) rfl 2 0

/-- C7. `chord(x, y)` returns false and leaves the board unchanged whenever
`(x, y)` is out of bounds, or its tile is unrevealed or flagged, or the number
of flagged in-bounds neighbours differs from the tile's `adjacentMines`. -/
theorem chord_refuses (shuf : List Nat → List Nat) (b : Board) (x y : Int)
    (h : inBounds b x y = false ∨ (tileAt b x y).revealed = false ∨
      (tileAt b x y).flagged = true ∨
      (flaggedNeighbours b x y : Int) ≠ (tileAt b x y).adjacentMines) :
    chord shuf b x y = some (false, b) := by
  unfold chord
  split
  · rfl
  · simp only
    split
    · rfl
    · rename_i hb hrf
      split
      · rfl
      · rename_i hne
        exfalso
        rw [countFlags_eq] at hne
        simp only [Bool.not_eq_true', Bool.not_eq_false] at hb
        simp only [Bool.or_eq_true, Bool.not_eq_true', not_or, Bool.not_eq_false,
          Bool.not_eq_true] at hrf
        simp only [bne_iff_ne, ne_eq, not_not] at hne
        rcases h with h | h | h | h
        · rw [hb] at h; cases h
        · rw [hrf.1] at h; cases h
        · rw [hrf.2] at h; cases h
        · exact h hne

theorem chord_refuses_witness :
    chord id ⟨1, 3, [{ flagged := true }, { revealed := true, adjacentMines := 2 },
        { mine := true }], false, -1, -1⟩ 1 0
      = some (false, ⟨1, 3, [{ flagged := true }, { revealed := true, adjacentMines := 2 },
        { mine := true }], false, -1, -1⟩) :=
  chord_refuses id _ 1 0 (Or.inr (Or.inr (Or.inr (by decide))))

/-- C9. `isCleared()` is true exactly when every tile without a mine is
revealed; it gives the same answer on two boards whose tiles agree, position by
position, on `mine` and, where there is no mine, on `revealed`; and
`flag(x, y)` never changes it. -/
theorem isCleared_iff_all_safe_revealed :
    (∀ b : Board, isCleared b = true ↔ ∀ t ∈ b.tiles, t.mine = false → t.revealed = true) ∧
    (∀ b b' : Board, b'.tiles.length = b.tiles.length →
      (∀ i, (getTile b'.tiles i).mine = (getTile b.tiles i).mine ∧
        ((getTile b.tiles i).mine = false →
          (getTile b'.tiles i).revealed = (getTile b.tiles i).revealed)) →
      isCleared b' = isCleared b) ∧
    (∀ (b : Board) (x y : Int), isCleared (flag b x y) = isCleared b) := by
  have h1 : ∀ b : Board,
      isCleared b = true ↔ ∀ t ∈ b.tiles, t.mine = false → t.revealed = true := by
    intro b
    unfold isCleared
    rw [List.all_eq_true]
    constructor
    · intro h t ht hm
      have := h t ht
      rw [hm] at this
      cases hr : t.revealed with
      | true => rfl
      | false => rw [hr] at this; simp at this
    · intro h t ht
      cases hm : t.mine with
      | true => simp
      | false => rw [h t ht hm]; simp
  have h2 : ∀ b b' : Board, b'.tiles.length = b.tiles.length →
      (∀ i, (getTile b'.tiles i).mine = (getTile b.tiles i).mine ∧
        ((getTile b.tiles i).mine = false →
          (getTile b'.tiles i).revealed = (getTile b.tiles i).revealed)) →
      isCleared b' = isCleared b := by
    intro b b' hlen hp
    rw [Bool.eq_iff_iff, h1, h1]
    constructor
    · intro h t ht hm
      obtain ⟨i, hi, rfl⟩ := (mem_iff_getTile _ _).1 ht
      rw [← (hp i).2 hm]
      exact h _ (getTile_mem _ _ (by rw [hlen]; exact hi)) (by rw [(hp i).1]; exact hm)
    · intro h t ht hm
      obtain ⟨i, hi, rfl⟩ := (mem_iff_getTile _ _).1 ht
      rw [(hp i).1] at hm
      rw [(hp i).2 hm]
      exact h _ (getTile_mem _ _ (by rw [← hlen]; exact hi)) hm
  refine ⟨h1, h2, ?_⟩
  intro b x y
  obtain ⟨hrel, _⟩ := flag_frame b x y
  exact h2 b (flag b x y) hrel.2.2.1 (fun i => ⟨(hrel.2.2.2 i).1, fun _ => (hrel.2.2.2 i).2.1⟩)

/-- C8 (the code at the failing input). On the 2x4 board reached by
`reset(2, 4, 1)` (mine at `(0, 0)`), `reveal(3, 0)`, `flag(0, 1)` and one
`AISolver()` step (Rule 1 at `(1, 0)` reveals the mine at `(0, 0)`), the cell
`(1, 0)` is revealed, unflagged, with one flagged neighbour and
`adjacentMines == 1`; its only unflagged mine neighbour `(0, 0)` is already
revealed. `chord(1, 0)` returns true and changes no tile. -/
theorem chord_reports_revealed_mine :
    ((reset id 2 4 1).bind fun b0 => (reveal id b0 3 0).bind fun r1 =>
        AISolver id (flag r1.2 0 1))
      = some (true, ⟨2, 4,
          [{ revealed := true, mine := true }, { revealed := true, adjacentMines := 1 },
           { revealed := true }, { revealed := true },
           { flagged := true, adjacentMines := 1 }, { revealed := true, adjacentMines := 1 },
           { revealed := true }, { revealed := true }], false, 1, 0⟩) ∧
    chord id ⟨2, 4,
          [{ revealed := true, mine := true }, { revealed := true, adjacentMines := 1 },
           { revealed := true }, { revealed := true },
           { flagged := true, adjacentMines := 1 }, { revealed := true, adjacentMines := 1 },
           { revealed := true }, { revealed := true }], false, 1, 0⟩ 1 0
      = some (true, ⟨2, 4,
          [{ revealed := true, mine := true }, { revealed := true, adjacentMines := 1 },
           { revealed := true }, { revealed := true },
           { flagged := true, adjacentMines := 1 }, { revealed := true, adjacentMines := 1 },
           { revealed := true }, { revealed := true }], false, 1, 0⟩) := by
  constructor <;> decide

/-- C10. On a board state whose first click is consumed, `AISolver()` returns;
it returns true exactly when a rule fires at some in-bounds revealed tile
without a mine. When it returns true, there is such a position `(x, y)` with no
firing position before it in row-major order, the highlight is `(x, y)`, and the
resulting board is the action of Rule 1 at `(x, y)` if its condition holds
there, of Rule 2 otherwise. When it returns false, the resulting board is the
old one with the highlight set to `(-1, -1)`. -/
theorem solver_acts_at_first_firing_cell (shuf : List Nat → List Nat) (b : Board)
    (hwf : b.WF) (hfc : b.firstClick_ = false) :
    ∃ r b', AISolver shuf b = some (r, b') ∧
      (r = true ↔ ∃ x y : Int, inBounds b x y = true ∧ solverFires b x y = true) ∧
      (r = true → ∃ x y : Int, inBounds b x y = true ∧ solverFires b x y = true ∧
        (∀ x' y' : Int, inBounds b x' y' = true → rowMajorLt (x', y') (x, y) →
          solverFires b x' y' = false) ∧
        b'.highlightX_ = x ∧ b'.highlightY_ = y ∧
        (rule1Cond b x y = true →
          rule1Action shuf { b with highlightX_ := x, highlightY_ := y } x y = some b') ∧
        (rule1Cond b x y = false →
          b' = rule2Action { b with highlightX_ := x, highlightY_ := y } x y)) ∧
      (r = false → b' = { b with highlightX_ := -1, highlightY_ := -1 }) := by
  rw [AISolver_eq]
  unfold scanOutcome
  cases hfind : (coords b.rows_ b.cols_).find? (fun p => solverFires b p.1 p.2) with
  | none =>
    refine ⟨false, _, rfl, ?_, ?_, fun _ => rfl⟩
    · constructor
      · intro h; cases h
      · rintro ⟨x, y, hb, hf⟩
        rw [List.find?_eq_none] at hfind
        exact absurd hf (hfind (x, y) ((mem_coords_iff b (x, y)).2 hb))
    · intro h; cases h
  | some p =>
    obtain ⟨hfp, as, bs, hsplit, hpre⟩ := List.find?_eq_some.1 hfind
    have hfp' : solverFires b p.1 p.2 = true := hfp
    have hpm : p ∈ coords b.rows_ b.cols_ := by rw [hsplit]; simp
    have hpb : inBounds b p.1 p.2 = true := (mem_coords_iff b p).1 hpm
    have hbefore : ∀ x' y' : Int, inBounds b x' y' = true → rowMajorLt (x', y') (p.1, p.2) →
        solverFires b x' y' = false := by
      intro x' y' hb' hlt
      have hq := before_mem_prefix b.rows_ b.cols_ as bs p (x', y') hsplit
        ((mem_coords_iff b (x', y')).2 hb') hlt
      simpa using hpre (x', y') hq
    simp only
    cases h1 : rule1Cond b p.1 p.2 with
    | true =>
      obtain ⟨b', hact, _, _, hx, hy⟩ := rule1Action_total shuf
        { b with highlightX_ := p.1, highlightY_ := p.2 } p.1 p.2 hwf hfc
      refine ⟨true, b', by rw [if_pos rfl, hact]; rfl, ?_, ?_, fun h => by cases h⟩
      · exact ⟨fun _ => ⟨p.1, p.2, hpb, hfp'⟩, fun _ => rfl⟩
      · intro _
        exact ⟨p.1, p.2, hpb, hfp', hbefore, hx, hy, fun _ => hact,
          fun h => by rw [h1] at h; cases h⟩
    | false =>
      obtain ⟨_, _, hx, hy⟩ :=
        rule2Action_frame { b with highlightX_ := p.1, highlightY_ := p.2 } p.1 p.2
      refine ⟨true, _, by rw [if_neg (by simp)], ?_, ?_, fun h => by cases h⟩
      · exact ⟨fun _ => ⟨p.1, p.2, hpb, hfp'⟩, fun _ => rfl⟩
      · intro _
        exact ⟨p.1, p.2, hpb, hfp', hbefore, hx, hy,
          (fun h => by rw [h1] at h; cases h), fun _ => rfl⟩

theorem solver_acts_at_first_firing_cell_witness :
    ∃ r b', AISolver id ⟨1, 3, [{ revealed := true }, { revealed := true, adjacentMines := 1 },
        { mine := true }], false, -1, -1⟩ = some (r, b') ∧
      (r = true ↔ ∃ x y : Int,
        inBounds ⟨1, 3, [{ revealed := true }, { revealed := true, adjacentMines := 1 },
          { mine := true }], false, -1, -1⟩ x y = true ∧
        solverFires ⟨1, 3, [{ revealed := true }, { revealed := true, adjacentMines := 1 },
          { mine := true }], false, -1, -1⟩ x y = true) ∧
      (r = false → b' = ⟨1, 3, [{ revealed := true }, { revealed := true, adjacentMines := 1 },
          { mine := true }], false, -1, -1⟩) := by
  obtain ⟨r, b', h, h1, _, h3⟩ := solver_acts_at_first_firing_cell id
    ⟨1, 3, [{ revealed := true }, { revealed := true, adjacentMines := 1 },
      { mine := true }], false, -1, -1⟩ (by decide) rfl
  exact ⟨r, b', h, h1, h3⟩

/-- C11. On a board state whose first click is consumed, `AISolver()` returns,
and its value is true exactly when some cell of the grid has a different
`revealed` or `flagged` field after the call than before. -/
theorem solver_true_iff_changed (shuf : List Nat → List Nat) (b : Board) (hwf : b.WF)
    (hfc : b.firstClick_ = false) :
    ∃ r b', AISolver shuf b = some (r, b') ∧
      (r = true ↔ ∃ cx cy : Int, inBounds b cx cy = true ∧
        ((tileAt b' cx cy).revealed ≠ (tileAt b cx cy).revealed ∨
          (tileAt b' cx cy).flagged ≠ (tileAt b cx cy).flagged)) := by
  by_cases hex : ∃ x y : Int, inBounds b x y = true ∧ solverFires b x y = true
  · obtain ⟨x, y, hb, hf, hfirst⟩ := first_firing_exists b hex
    obtain ⟨_, _, hrules⟩ := (solverFires_iff b x y).1 hf
    cases h1 : rule1Cond b x y with
    | true =>
      obtain ⟨b', hsol, _, _, hpost⟩ := solver_rule1_outcome shuf b hwf hfc x y hb hf hfirst h1
      obtain ⟨cx, cy, hu⟩ := exists_unknownNeighbour b x y (rule1Cond_unknown b x y h1)
      refine ⟨true, b', hsol, fun _ => ⟨cx, cy, hu.2.1, Or.inl ?_⟩, fun _ => rfl⟩
      rw [hpost cx cy hu, hu.2.2.1]
      simp
    | false =>
      have h2 : rule2Cond b x y = true := by
        rcases hrules with h | h
        · rw [h1] at h; cases h
        · exact h
      obtain ⟨hsol, hcells⟩ := solver_rule2_outcome shuf b hwf x y hb hf hfirst h1
      obtain ⟨cx, cy, hu⟩ := exists_unknownNeighbour b x y (rule2Cond_unknown b x y h2)
      refine ⟨true, _, hsol, fun _ => ⟨cx, cy, hu.2.1, Or.inr ?_⟩, fun _ => rfl⟩
      rw [(hcells cx cy hu.2.1).1 hu, hu.2.2.2]
      simp
  · have hnone : ∀ x y : Int, inBounds b x y = true → solverFires b x y = false := by
      intro x y hb
      cases hf : solverFires b x y with
      | false => rfl
      | true => exact absurd ⟨x, y, hb, hf⟩ hex
    refine ⟨false, _, AISolver_no_firing shuf b hnone, ?_⟩
    constructor
    · intro h; cases h
    · rintro ⟨cx, cy, _, h | h⟩
      · exact absurd rfl h
      · exact absurd rfl h

theorem solver_true_iff_changed_witness :
    ∃ r b', AISolver id ⟨1, 3, [{ revealed := true }, { revealed := true, adjacentMines := 1 },
        { mine := true }], false, -1, -1⟩ = some (r, b') ∧
      (r = true ↔ ∃ cx cy : Int,
        inBounds ⟨1, 3, [{ revealed := true }, { revealed := true, adjacentMines := 1 },
          { mine := true }], false, -1, -1⟩ cx cy = true ∧
        ((tileAt b' cx cy).revealed ≠
            (tileAt ⟨1, 3, [{ revealed := true }, { revealed := true, adjacentMines := 1 },
              { mine := true }], false, -1, -1⟩ cx cy).revealed ∨
          (tileAt b' cx cy).flagged ≠
            (tileAt ⟨1, 3, [{ revealed := true }, { revealed := true, adjacentMines := 1 },
              { mine := true }], false, -1, -1⟩ cx cy).flagged)) :=
  solver_true_iff_changed id
    ⟨1, 3, [{ revealed := true }, { revealed := true, adjacentMines := 1 },
      { mine := true }], false, -1, -1⟩ (by decide) rfl

/-- C12. For every board state and every in-bounds `(x, y)`: if the tile is
revealed, `flag(x, y)` returns the board unchanged; otherwise it returns the
board with the `flagged` field of that tile negated and nothing else changed
(same dimensions, first-click flag and highlight, and every other tile, and
the `revealed`, `mine` and `adjacentMines` fields of that tile, as before). -/
theorem flag_toggles_only_target (b : Board) (hwf : b.WF) (x y : Int)
    (hb : inBounds b x y = true) :
    ((tileAt b x y).revealed = true → flag b x y = b) ∧
    ((tileAt b x y).revealed = false →
      flag b x y = setTile b x y { tileAt b x y with flagged := !(tileAt b x y).flagged } ∧
      (flag b x y).rows_ = b.rows_ ∧ (flag b x y).cols_ = b.cols_ ∧
      (flag b x y).firstClick_ = b.firstClick_ ∧
      (flag b x y).highlightX_ = b.highlightX_ ∧ (flag b x y).highlightY_ = b.highlightY_ ∧
      tileAt (flag b x y) x y = { tileAt b x y with flagged := !(tileAt b x y).flagged } ∧
      ∀ cx cy : Int, inBounds b cx cy = true → ¬ (x = cx ∧ y = cy) →
        tileAt (flag b x y) cx cy = tileAt b cx cy) := by
  constructor
  · intro hr
    unfold flag
    simp [hb, hr]
  · intro hr
    have he : flag b x y
        = setTile b x y { tileAt b x y with flagged := !(tileAt b x y).flagged } := by
      unfold flag
      simp [hb, hr]
    rw [he]
    refine ⟨rfl, rfl, rfl, rfl, rfl, rfl, tileAt_setTile_self b hwf hb _, ?_⟩
    intro cx cy hcb hne
    exact tileAt_setTile_ne b hb hcb hne _

theorem flag_toggles_only_target_witness :
    flag ⟨1, 2, [{ flagged := true }, { revealed := true }], false, -1, -1⟩ 1 0
      = ⟨1, 2, [{ flagged := true }, { revealed := true }], false, -1, -1⟩ :=
  (flag_toggles_only_target ⟨1, 2, [{ flagged := true }, { revealed := true }], false, -1, -1⟩
    (by decide) 1 0 (by decide)).1 (by decide)

/-- C13. For every board state and every `(x, y)`: whatever `reveal(x, y)`,
`flag(x, y)`, `chord(x, y)` or `AISolver()` returns, every cell revealed before
the call is revealed after it. The operations do return: `reveal` unless it is
a first reveal in bounds whose 3x3 block `S` leaves no room
(`mineCount + |S| > rows * cols`), `chord` and `AISolver` on every state of a
game. -/
theorem revealed_is_monotonic (shuf : List Nat → List Nat) (hshuf : ∀ l, (shuf l).Perm l)
    (b : Board) (hwf : b.WF) (x y : Int) :
    (∀ r b', reveal shuf b x y = some (r, b') → ∀ cx cy : Int,
      (tileAt b cx cy).revealed = true → (tileAt b' cx cy).revealed = true) ∧
    (∀ cx cy : Int, (tileAt b cx cy).revealed = true →
      (tileAt (flag b x y) cx cy).revealed = true) ∧
    (∀ r b', chord shuf b x y = some (r, b') → ∀ cx cy : Int,
      (tileAt b cx cy).revealed = true → (tileAt b' cx cy).revealed = true) ∧
    (∀ r b', AISolver shuf b = some (r, b') → ∀ cx cy : Int,
      (tileAt b cx cy).revealed = true → (tileAt b' cx cy).revealed = true) ∧
    ((b.firstClick_ = true → inBounds b x y = true →
        mineCount b + (safeTiles b x y).length ≤ b.rows_ * b.cols_) →
      ∃ r b', reveal shuf b x y = some (r, b')) ∧
    (b.Inv → (∃ r b', chord shuf b x y = some (r, b')) ∧
      ∃ r b', AISolver shuf b = some (r, b')) := by
  refine ⟨?_, ?_, ?_, ?_, ?_, ?_⟩
  · intro r b' h cx cy
    exact markStep_stillRevealed (reveal_marks shuf hshuf b hwf x y r b' h) cx cy
  · intro cx cy
    exact markStep_stillRevealed (flag_marks b x y) cx cy
  · intro r b' h cx cy
    exact markStep_stillRevealed (chord_marks shuf hshuf b hwf x y r b' h) cx cy
  · intro r b' h cx cy
    exact markStep_stillRevealed (AISolver_marks shuf hshuf b hwf r b' h) cx cy
  · intro hcap
    by_cases hn : reveal shuf b x y = none
    · obtain ⟨hfc, hb, hc⟩ := (reveal_none_iff shuf hshuf b hwf x y).1 hn
      exact absurd ((capacity_iff b hwf x y).2 (hcap hfc hb)) hc
    · cases hr : reveal shuf b x y with
      | none => exact absurd hr hn
      | some p => exact ⟨p.1, p.2, rfl⟩
  · intro hinv
    obtain ⟨r, b', h, _⟩ := chord_step shuf b hinv x y
    obtain ⟨r2, b2, h2, _⟩ := solver_step shuf b hinv
    exact ⟨⟨r, b', h⟩, ⟨r2, b2, h2⟩⟩

theorem revealed_is_monotonic_witness :
    ∃ r b', chord id ⟨1, 3, [{ revealed := true }, { revealed := true, adjacentMines := 1 },
        { flagged := true, mine := true }], false, -1, -1⟩ 0 0 = some (r, b') ∧
      (tileAt b' 1 0).revealed = true := by
  obtain ⟨_, _, hch, _, _, htot⟩ := revealed_is_monotonic id (fun _ => List.Perm.refl _)
    ⟨1, 3, [{ revealed := true }, { revealed := true, adjacentMines := 1 },
      { flagged := true, mine := true }], false, -1, -1⟩ (by decide) 0 0
  obtain ⟨⟨r, b', h⟩, _⟩ := htot ⟨by decide, fun hfc => by cases hfc⟩
  exact ⟨r, b', h, hch r b' h 1 0 (by decide)⟩

/-- C14. No tile is both flagged and revealed after
`reset(rows, cols, mineCount)` with `mineCount ≤ rows * cols`, and on every
board state where this holds it still holds on whatever `reveal(x, y)`,
`flag(x, y)`, `chord(x, y)` or `AISolver()` returns, for every `(x, y)`:
position by position, a tile that is not both flagged and revealed does not
become so. -/
theorem never_flagged_and_revealed (shuf : List Nat → List Nat)
    (hshuf : ∀ l, (shuf l).Perm l) :
    (∀ rows cols m : Nat, m ≤ rows * cols →
      ∃ b, reset shuf rows cols m = some b ∧ NoFlaggedRevealed b) ∧
    (∀ (b : Board) (x y : Int), b.WF → NoFlaggedRevealed b →
      (∀ r b', reveal shuf b x y = some (r, b') → NoFlaggedRevealed b') ∧
      NoFlaggedRevealed (flag b x y) ∧
      (∀ r b', chord shuf b x y = some (r, b') → NoFlaggedRevealed b') ∧
      (∀ r b', AISolver shuf b = some (r, b') → NoFlaggedRevealed b')) ∧
    (∀ (b : Board) (x y : Int), b.WF →
      (∀ r b', reveal shuf b x y = some (r, b') → TilesRel Tile.markStep b b') ∧
      TilesRel Tile.markStep b (flag b x y) ∧
      (∀ r b', chord shuf b x y = some (r, b') → TilesRel Tile.markStep b b') ∧
      (∀ r b', AISolver shuf b = some (r, b') → TilesRel Tile.markStep b b')) := by
  refine ⟨?_, ?_, ?_⟩
  · intro rows cols m hm
    obtain ⟨b, h, _, _, _, _, hmarks, _⟩ := reset_spec shuf hshuf rows cols m hm
    refine ⟨b, h, fun t ht => ?_⟩
    rw [(hmarks t ht).1, (hmarks t ht).2]
    rfl
  · intro b x y hwf hn
    refine ⟨?_, ?_, ?_, ?_⟩
    · intro r b' h
      exact markStep_noFlaggedRevealed (reveal_marks shuf hshuf b hwf x y r b' h) hn
    · exact markStep_noFlaggedRevealed (flag_marks b x y) hn
    · intro r b' h
      exact markStep_noFlaggedRevealed (chord_marks shuf hshuf b hwf x y r b' h) hn
    · intro r b' h
      exact markStep_noFlaggedRevealed (AISolver_marks shuf hshuf b hwf r b' h) hn
  · intro b x y hwf
    exact ⟨fun r b' h => reveal_marks shuf hshuf b hwf x y r b' h, flag_marks b x y,
      fun r b' h => chord_marks shuf hshuf b hwf x y r b' h,
      fun r b' h => AISolver_marks shuf hshuf b hwf r b' h⟩

theorem never_flagged_and_revealed_witness :
    (∃ b, reset List.reverse 2 3 2 = some b ∧ NoFlaggedRevealed b) ∧
    NoFlaggedRevealed (flag ⟨1, 2, [{ flagged := true }, { revealed := true }],
      false, -1, -1⟩ 1 0) :=
  ⟨(never_flagged_and_revealed List.reverse (fun l => List.reverse_perm l)).1 2 3 2 (by decide),
    ((never_flagged_and_revealed List.reverse (fun l => List.reverse_perm l)).2.1
      ⟨1, 2, [{ flagged := true }, { revealed := true }], false, -1, -1⟩ 1 0
      (by decide) (by decide)).2.1⟩

/-- C15 (amended). For every board state and every in-bounds `(x, y)` whose
tile is already revealed or flagged: if the first click is consumed,
`reveal(x, y)` returns false and leaves the whole board state unchanged; if the
first click is pending (and the 3x3 block `S` leaves room,
`mineCount + |S| ≤ rows * cols`), `reveal(x, y)` returns false and leaves every
`revealed` and `flagged` field, the dimensions, the highlight and the number of
mines unchanged, but the first-click relocation has run: the result is the
relocated board, with the first-click flag cleared. -/
theorem reveal_refuses_marked_tile (shuf : List Nat → List Nat)
    (hshuf : ∀ l, (shuf l).Perm l) (b : Board) (hwf : b.WF) (x y : Int)
    (hb : inBounds b x y = true)
    (h : (tileAt b x y).revealed = true ∨ (tileAt b x y).flagged = true) :
    (b.firstClick_ = false → reveal shuf b x y = some (false, b)) ∧
    (b.firstClick_ = true → mineCount b + (safeTiles b x y).length ≤ b.rows_ * b.cols_ →
      ∃ b0, reveal shuf b x y = some (false, b0) ∧ relocate shuf b x y = some b0 ∧
        b0.firstClick_ = false ∧ b0.rows_ = b.rows_ ∧ b0.cols_ = b.cols_ ∧
        b0.highlightX_ = b.highlightX_ ∧ b0.highlightY_ = b.highlightY_ ∧
        mineCount b0 = mineCount b ∧
        ∀ cx cy : Int, (tileAt b0 cx cy).revealed = (tileAt b cx cy).revealed ∧
          (tileAt b0 cx cy).flagged = (tileAt b cx cy).flagged) := by
  constructor
  · intro hfc
    exact reveal_refused shuf b x y hfc h
  · intro hfc hcap
    obtain ⟨b0, hrel, hrev, hmarks, hfc0, hx0, hy0, hcount, _, _⟩ :=
      reveal_refused_first shuf hshuf b hwf x y hb hfc ((capacity_iff b hwf x y).2 hcap) h
    exact ⟨b0, hrev, hrel, hfc0, hmarks.1, hmarks.2.1, hx0, hy0, hcount,
      fun cx cy => hmarks.tileAt cx cy⟩

theorem reveal_refuses_marked_tile_witness :
    reveal id ⟨1, 3, [{ revealed := true }, { revealed := true, adjacentMines := 1 },
        { flagged := true, mine := true }], false, -1, -1⟩ 2 0
      = some (false, ⟨1, 3, [{ revealed := true }, { revealed := true, adjacentMines := 1 },
        { flagged := true, mine := true }], false, -1, -1⟩) :=
  (reveal_refuses_marked_tile id (fun _ => List.Perm.refl _)
    ⟨1, 3, [{ revealed := true }, { revealed := true, adjacentMines := 1 },
      { flagged := true, mine := true }], false, -1, -1⟩ (by decide) 2 0 (by decide)
    (Or.inr (by decide))).1 rfl

/-- C15, as stated, fails while the first click is pending: after
`reset(1, 4, 1)` (mine at `(0, 0)`) and `flag(0, 0)`, `reveal(0, 0)` on the
flagged tile returns false, but the first-click branch has run before the
flagged test: the first click is consumed and the mine has moved from `(0, 0)`
to `(2, 0)`. -/
theorem reveal_on_flagged_consumes_first_click :
    (reset id 1 4 1).map (fun b0 => flag b0 0 0)
      = some ⟨1, 4, [{ flagged := true, mine := true }, { adjacentMines := 1 }, {}, {}],
          true, -1, -1⟩ ∧
    inBounds ⟨1, 4, [{ flagged := true, mine := true }, { adjacentMines := 1 }, {}, {}],
      true, -1, -1⟩ 0 0 = true ∧
    (tileAt ⟨1, 4, [{ flagged := true, mine := true }, { adjacentMines := 1 }, {}, {}],
      true, -1, -1⟩ 0 0).flagged = true ∧
    reveal id ⟨1, 4, [{ flagged := true, mine := true }, { adjacentMines := 1 }, {}, {}],
        true, -1, -1⟩ 0 0
      = some (false, ⟨1, 4, [{ flagged := true }, { adjacentMines := 1 }, { mine := true },
          { adjacentMines := 1 }], false, -1, -1⟩) ∧
    reveal id ⟨1, 4, [{ flagged := true, mine := true }, { adjacentMines := 1 }, {}, {}],
        true, -1, -1⟩ 0 0
      ≠ some (false, ⟨1, 4, [{ flagged := true, mine := true }, { adjacentMines := 1 }, {}, {}],
          true, -1, -1⟩) := by
  refine ⟨by decide, by decide, by decide, by decide, by decide⟩

/-- C16. For every board state and every `(x, y)` out of bounds (`x < 0`,
`x ≥ cols`, `y < 0` or `y ≥ rows`): `reveal(x, y)` and `chord(x, y)` return false
with the board unchanged, first-click flag included; `flag(x, y)` returns the
board unchanged; `isRevealed(x, y)` is false and `getAdjacentMines(x, y)` is 0.
This holds whatever the tile vector is. -/
theorem out_of_bounds_is_noop (shuf : List Nat → List Nat) (b : Board) (x y : Int)
    (h : x < 0 ∨ (b.cols_ : Int) ≤ x ∨ y < 0 ∨ (b.rows_ : Int) ≤ y) :
    reveal shuf b x y = some (false, b) ∧ chord shuf b x y = some (false, b) ∧
      flag b x y = b ∧ isRevealed b x y = false ∧ getAdjacentMines b x y = 0 := by
  have hb : inBounds b x y = false := by
    cases hc : inBounds b x y with
    | false => rfl
    | true =>
      rw [inBounds_iff] at hc
      omega
  refine ⟨?_, ?_, ?_, ?_, ?_⟩
  · rw [reveal_eq, revealFuel_oob shuf _ b x y hb]
  · unfold chord
    simp [hb]
  · unfold flag
    simp [hb]
  · unfold isRevealed
    simp [hb]
  · unfold getAdjacentMines
    simp [hb]

theorem out_of_bounds_is_noop_witness :
    reveal id scenario3x3 3 0 = some (false, scenario3x3) ∧
      chord id scenario3x3 3 0 = some (false, scenario3x3) ∧
      flag scenario3x3 3 0 = scenario3x3 ∧ isRevealed scenario3x3 3 0 = false ∧
      getAdjacentMines scenario3x3 3 0 = 0 :=
  out_of_bounds_is_noop id scenario3x3 3 0 (Or.inr (Or.inl (by decide)))

/-- C17 (amended). `reveal` terminates on every input on which the first-click
relocation, if it runs, has room. For every board state and every `(x, y)`
such that, when the first click is pending and `(x, y)` is in bounds, the 3x3
block `S` satisfies `mineCount + |S| ≤ rows * cols`: `reveal(x, y)` returns, the
number of unrevealed tiles does not increase and strictly decreases when the
target is in bounds, unrevealed and unflagged. Every call with the first click
consumed, as all recursive calls of the flood fill are, returns within any
recursion depth above the number of unrevealed tiles, keeps the first click
consumed, has that number as a measure that strictly decreases when the call
does work, and short-circuits (false, board unchanged) on an out-of-bounds,
already revealed or flagged cell. -/
theorem reveal_terminates (shuf : List Nat → List Nat) (hshuf : ∀ l, (shuf l).Perm l)
    (b : Board) (hwf : b.WF) (x y : Int)
    (hroom : b.firstClick_ = true → inBounds b x y = true →
      mineCount b + (safeTiles b x y).length ≤ b.rows_ * b.cols_) :
    (∃ r b', reveal shuf b x y = some (r, b') ∧ b'.WF ∧
      unrevealedCount b' ≤ unrevealedCount b ∧
      (inBounds b x y = true → (tileAt b x y).revealed = false →
        (tileAt b x y).flagged = false → unrevealedCount b' < unrevealedCount b)) ∧
    (∀ (s : Board) (cx cy : Int) (fuel : Nat), s.WF → s.firstClick_ = false →
      unrevealedCount s < fuel →
      ∃ r s', revealFuel shuf fuel s cx cy = some (r, s') ∧ s'.WF ∧ s'.firstClick_ = false ∧
        unrevealedCount s' ≤ unrevealedCount s ∧
        (inBounds s cx cy = true → (tileAt s cx cy).revealed = false →
          (tileAt s cx cy).flagged = false → unrevealedCount s' < unrevealedCount s) ∧
        ((inBounds s cx cy = false ∨ (tileAt s cx cy).revealed = true ∨
          (tileAt s cx cy).flagged = true) → r = false ∧ s' = s)) := by
  constructor
  · exact reveal_returns shuf hshuf b hwf x y
      (fun hfc hb => (capacity_iff b hwf x y).2 (hroom hfc hb))
  · intro s cx cy fuel hwfs hfcs hfuel
    exact revealFuel_terminates shuf s cx cy fuel hwfs hfcs hfuel

theorem reveal_terminates_witness :
    reveal id scenario3x3 0 0 = some (false, scenario3x3Revealed) ∧
    unrevealedCount scenario3x3Revealed < unrevealedCount scenario3x3 ∧
    unrevealedCount scenario3x3 = 9 ∧ unrevealedCount scenario3x3Revealed = 1 ∧
    ∃ r s', revealFuel id 10
        ⟨3, 3, [{}, {}, {}, {}, { adjacentMines := 1 }, { adjacentMines := 1 },
          {}, { adjacentMines := 1 }, { mine := true }], false, -1, -1⟩ 0 0 = some (r, s') ∧
      unrevealedCount s' <
        unrevealedCount ⟨3, 3, [{}, {}, {}, {}, { adjacentMines := 1 }, { adjacentMines := 1 },
          {}, { adjacentMines := 1 }, { mine := true }], false, -1, -1⟩ := by
  obtain ⟨⟨r, b', h, _, _, hlt⟩, hrec⟩ := reveal_terminates id (fun _ => List.Perm.refl _)
    scenario3x3 (by decide) 0 0 (fun _ _ => by decide)
  have he : reveal id scenario3x3 0 0 = some (false, scenario3x3Revealed) := by decide
  rw [he] at h
  cases h
  obtain ⟨r1, s1, h1, _, _, _, hlt1, _⟩ := hrec
    ⟨3, 3, [{}, {}, {}, {}, { adjacentMines := 1 }, { adjacentMines := 1 },
      {}, { adjacentMines := 1 }, { mine := true }], false, -1, -1⟩ 0 0 10
    (by decide) rfl (by decide)
  exact ⟨he, hlt (by decide) (by decide) (by decide), by decide, by decide,
    r1, s1, h1, hlt1 (by decide) (by decide) (by decide)⟩

/-- C17, as stated, fails on a first click without room: on the 2x2 board that
`reset(2, 2, 4)` builds (every tile a mine, first click pending),
`reveal(0, 0)` is in bounds, `toMove` collects the 4 mines of the block and
`pool` is empty, so the relocation loop reads `pool[0]` past its end: the call
has no result, whatever the recursion depth allowed. -/
theorem first_reveal_without_room_has_no_result :
    reset id 2 2 4 = some ⟨2, 2, [{ mine := true }, { mine := true }, { mine := true },
      { mine := true }], true, -1, -1⟩ ∧
    inBounds ⟨2, 2, [{ mine := true }, { mine := true }, { mine := true },
      { mine := true }], true, -1, -1⟩ 0 0 = true ∧
    (toMove ⟨2, 2, [{ mine := true }, { mine := true }, { mine := true },
      { mine := true }], true, -1, -1⟩ 0 0).length = 4 ∧
    pool id ⟨2, 2, [{ mine := true }, { mine := true }, { mine := true },
      { mine := true }], true, -1, -1⟩ 0 0 = [] ∧
    reveal id ⟨2, 2, [{ mine := true }, { mine := true }, { mine := true },
      { mine := true }], true, -1, -1⟩ 0 0 = none ∧
    ∀ fuel, revealFuel id fuel ⟨2, 2, [{ mine := true }, { mine := true }, { mine := true },
      { mine := true }], true, -1, -1⟩ 0 0 = none := by
  refine ⟨by decide, by decide, by decide, by decide, by decide, ?_⟩
  exact revealFuel_first_none id (fun _ => List.Perm.refl _) _ (by decide) 0 0 (by decide) rfl
    (by decide)

/-- C18. Scenario. The fresh 3x3 board with its single mine at `(2, 2)` (as
`reset(3, 3, 1)` builds it when the shuffle puts position 8 first): for every
shuffle outcome `reveal(0, 0)` returns false; afterwards the 8 cells other than
`(2, 2)` are revealed, `(2, 2)` is still a mine and unrevealed, and
`isCleared()` is true. -/
theorem scenario_corner_reveal_clears_board (shuf : List Nat → List Nat) :
    reset List.reverse 3 3 1 = some scenario3x3 ∧
    reveal shuf scenario3x3 0 0 = some (false, scenario3x3Revealed) ∧
    (∀ cx cy : Int, inBounds scenario3x3Revealed cx cy = true → ¬ (cx = 2 ∧ cy = 2) →
      (tileAt scenario3x3Revealed cx cy).revealed = true) ∧
    (tileAt scenario3x3Revealed 2 2).mine = true ∧
    (tileAt scenario3x3Revealed 2 2).revealed = false ∧
    isCleared scenario3x3Revealed = true := by
  refine ⟨by decide, ?_, ?_, by decide, by decide, by decide⟩
  · have hg : gatherMines (safeTiles scenario3x3 0 0) scenario3x3.tiles
        = ([], scenario3x3.tiles) := by decide
    have hrel := relocate_of_gather_nil shuf scenario3x3 0 0 hg
    rw [reveal_eq, revealFuel_first_of_some shuf _ scenario3x3 _ 0 0 (by decide) rfl hrel
      (by decide) (by decide),
      revealFuel_shuf_irrelevant shuf id _ _ 0 0 (by decide)]
    decide
  · intro cx cy hb hne
    rw [inBounds_iff] at hb
    have hc : (scenario3x3Revealed.cols_ : Int) = 3 := rfl
    have hr : (scenario3x3Revealed.rows_ : Int) = 3 := rfl
    rw [hc, hr] at hb
    have hx : cx = 0 ∨ cx = 1 ∨ cx = 2 := by omega
    have hy : cy = 0 ∨ cy = 1 ∨ cy = 2 := by omega
    rcases hx with rfl | rfl | rfl <;> rcases hy with rfl | rfl | rfl <;>
      first
        | decide
        | exact absurd ⟨rfl, rfl⟩ hne

/-- C19. Solver Rule 2 action. For every board state in which the first cell in
row-major order at which a rule fires is a cell `(x, y)` firing Rule 2 (revealed,
no mine, `adjacentMines - flaggedNeighbors > 0` and
`unrevealedNeighbors == adjacentMines - flaggedNeighbors`): `AISolver` returns
true, and in the resulting board every in-bounds neighbour of `(x, y)` that was
unrevealed and unflagged is the same tile with `flagged` set, while every other
cell is the same tile as before (so no other `flagged` field and no `revealed`,
`mine` or `adjacentMines` field changes); dimensions and first-click flag are
unchanged, and the highlight is `(x, y)`. -/
theorem solver_rule2_flags_unknown_neighbours (shuf : List Nat → List Nat) (b : Board)
    (hwf : b.WF) (x y : Int) (hb : inBounds b x y = true)
    (hrev : (tileAt b x y).revealed = true) (hmine : (tileAt b x y).mine = false)
    (h2 : rule2Cond b x y = true)
    (hfirst : ∀ x' y' : Int, inBounds b x' y' = true → rowMajorLt (x', y') (x, y) →
      solverFires b x' y' = false) :
    ∃ b', AISolver shuf b = some (true, b') ∧
      b'.rows_ = b.rows_ ∧ b'.cols_ = b.cols_ ∧ b'.firstClick_ = b.firstClick_ ∧
      b'.highlightX_ = x ∧ b'.highlightY_ = y ∧
      ∀ cx cy : Int, inBounds b cx cy = true →
        (unknownNeighbour b x y cx cy →
          tileAt b' cx cy = { tileAt b cx cy with flagged := true }) ∧
        (¬ unknownNeighbour b x y cx cy → tileAt b' cx cy = tileAt b cx cy) := by
  have hf : solverFires b x y = true :=
    (solverFires_iff b x y).2 ⟨hrev, hmine, Or.inr h2⟩
  obtain ⟨hres, hcells⟩ := solver_rule2_outcome shuf b hwf x y hb hf hfirst
    (rule2Cond_not_rule1 b x y h2)
  obtain ⟨hrel, hfc, hx, hy⟩ :=
    rule2Action_frame { b with highlightX_ := x, highlightY_ := y } x y
  exact ⟨_, hres, hrel.1, hrel.2.1, hfc, hx, hy, hcells⟩

theorem solver_rule2_flags_unknown_neighbours_witness :
    ∃ b', AISolver id ⟨1, 2, [{ revealed := true, adjacentMines := 1 }, { mine := true }],
        false, -1, -1⟩ = some (true, b') ∧
      b'.rows_ = 1 ∧ b'.cols_ = 2 ∧ b'.firstClick_ = false ∧
      b'.highlightX_ = 0 ∧ b'.highlightY_ = 0 ∧
      ∀ cx cy : Int,
        inBounds ⟨1, 2, [{ revealed := true, adjacentMines := 1 }, { mine := true }],
          false, -1, -1⟩ cx cy = true →
        (unknownNeighbour ⟨1, 2, [{ revealed := true, adjacentMines := 1 }, { mine := true }],
            false, -1, -1⟩ 0 0 cx cy →
          tileAt b' cx cy
            = { tileAt ⟨1, 2, [{ revealed := true, adjacentMines := 1 }, { mine := true }],
                false, -1, -1⟩ cx cy with flagged := true }) ∧
        (¬ unknownNeighbour ⟨1, 2, [{ revealed := true, adjacentMines := 1 }, { mine := true }],
            false, -1, -1⟩ 0 0 cx cy →
          tileAt b' cx cy
            = tileAt ⟨1, 2, [{ revealed := true, adjacentMines := 1 }, { mine := true }],
                false, -1, -1⟩ cx cy) :=
  solver_rule2_flags_unknown_neighbours id
    ⟨1, 2, [{ revealed := true, adjacentMines := 1 }, { mine := true }], false, -1, -1⟩
    (by decide) 0 0 (by decide) (by decide) (by decide) (by decide)
    (fun x' y' hb' hlt => by
      rw [inBounds_iff] at hb'
      unfold rowMajorLt at hlt
      simp only at hlt
      omega)

/-- C20. Solver Rule 1 action. For every board state with the first click
consumed in which the first cell in row-major order at which a rule fires is a
cell `(x, y)` firing Rule 1 (revealed, no mine, `flaggedNeighbors == adjacentMines`
and `unrevealedNeighbors > 0`): `AISolver` returns true; the resulting board is
the one the Rule 1 loop of normal `reveal` calls (cascades included) produces
from the board highlighted at `(x, y)`; in it every in-bounds neighbour of
`(x, y)` that was unrevealed and unflagged is revealed, and no cell's `flagged`
or `mine` field has changed. -/
theorem solver_rule1_reveals_unknown_neighbours (shuf : List Nat → List Nat) (b : Board)
    (hwf : b.WF) (hfc : b.firstClick_ = false) (x y : Int) (hb : inBounds b x y = true)
    (hrev : (tileAt b x y).revealed = true) (hmine : (tileAt b x y).mine = false)
    (h1 : rule1Cond b x y = true)
    (hfirst : ∀ x' y' : Int, inBounds b x' y' = true → rowMajorLt (x', y') (x, y) →
      solverFires b x' y' = false) :
    ∃ b', AISolver shuf b = some (true, b') ∧
      rule1Action shuf { b with highlightX_ := x, highlightY_ := y } x y = some b' ∧
      (∀ cx cy : Int, unknownNeighbour b x y cx cy → (tileAt b' cx cy).revealed = true) ∧
      (∀ cx cy : Int, (tileAt b' cx cy).flagged = (tileAt b cx cy).flagged ∧
        (tileAt b' cx cy).mine = (tileAt b cx cy).mine) ∧
      b'.rows_ = b.rows_ ∧ b'.cols_ = b.cols_ := by
  have hf : solverFires b x y = true :=
    (solverFires_iff b x y).2 ⟨hrev, hmine, Or.inl h1⟩
  obtain ⟨b', hres, hact, hrel, hpost⟩ :=
    solver_rule1_outcome shuf b hwf hfc x y hb hf hfirst h1
  exact ⟨b', hres, hact, hpost,
    fun cx cy => ⟨(hrel.tileAt cx cy).2.1, (hrel.tileAt cx cy).1⟩, hrel.1, hrel.2.1⟩

theorem solver_rule1_reveals_unknown_neighbours_witness :
    ∃ b', AISolver id ⟨2, 2, [{ revealed := true, adjacentMines := 1 },
        { flagged := true, mine := true }, { adjacentMines := 1 }, { adjacentMines := 1 }],
        false, -1, -1⟩ = some (true, b') ∧
      rule1Action id ⟨2, 2, [{ revealed := true, adjacentMines := 1 },
        { flagged := true, mine := true }, { adjacentMines := 1 }, { adjacentMines := 1 }],
        false, 0, 0⟩ 0 0 = some b' ∧
      (tileAt b' 0 1).revealed = true ∧ (tileAt b' 1 1).revealed = true ∧
      (tileAt b' 1 0).flagged = true ∧ (tileAt b' 1 0).mine = true := by
  obtain ⟨b', hres, hact, hpost, hsame, _, _⟩ := solver_rule1_reveals_unknown_neighbours id
    ⟨2, 2, [{ revealed := true, adjacentMines := 1 },
      { flagged := true, mine := true }, { adjacentMines := 1 }, { adjacentMines := 1 }],
      false, -1, -1⟩
    (by decide) rfl 0 0 (by decide) (by decide) (by decide) (by decide)
    (fun x' y' hb' hlt => by
      rw [inBounds_iff] at hb'
      unfold rowMajorLt at hlt
      simp only at hlt
      omega)
  refine ⟨b', hres, hact, ?_, ?_, ?_, ?_⟩
  · exact hpost 0 1 ⟨⟨(0, 1), by decide, by decide, by decide⟩, by decide, by decide, by decide⟩
  · exact hpost 1 1 ⟨⟨(1, 1), by decide, by decide, by decide⟩, by decide, by decide, by decide⟩
  · rw [(hsame 1 0).1]
    decide
  · rw [(hsame 1 0).2]
    decide

/-- C21. Chord action. For every board state with the first click consumed in
which `(x, y)` is in bounds, revealed, unflagged and the flag count of `chord`
equals its `adjacentMines`: `chord(x, y)` returns, with the result of its
revealing loop; afterwards every in-bounds unflagged neighbour of `(x, y)` is
revealed, every flagged tile has its `revealed` field as before (a flagged
neighbour that was unrevealed is still unrevealed) and no `flagged` field has
changed. At an in-bounds unflagged neighbour the loop body reveals a mine
directly, writing that one tile, and calls the normal `reveal` otherwise. -/
theorem chord_reveals_unflagged_neighbours (shuf : List Nat → List Nat) (b : Board)
    (hwf : b.WF) (hfc : b.firstClick_ = false) (x y : Int) (hb : inBounds b x y = true)
    (hrev : (tileAt b x y).revealed = true) (hnf : (tileAt b x y).flagged = false)
    (hcount : countFlags b x y = (tileAt b x y).adjacentMines) :
    ∃ r b', chord shuf b x y = some (r, b') ∧
      offsets8.foldlM (chordStep shuf x y) (false, b) = some (r, b') ∧
      (∀ cx cy : Int, isNeighbour x y cx cy → inBounds b cx cy = true →
        (tileAt b cx cy).flagged = false → (tileAt b' cx cy).revealed = true) ∧
      (∀ cx cy : Int, (tileAt b cx cy).flagged = true →
        (tileAt b' cx cy).revealed = (tileAt b cx cy).revealed) ∧
      (∀ cx cy : Int, (tileAt b' cx cy).flagged = (tileAt b cx cy).flagged) ∧
      (∀ (s : Bool × Board) (d : Int × Int), inBounds s.2 (x + d.1) (y + d.2) = true →
        (tileAt s.2 (x + d.1) (y + d.2)).flagged = false →
        chordStep shuf x y s d =
          if (tileAt s.2 (x + d.1) (y + d.2)).mine then
            some (true, setTile s.2 (x + d.1) (y + d.2)
              { tileAt s.2 (x + d.1) (y + d.2) with revealed := true })
          else (reveal shuf s.2 (x + d.1) (y + d.2)).map (fun r => (s.1, r.2))) := by
  rw [countFlags_eq] at hcount
  have heq := chord_eq_loop shuf b x y hb hrev hnf hcount
  obtain ⟨r, b', h, _⟩ := chord_total shuf b x y hwf hfc
  have hloop : offsets8.foldlM (chordStep shuf x y) (false, b) = some (r, b') := by
    rw [← heq]; exact h
  obtain ⟨hrel, hmk, hpost⟩ := chordLoop_spec shuf b hwf hfc x y (r, b') hloop
  refine ⟨r, b', h, hloop, ?_, ?_, ?_, ?_⟩
  · rintro cx cy ⟨d, hd, rfl, rfl⟩ hcb hcf
    exact hpost d hd hcb hcf
  · intro cx cy hf
    exact flagged_keeps_revealed _ _ (hrel.tileAt cx cy) (hmk.tileAt cx cy) hf
  · intro cx cy
    exact (hrel.tileAt cx cy).2.1
  · intro s d hbs hfs
    exact chordStep_unflagged shuf x y s d hbs hfs

theorem chord_reveals_unflagged_neighbours_witness :
    ∃ r b', chord id ⟨2, 2, [{ revealed := true, adjacentMines := 1 },
        { flagged := true, mine := true }, { adjacentMines := 1 }, { adjacentMines := 1 }],
        false, -1, -1⟩ 0 0 = some (r, b') ∧
      (tileAt b' 0 1).revealed = true ∧ (tileAt b' 1 1).revealed = true ∧
      (tileAt b' 1 0).revealed = false ∧ (tileAt b' 1 0).flagged = true := by
  obtain ⟨r, b', h, _, hnb, hfl, hsame, _⟩ := chord_reveals_unflagged_neighbours id
    ⟨2, 2, [{ revealed := true, adjacentMines := 1 },
      { flagged := true, mine := true }, { adjacentMines := 1 }, { adjacentMines := 1 }],
      false, -1, -1⟩
    (by decide) rfl 0 0 (by decide) (by decide) (by decide) (by decide)
  refine ⟨r, b', h, ?_, ?_, ?_, ?_⟩
  · exact hnb 0 1 ⟨(0, 1), by decide, by decide, by decide⟩ (by decide) (by decide)
  · exact hnb 1 1 ⟨(1, 1), by decide, by decide, by decide⟩ (by decide) (by decide)
  · rw [hfl 1 0 (by decide)]
    decide
  · rw [hsame 1 0]
    decide

/-- C22. The cascade never exposes a mine. For every board state with the first
click consumed and correct adjacency counts, and every in-bounds cell `(x, y)`
without a mine: `reveal(x, y)` returns false, no tile that the call newly
reveals holds a mine, and no `mine` field changes. The recursive calls, made on
the neighbours of a cell with `adjacentMines == 0`, all return false. -/
theorem cascade_never_exposes_mine (shuf : List Nat → List Nat) (b : Board) (hwf : b.WF)
    (hfc : b.firstClick_ = false) (hadj : AdjOK b) (x y : Int)
    (hb : inBounds b x y = true) (hm : (tileAt b x y).mine = false) :
    ∃ b', reveal shuf b x y = some (false, b') ∧
      (∀ cx cy : Int, (tileAt b cx cy).revealed = false → (tileAt b' cx cy).revealed = true →
        (tileAt b' cx cy).mine = false) ∧
      (∀ cx cy : Int, (tileAt b' cx cy).mine = (tileAt b cx cy).mine) ∧
      ((tileAt b x y).adjacentMines = 0 → ∀ d ∈ offsets8, ∀ (s : Board),
        TilesRel Tile.revealStep b s → s.firstClick_ = false →
        ∃ s', reveal shuf s (x + d.1) (y + d.2) = some (false, s')) := by
  obtain ⟨b', h, hrel, _, _, _⟩ := reveal_safe shuf b hwf hfc hadj x y (fun _ => hm)
  refine ⟨b', h, ?_, ?_, ?_⟩
  · intro cx cy h0 h1
    rw [(hrel.tileAt cx cy).1.1]
    exact (hrel.tileAt cx cy).2 h0 h1
  · intro cx cy
    exact (hrel.tileAt cx cy).1.1
  · intro hz d hd s hs hfcs
    have hnb := zero_adj_no_mine b hadj x y hb hm hz d hd
    obtain ⟨s', hs', _⟩ := reveal_safe shuf s (hs.WF hwf) hfcs
      (AdjOK_congr (hs.mono revealStep_softStep) hadj) (x + d.1) (y + d.2)
      (fun hbs => by
        rw [hs.inBounds] at hbs
        rw [(hs.tileAt _ _).1]
        exact hnb hbs)
    exact ⟨s', hs'⟩

theorem cascade_never_exposes_mine_witness :
    ∃ b', reveal id ⟨3, 3, [{}, {}, {}, {}, { adjacentMines := 1 }, { adjacentMines := 1 },
        {}, { adjacentMines := 1 }, { mine := true }], false, -1, -1⟩ 0 0 = some (false, b') ∧
      (tileAt b' 2 2).mine = true ∧ (tileAt b' 2 2).revealed = false := by
  obtain ⟨b', h, hnew, hmine, _⟩ := cascade_never_exposes_mine id
    ⟨3, 3, [{}, {}, {}, {}, { adjacentMines := 1 }, { adjacentMines := 1 },
      {}, { adjacentMines := 1 }, { mine := true }], false, -1, -1⟩
    (by decide) rfl (by decide) 0 0 (by decide) (by decide)
  have hm : (tileAt b' 2 2).mine = true := by
    rw [hmine 2 2]
    decide
  refine ⟨b', h, hm, ?_⟩
  cases hr : (tileAt b' 2 2).revealed with
  | false => rfl
  | true =>
    rw [hnew 2 2 (by decide) hr] at hm
    cases hm

/-- C23. Solver soundness. The predicate "first click consumed, adjacency counts
correct, every flagged tile is a mine, no mine is revealed" is preserved by
`AISolver()`: from every board state satisfying it the call returns a board
that satisfies it again; every tile the call newly reveals holds no mine, every
tile it newly flags holds a mine, and no `mine` field changes. -/
theorem solver_preserves_soundness (shuf : List Nat → List Nat) (b : Board) (hwf : b.WF)
    (hs : SolverSound b) :
    ∃ r b', AISolver shuf b = some (r, b') ∧ SolverSound b' ∧ b'.WF ∧
      (∀ cx cy : Int, (tileAt b cx cy).revealed = false → (tileAt b' cx cy).revealed = true →
        (tileAt b' cx cy).mine = false) ∧
      (∀ cx cy : Int, (tileAt b cx cy).flagged = false → (tileAt b' cx cy).flagged = true →
        (tileAt b' cx cy).mine = true) ∧
      (∀ cx cy : Int, (tileAt b' cx cy).mine = (tileAt b cx cy).mine) := by
  obtain ⟨r, b', h, hrel, hfc'⟩ := solver_sound_step shuf b hwf hs
  refine ⟨r, b', h, SolverSound_step hrel hfc' hs, hrel.WF hwf, ?_, ?_, ?_⟩
  · intro cx cy h0 h1
    rw [(hrel.tileAt cx cy).1]
    exact (hrel.tileAt cx cy).2.2.2.2.1 h0 h1
  · intro cx cy h0 h1
    rw [(hrel.tileAt cx cy).1]
    exact (hrel.tileAt cx cy).2.2.2.2.2 h0 h1
  · intro cx cy
    exact (hrel.tileAt cx cy).1

theorem solver_preserves_soundness_witness :
    ∃ r b', AISolver id ⟨1, 3, [{ revealed := true }, { revealed := true, adjacentMines := 1 },
        { mine := true }], false, -1, -1⟩ = some (r, b') ∧ SolverSound b' ∧
      (tileAt b' 2 0).revealed = false := by
  obtain ⟨r, b', h, hs', _, hnew, _, hmine⟩ := solver_preserves_soundness id
    ⟨1, 3, [{ revealed := true }, { revealed := true, adjacentMines := 1 },
      { mine := true }], false, -1, -1⟩ (by decide) (by decide)
  refine ⟨r, b', h, hs', ?_⟩
  cases hr : (tileAt b' 2 0).revealed with
  | false => rfl
  | true =>
    have hm := hnew 2 0 (by decide) hr
    rw [hmine 2 0] at hm
    revert hm
    decide

/-- C24. First-click relocation indexing is safe under the capacity
precondition. For every board state and every first click `(x, y)` with 3x3
block `S`: the capacity condition "mines inside `S` ≤ mine-free cells outside
`S`" holds in particular when `mineCount ≤ rows * cols - |S|`; under it, for
every permutation-valued shuffle, `toMove.size() ≤ pool.size()`, so every
access `pool[i]` with `i < toMove.size()` is within bounds, and it yields a
position of the grid outside `S` whose tile holds no mine, neither originally
nor when the loop reaches it, and which differs from every earlier `pool[j]`;
the relocation then produces its board. -/
theorem relocation_indexing_safe (shuf : List Nat → List Nat) (hshuf : ∀ l, (shuf l).Perm l)
    (b : Board) (hwf : b.WF) (x y : Int) :
    (mineCount b ≤ b.rows_ * b.cols_ - (safeTiles b x y).length → Capacity b x y) ∧
    (Capacity b x y →
      (toMove b x y).length = minesInside b x y ∧
      (toMove b x y).length ≤ (pool shuf b x y).length ∧
      (∀ i, i < (toMove b x y).length →
        ∃ p, (pool shuf b x y)[i]? = some p ∧ p < b.rows_ * b.cols_ ∧ p ∉ safeTiles b x y ∧
          (getTile b.tiles p).mine = false ∧
          (getTile (placeMines ((pool shuf b x y).take i) (clearedTiles b x y)) p).mine = false ∧
          ∀ j, j < i → (pool shuf b x y)[j]? ≠ some p) ∧
      relocate shuf b x y = some (computeAdjacentMines { b with
        firstClick_ := false,
        tiles := placeMines ((pool shuf b x y).take (toMove b x y).length)
          (clearedTiles b x y) })) := by
  constructor
  · intro h
    rw [capacity_iff b hwf x y]
    have := safeTiles_length_le b x y
    omega
  · intro hcap
    have hlen := (pool_length_iff shuf hshuf b x y).2 hcap
    refine ⟨gatherMines_length b x y, hlen, ?_, ?_⟩
    · intro i hi
      exact pool_access shuf hshuf b x y i (Nat.lt_of_lt_of_le hi hlen)
    · rw [relocate_unfold, if_pos hlen]

theorem relocation_indexing_safe_witness :
    (toMove ⟨1, 4, [{ mine := true }, { adjacentMines := 1 }, {}, {}], true, -1, -1⟩ 0 0).length
      ≤ (pool id ⟨1, 4, [{ mine := true }, { adjacentMines := 1 }, {}, {}],
          true, -1, -1⟩ 0 0).length ∧
    ∃ p, (pool id ⟨1, 4, [{ mine := true }, { adjacentMines := 1 }, {}, {}],
        true, -1, -1⟩ 0 0)[0]? = some p ∧ p < 1 * 4 ∧
      p ∉ safeTiles ⟨1, 4, [{ mine := true }, { adjacentMines := 1 }, {}, {}],
        true, -1, -1⟩ 0 0 := by
  obtain ⟨_, hlen, hacc, _⟩ := (relocation_indexing_safe id (fun _ => List.Perm.refl _)
    ⟨1, 4, [{ mine := true }, { adjacentMines := 1 }, {}, {}], true, -1, -1⟩
    (by decide) 0 0).2 (by decide)
  obtain ⟨p, hp, hlt, hns, _⟩ := hacc 0 (by decide)
  exact ⟨hlen, p, hp, hlt, hns⟩

end Minesweeper
